import Mathlib

/-!
Verification of the dungeon-generation core of AIDungeonCrawlerConcept.

The definitions below are shallow embeddings of the TypeScript sources:
  * `app/components/dungeon-generation/dungeon.tsx` (grid model, room
    placement, loop augmenter, corridor router),
  * the Delaunay/Prim module re-exported through `app/layout.tsx`
    (`createGraphFromPoints`, `primMST`).

JavaScript numbers are embedded as `ℚ` (for geometry and random draws) and
`ℤ` (for grid coordinates); grids are lists of rows of cell types, and the
ambient `Math.random()` stream is an explicit function `ℕ → ℚ` threaded by
index, as the spec itself demands for a faithful port.
-/

namespace AIDC

/-- Cell states, from `CellTypeEnum` in dungeon.tsx. -/
inductive CellTypeEnum
  | room
  | corridor
  | empty
deriving DecidableEq, Repr

/-- `CellType` is the (closed) union of the three enum members. -/
abbrev CellType := CellTypeEnum

/-- A 2D point with rational coordinates (JS numbers). -/
structure Point where
  x : ℚ
  y : ℚ
deriving DecidableEq, Repr

/-- An edge between two point indices, from the Delaunay module. -/
structure Edge where
  a : ℕ
  b : ℕ
deriving DecidableEq, Repr

/-- A triangle of three point indices, from the Delaunay module. -/
structure Triangle where
  a : ℕ
  b : ℕ
  c : ℕ
deriving DecidableEq, Repr

/-- `Graph = { points, edges, triangles? }`; the optional `triangles`
field defaults to the empty list. -/
structure Graph where
  points : List Point
  edges : List Edge
  triangles : List Triangle := []
deriving DecidableEq, Repr

/-- An axis-aligned room rectangle with its precomputed center. -/
structure Room where
  x : ℤ
  y : ℤ
  width : ℤ
  height : ℤ
  center : ℤ × ℤ
deriving DecidableEq, Repr

/-- A width/height pair (the `{width, height}` size literals). -/
structure Size where
  width : ℤ
  height : ℤ
deriving DecidableEq, Repr

def MIN_ROOM_SIZE : Size := ⟨3, 3⟩
def MAX_ROOM_SIZE : Size := ⟨7, 7⟩
def DUNGEON_SIZE : Size := ⟨30, 30⟩
def MAX_ROOMS : ℕ := 7
def EXTRA_EDGE_CHANCE : ℚ := 3 / 10
def ROOM_SEPARATION : ℤ := 5
def ROOM_CORRIDOR_GAP : ℤ := 2
def CORRIDOR_CORRIDOR_GAP : ℤ := 1

/-- The grid: a list of rows, each row a list of cell types.  The source
stores `{x, y, type}` records; the `x`/`y` fields always coincide with the
cell's indices and are never read back, so only the `type` is kept. -/
abbrev Grid := List (List CellType)

/-- Read a cell; out-of-range reads return `empty` (the source always
bounds-checks before reading in the code paths under verification). -/
def get2 (cells : Grid) (x y : ℤ) : CellType :=
  if 0 ≤ x ∧ 0 ≤ y then ((cells[y.toNat]?.getD [])[x.toNat]?).getD CellTypeEnum.empty
  else CellTypeEnum.empty

/-- Write a cell type; out-of-range writes leave the grid unchanged. -/
def set2 (cells : Grid) (x y : ℤ) (v : CellType) : Grid :=
  if 0 ≤ x ∧ 0 ≤ y then
    cells.set y.toNat ((cells[y.toNat]?.getD []).set x.toNat v)
  else cells

/-- `(x, y)` addresses an actual cell of `cells`. -/
def inBoundsG (cells : Grid) (x y : ℤ) : Prop :=
  0 ≤ x ∧ 0 ≤ y ∧ y.toNat < cells.length ∧ x.toNat < (cells[y.toNat]?.getD []).length

instance (cells : Grid) (x y : ℤ) : Decidable (inBoundsG cells x y) := by
  unfold inBoundsG; infer_instance

theorem length_set2 (cells : Grid) (x y : ℤ) (v : CellType) :
    (set2 cells x y v).length = cells.length := by
  unfold set2; split <;> simp

theorem rowlen_set2 (cells : Grid) (x y : ℤ) (v : CellType) (j : ℕ) :
    ((set2 cells x y v)[j]?.getD []).length = (cells[j]?.getD []).length := by
  unfold set2
  split
  · rcases Nat.lt_or_ge j cells.length with hj | hj
    · by_cases hjy : j = y.toNat
      · subst hjy
        rw [List.getElem?_set_self (by simpa using hj)]
        simp
      · rw [List.getElem?_set_ne (by omega)]
    · rw [List.getElem?_eq_none (by simpa using hj), List.getElem?_eq_none hj]
  · rfl

theorem inBoundsG_set2 (cells : Grid) (x y x' y' : ℤ) (v : CellType) :
    inBoundsG (set2 cells x y v) x' y' ↔ inBoundsG cells x' y' := by
  unfold inBoundsG
  rw [length_set2, rowlen_set2]

theorem set2_oob (cells : Grid) (x y : ℤ) (v : CellType)
    (h : ¬ inBoundsG cells x y) : set2 cells x y v = cells := by
  unfold set2
  split
  · rename_i hxy
    unfold inBoundsG at h
    push_neg at h
    rcases Nat.lt_or_ge y.toNat cells.length with hy | hy
    · have hx : (cells[y.toNat]?.getD []).length ≤ x.toNat := h hxy.1 hxy.2 hy
      rw [List.set_eq_of_length_le hx]
      apply List.ext_getElem?
      intro j
      by_cases hj : j = y.toNat
      · subst hj
        rw [List.getElem?_set_self (by simpa using hy)]
        simp [List.getElem?_eq_getElem hy]
      · rw [List.getElem?_set_ne (by omega)]
    · exact List.set_eq_of_length_le (by simpa using hy)
  · rfl

theorem get2_set2_eq (cells : Grid) (x y : ℤ) (v : CellType)
    (h : inBoundsG cells x y) : get2 (set2 cells x y v) x y = v := by
  obtain ⟨hx, hy, hly, hlx⟩ := h
  unfold get2 set2
  rw [if_pos ⟨hx, hy⟩, if_pos ⟨hx, hy⟩]
  rw [List.getElem?_set_self (by simpa using hly)]
  simp only [Option.getD_some]
  rw [List.getElem?_set_self (by simpa using hlx)]
  simp

theorem get2_set2_ne (cells : Grid) (x y x' y' : ℤ) (v : CellType)
    (h : x' ≠ x ∨ y' ≠ y) : get2 (set2 cells x y v) x' y' = get2 cells x' y' := by
  unfold get2 set2
  by_cases hxy : 0 ≤ x ∧ 0 ≤ y
  · rw [if_pos hxy]
    by_cases hxy' : 0 ≤ x' ∧ 0 ≤ y'
    · rw [if_pos hxy', if_pos hxy']
      by_cases hyy : y'.toNat = y.toNat
      · have hyz : y' = y := by omega
        have hxz : x' ≠ x := by tauto
        rcases Nat.lt_or_ge y.toNat cells.length with hly | hly
        · rw [hyy, List.getElem?_set_self (by simpa using hly)]
          simp only [Option.getD_some]
          rw [List.getElem?_set_ne (by omega)]
        · rw [List.set_eq_of_length_le (by simpa using hly)]
      · rw [List.getElem?_set_ne (by omega)]
    · rw [if_neg hxy', if_neg hxy']
  · rw [if_neg hxy]

/-- `createEmptyDungeon` from dungeon.tsx: a `height × width` grid of
`empty` cells. -/
def createEmptyDungeon (width height : ℤ) : Grid :=
  List.replicate height.toNat (List.replicate width.toNat CellTypeEnum.empty)

/-- `isAreaEmpty` from dungeon.tsx: scans the intersection of the rectangle
`[x, x+width) × [y, y+height)` with the grid (clamping to the grid bounds)
and reports whether every scanned cell is `empty`. -/
def isAreaEmpty (cells : Grid) (x y width height : ℤ) : Bool :=
  (List.range (min (cells.length : ℤ) (y + height) - max 0 y).toNat).all fun dj =>
    (List.range (min ((cells[0]?.getD []).length : ℤ) (x + width) - max 0 x).toNat).all fun di =>
      decide (get2 cells (max 0 x + di) (max 0 y + dj) = CellTypeEnum.empty)

/-- `isAreaEmpty` checks exactly the in-bounds part of the requested
rectangle (out-of-bounds positions are ignored, i.e. treated as empty). -/
theorem isAreaEmpty_iff (cells : Grid) (x y width height : ℤ) :
    isAreaEmpty cells x y width height = true ↔
      ∀ i j : ℤ, x ≤ i → i < x + width → y ≤ j → j < y + height →
        0 ≤ i → i < ((cells[0]?.getD []).length : ℤ) → 0 ≤ j → j < (cells.length : ℤ) →
        get2 cells i j = CellTypeEnum.empty := by
  simp only [isAreaEmpty, List.all_eq_true, List.mem_range, decide_eq_true_eq]
  constructor
  · intro H i j h1 h2 h3 h4 h5 h6 h7 h8
    have hj := H (j - max 0 y).toNat (by omega)
    have hi := hj (i - max 0 x).toNat (by omega)
    have ei : max 0 x + ((i - max 0 x).toNat : ℤ) = i := by omega
    have ej : max 0 y + ((j - max 0 y).toNat : ℤ) = j := by omega
    rwa [ei, ej] at hi
  · intro H dj hdj di hdi
    exact H _ _ (by omega) (by omega) (by omega) (by omega)
      (by omega) (by omega) (by omega) (by omega)

/-- The list of cell coordinates of the rectangle with top-left `(rx, ry)`
and the given width/height (the iteration space of `placeRoom`). -/
def rectCells (rx ry w h : ℤ) : List (ℤ × ℤ) :=
  (List.range h.toNat).flatMap fun (dy : ℕ) =>
    (List.range w.toNat).map fun (dx : ℕ) => (rx + (dx : ℤ), ry + (dy : ℤ))

theorem pair_ne_coords {i j : ℤ} {p : ℤ × ℤ} (h : (i, j) ≠ p) : i ≠ p.1 ∨ j ≠ p.2 := by
  by_contra hc
  push_neg at hc
  exact h (Prod.ext_iff.mpr ⟨hc.1, hc.2⟩)

theorem mem_rectCells (rx ry w h i j : ℤ) :
    (i, j) ∈ rectCells rx ry w h ↔
      rx ≤ i ∧ i < rx + w ∧ ry ≤ j ∧ j < ry + h := by
  unfold rectCells
  rw [List.mem_flatMap]
  constructor
  · rintro ⟨dy, hdy, hmem⟩
    rw [List.mem_map] at hmem
    obtain ⟨dx, hdx, heq⟩ := hmem
    rw [List.mem_range] at hdy hdx
    rw [Prod.mk.injEq] at heq
    obtain ⟨h1, h2⟩ := heq
    omega
  · rintro ⟨h1, h2, h3, h4⟩
    refine ⟨(j - ry).toNat, by rw [List.mem_range]; omega, ?_⟩
    rw [List.mem_map]
    refine ⟨(i - rx).toNat, by rw [List.mem_range]; omega, ?_⟩
    rw [Prod.mk.injEq]
    constructor <;> omega

/-- A fold of unconditional same-value writes, evaluated pointwise. -/
theorem get2_foldl_set (L : List (ℤ × ℤ)) (v : CellType) (g : Grid) (i j : ℤ) :
    get2 (L.foldl (fun g p => set2 g p.1 p.2 v) g) i j =
      if (i, j) ∈ L ∧ inBoundsG g i j then v else get2 g i j := by
  induction L generalizing g with
  | nil => simp
  | cons p L ih =>
    simp only [List.foldl_cons, List.mem_cons]
    rw [ih]
    by_cases hb : inBoundsG g i j
    · by_cases hL : (i, j) ∈ L
      · rw [if_pos ⟨hL, (inBoundsG_set2 g p.1 p.2 i j v).mpr hb⟩, if_pos ⟨Or.inr hL, hb⟩]
      · rw [if_neg (by rw [inBoundsG_set2]; tauto)]
        by_cases hp : (i, j) = p
        · rw [if_pos ⟨Or.inl hp, hb⟩]
          subst hp
          exact get2_set2_eq g i j v hb
        · rw [if_neg (by tauto)]
          exact get2_set2_ne g p.1 p.2 i j v (pair_ne_coords hp)
    · rw [if_neg (by rw [inBoundsG_set2]; tauto), if_neg (by tauto)]
      by_cases hpb : inBoundsG g p.1 p.2
      · by_cases hp : (i, j) = p
        · subst hp
          exact absurd hpb hb
        · exact get2_set2_ne g p.1 p.2 i j v (pair_ne_coords hp)
      · rw [set2_oob g p.1 p.2 v hpb]

/-- `placeRoom` from dungeon.tsx: mark every cell of the room's rectangle
as `room` (the source writes row by row without bounds checks). -/
def placeRoom (cells : Grid) (room : Room) : Grid :=
  (rectCells room.x room.y room.width room.height).foldl
    (fun g p => set2 g p.1 p.2 CellTypeEnum.room) cells

theorem get2_placeRoom (cells : Grid) (room : Room) (i j : ℤ) :
    get2 (placeRoom cells room) i j =
      if (room.x ≤ i ∧ i < room.x + room.width ∧
          room.y ≤ j ∧ j < room.y + room.height) ∧ inBoundsG cells i j
      then CellTypeEnum.room else get2 cells i j := by
  unfold placeRoom
  rw [get2_foldl_set]
  simp only [mem_rectCells]

/-- `carveCells` from dungeon.tsx: turn each in-bounds, non-room cell of
the path into a corridor cell. -/
def carveCells (cells : Grid) (path : List (ℤ × ℤ)) (cols rows : ℤ) : Grid :=
  path.foldl
    (fun g p =>
      if p.2 < 0 ∨ rows ≤ p.2 ∨ p.1 < 0 ∨ cols ≤ p.1 then g
      else if get2 g p.1 p.2 = CellTypeEnum.room then g
      else set2 g p.1 p.2 CellTypeEnum.corridor) cells

theorem carveCells_room_stable (path : List (ℤ × ℤ)) (cols rows : ℤ) (cells : Grid)
    (i j : ℤ) (h : get2 cells i j = CellTypeEnum.room) :
    get2 (carveCells cells path cols rows) i j = CellTypeEnum.room := by
  unfold carveCells
  induction path generalizing cells with
  | nil => simpa using h
  | cons p path ih =>
    simp only [List.foldl_cons]
    apply ih
    split
    · exact h
    · split
      · exact h
      · rename_i hroom
        by_cases hp : p.1 = i ∧ p.2 = j
        · exact absurd (hp.1 ▸ hp.2 ▸ h) hroom
        · rw [get2_set2_ne _ _ _ _ _ _ (by tauto)]
          exact h

theorem carveCells_no_new_room (path : List (ℤ × ℤ)) (cols rows : ℤ) (cells : Grid)
    (i j : ℤ) (h : get2 cells i j ≠ CellTypeEnum.room) :
    get2 (carveCells cells path cols rows) i j ≠ CellTypeEnum.room := by
  unfold carveCells
  induction path generalizing cells with
  | nil => simpa using h
  | cons p path ih =>
    simp only [List.foldl_cons]
    apply ih
    split
    · exact h
    · split
      · exact h
      · by_cases hp : p.1 = i ∧ p.2 = j
        · obtain ⟨hp1, hp2⟩ := hp
          subst hp1
          subst hp2
          by_cases hb : inBoundsG cells p.1 p.2
          · rw [get2_set2_eq cells p.1 p.2 CellTypeEnum.corridor hb]
            simp
          · rw [set2_oob _ _ _ _ hb]
            exact h
        · rw [get2_set2_ne _ _ _ _ _ _ (by tauto)]
          exact h

/-- The state threaded through `createDungeon`'s room-placement loop: the
grid, the rooms placed so far, and the index of the next unread value of
the random stream (the ambient `Math.random()` made explicit). -/
structure PlacementState where
  cells : Grid
  rooms : List Room
  ridx : ℕ
deriving Repr

/-- The random stream models `Math.random()`: every draw is in `[0, 1)`. -/
def validRnd (rnd : ℕ → ℚ) : Prop :=
  ∀ k, 0 ≤ rnd k ∧ rnd k < 1

/-- The `innerWidth` draw of one placement attempt:
`Math.floor(Math.random() * (MAX_ROOM_SIZE.width - MIN_ROOM_SIZE.width + 1)) + MIN_ROOM_SIZE.width`. -/
def drawnWidth (rnd : ℕ → ℚ) (k : ℕ) : ℤ :=
  ⌊rnd k * ((MAX_ROOM_SIZE.width - MIN_ROOM_SIZE.width + 1 : ℤ) : ℚ)⌋ + MIN_ROOM_SIZE.width

/-- The `innerHeight` draw of one placement attempt. -/
def drawnHeight (rnd : ℕ → ℚ) (k : ℕ) : ℤ :=
  ⌊rnd (k + 1) * ((MAX_ROOM_SIZE.height - MIN_ROOM_SIZE.height + 1 : ℤ) : ℚ)⌋ +
    MIN_ROOM_SIZE.height

/-- The room candidate produced by one placement attempt reading the
random stream at positions `k..k+3`: size, then position
(`Math.floor(Math.random() * (DUNGEON_SIZE.width - innerWidth))`), with
the floor-divided midpoint as center. -/
def drawnRoom (rnd : ℕ → ℚ) (k : ℕ) : Room :=
  let innerWidth := drawnWidth rnd k
  let innerHeight := drawnHeight rnd k
  let roomX : ℤ := ⌊rnd (k + 2) * ((DUNGEON_SIZE.width - innerWidth : ℤ) : ℚ)⌋
  let roomY : ℤ := ⌊rnd (k + 3) * ((DUNGEON_SIZE.height - innerHeight : ℤ) : ℚ)⌋
  { x := roomX, y := roomY, width := innerWidth, height := innerHeight,
    center := (⌊(roomX : ℚ) + (innerWidth : ℚ) / 2⌋, ⌊(roomY : ℚ) + (innerHeight : ℚ) / 2⌋) }

/-- One iteration of `createDungeon`'s placement loop (lines 89-118):
draw a size and a position, and place the room exactly when its rectangle
expanded by `ROOM_SEPARATION` on all sides is entirely empty. -/
def placementAttempt (rnd : ℕ → ℚ) (st : PlacementState) : PlacementState :=
  let newRoom := drawnRoom rnd st.ridx
  if isAreaEmpty st.cells (newRoom.x - ROOM_SEPARATION) (newRoom.y - ROOM_SEPARATION)
      (newRoom.width + ROOM_SEPARATION * 2) (newRoom.height + ROOM_SEPARATION * 2) then
    ⟨placeRoom st.cells newRoom, st.rooms ++ [newRoom], st.ridx + 4⟩
  else
    ⟨st.cells, st.rooms, st.ridx + 4⟩

/-- The placement `while` loop: keep attempting while fewer than
`MAX_ROOMS` rooms are placed and the attempt budget is not exhausted
(`fuel` counts the remaining attempts out of `MAX_ROOMS * 8`). -/
def placementLoop (rnd : ℕ → ℚ) : ℕ → PlacementState → PlacementState
  | 0, st => st
  | fuel + 1, st =>
      if st.rooms.length < MAX_ROOMS then placementLoop rnd fuel (placementAttempt rnd st)
      else st

/-- The complete room-placement phase of `createDungeon`. -/
def placementPhase (rnd : ℕ → ℚ) : PlacementState :=
  placementLoop rnd (MAX_ROOMS * 8)
    ⟨createEmptyDungeon DUNGEON_SIZE.width DUNGEON_SIZE.height, [], 0⟩

/-- The room rectangle fits inside the dungeon grid. -/
def roomInGrid (r : Room) : Prop :=
  0 ≤ r.x ∧ 0 ≤ r.y ∧ 1 ≤ r.width ∧ 1 ≤ r.height ∧
    r.x + r.width ≤ DUNGEON_SIZE.width ∧ r.y + r.height ≤ DUNGEON_SIZE.height

instance (r : Room) : Decidable (roomInGrid r) := by
  unfold roomInGrid; infer_instance

/-- `(i, j)` is one of the cells of room `r`. -/
def inRoomCell (r : Room) (i j : ℤ) : Prop :=
  r.x ≤ i ∧ i < r.x + r.width ∧ r.y ≤ j ∧ j < r.y + r.height

instance (r : Room) (i j : ℤ) : Decidable (inRoomCell r i j) := by
  unfold inRoomCell; infer_instance

/-- The grid has the fixed `DUNGEON_SIZE` dimensions. -/
def gridDims (g : Grid) : Prop :=
  g.length = DUNGEON_SIZE.height.toNat ∧
    ∀ j : ℕ, j < g.length → (g[j]?.getD []).length = DUNGEON_SIZE.width.toNat

theorem gridDims_createEmptyDungeon :
    gridDims (createEmptyDungeon DUNGEON_SIZE.width DUNGEON_SIZE.height) := by
  unfold createEmptyDungeon gridDims
  constructor
  · simp
  · intro j hj
    rw [List.getElem?_eq_getElem (by simpa using hj)]
    simp

theorem gridDims_set2 (g : Grid) (x y : ℤ) (v : CellType) (hg : gridDims g) :
    gridDims (set2 g x y v) := by
  obtain ⟨h1, h2⟩ := hg
  refine ⟨by rw [length_set2, h1], ?_⟩
  intro j hj
  rw [length_set2] at hj
  rw [rowlen_set2]
  exact h2 j hj

theorem gridDims_placeRoom (g : Grid) (r : Room) (hg : gridDims g) :
    gridDims (placeRoom g r) := by
  unfold placeRoom
  generalize rectCells r.x r.y r.width r.height = L
  induction L generalizing g with
  | nil => simpa using hg
  | cons p L ih =>
    simp only [List.foldl_cons]
    exact ih _ (gridDims_set2 g p.1 p.2 _ hg)

theorem gridDims_carveCells (g : Grid) (path : List (ℤ × ℤ)) (cols rows : ℤ)
    (hg : gridDims g) : gridDims (carveCells g path cols rows) := by
  unfold carveCells
  induction path generalizing g with
  | nil => simpa using hg
  | cons p path ih =>
    simp only [List.foldl_cons]
    apply ih
    split
    · exact hg
    · split
      · exact hg
      · exact gridDims_set2 g p.1 p.2 _ hg

theorem inBoundsG_of_dims (g : Grid) (i j : ℤ) (hg : gridDims g) :
    inBoundsG g i j ↔ 0 ≤ i ∧ i < DUNGEON_SIZE.width ∧ 0 ≤ j ∧ j < DUNGEON_SIZE.height := by
  obtain ⟨h1, h2⟩ := hg
  unfold inBoundsG
  constructor
  · rintro ⟨hi, hj, hjl, hil⟩
    rw [h2 j.toNat hjl] at hil
    rw [h1] at hjl
    refine ⟨hi, ?_, hj, ?_⟩
    · have : (DUNGEON_SIZE.width : ℤ) = 30 := by decide
      omega
    · have : (DUNGEON_SIZE.height : ℤ) = 30 := by decide
      omega
  · rintro ⟨hi, hiw, hj, hjh⟩
    have hw : (DUNGEON_SIZE.width : ℤ) = 30 := by decide
    have hh : (DUNGEON_SIZE.height : ℤ) = 30 := by decide
    refine ⟨hi, hj, ?_, ?_⟩
    · omega
    · rw [h2 j.toNat (by omega)]
      omega

/-- Two rooms are separated: every cell of one is at Chebyshev distance at
least `ROOM_SEPARATION` from every cell of the other. -/
def roomsSeparated (r s : Room) : Prop :=
  ∀ i j i' j' : ℤ, inRoomCell r i j → inRoomCell s i' j' →
    ROOM_SEPARATION ≤ max |i - i'| |j - j'|

/-- Invariant carried through the placement loop. -/
structure PlacementInv (st : PlacementState) : Prop where
  dims : gridDims st.cells
  bounds : ∀ r ∈ st.rooms, roomInGrid r
  marked : ∀ r ∈ st.rooms, ∀ i j : ℤ, inRoomCell r i j → get2 st.cells i j = CellTypeEnum.room
  sep : st.rooms.Pairwise roomsSeparated

theorem floor_rand_scale {q : ℚ} (m : ℤ) (h0 : 0 ≤ q) (h1 : q < 1) (hm : 1 ≤ m) :
    0 ≤ ⌊q * (m : ℚ)⌋ ∧ ⌊q * (m : ℚ)⌋ < m := by
  have hm' : (0 : ℚ) < (m : ℚ) := by exact_mod_cast hm
  constructor
  · apply Int.le_floor.mpr
    push_cast
    positivity
  · apply Int.floor_lt.mpr
    calc q * (m : ℚ) < 1 * (m : ℚ) := by
          exact mul_lt_mul_of_pos_right h1 hm'
      _ = (m : ℚ) := one_mul _

theorem drawnWidth_bounds (rnd : ℕ → ℚ) (hrnd : validRnd rnd) (k : ℕ) :
    MIN_ROOM_SIZE.width ≤ drawnWidth rnd k ∧ drawnWidth rnd k ≤ MAX_ROOM_SIZE.width := by
  unfold drawnWidth
  obtain ⟨h0, h1⟩ := hrnd k
  have h5 : (MAX_ROOM_SIZE.width - MIN_ROOM_SIZE.width + 1 : ℤ) = 5 := by decide
  rw [h5]
  have := floor_rand_scale (q := rnd k) 5 h0 h1 (by omega)
  have hmin : MIN_ROOM_SIZE.width = 3 := by decide
  have hmax : MAX_ROOM_SIZE.width = 7 := by decide
  omega

theorem drawnHeight_bounds (rnd : ℕ → ℚ) (hrnd : validRnd rnd) (k : ℕ) :
    MIN_ROOM_SIZE.height ≤ drawnHeight rnd k ∧ drawnHeight rnd k ≤ MAX_ROOM_SIZE.height := by
  unfold drawnHeight
  obtain ⟨h0, h1⟩ := hrnd (k + 1)
  have h5 : (MAX_ROOM_SIZE.height - MIN_ROOM_SIZE.height + 1 : ℤ) = 5 := by decide
  rw [h5]
  have := floor_rand_scale (q := rnd (k + 1)) 5 h0 h1 (by omega)
  have hmin : MIN_ROOM_SIZE.height = 3 := by decide
  have hmax : MAX_ROOM_SIZE.height = 7 := by decide
  omega

/-- The position draw keeps the drawn room entirely inside the grid:
`roomX = Math.floor(Math.random() * (DUNGEON_SIZE.width - innerWidth))`
lies in `[0, DUNGEON_SIZE.width - innerWidth - 1]`. -/
theorem drawnRoom_inGrid (rnd : ℕ → ℚ) (hrnd : validRnd rnd) (k : ℕ) :
    roomInGrid (drawnRoom rnd k) := by
  have hw := drawnWidth_bounds rnd hrnd k
  have hh := drawnHeight_bounds rnd hrnd k
  have hminw : MIN_ROOM_SIZE.width = 3 := by decide
  have hmaxw : MAX_ROOM_SIZE.width = 7 := by decide
  have hminh : MIN_ROOM_SIZE.height = 3 := by decide
  have hmaxh : MAX_ROOM_SIZE.height = 7 := by decide
  have hdw : DUNGEON_SIZE.width = 30 := by decide
  have hdh : DUNGEON_SIZE.height = 30 := by decide
  obtain ⟨hx0, hx1⟩ := hrnd (k + 2)
  obtain ⟨hy0, hy1⟩ := hrnd (k + 3)
  have hX := floor_rand_scale (q := rnd (k + 2)) (DUNGEON_SIZE.width - drawnWidth rnd k)
    hx0 hx1 (by omega)
  have hY := floor_rand_scale (q := rnd (k + 3)) (DUNGEON_SIZE.height - drawnHeight rnd k)
    hy0 hy1 (by omega)
  refine ⟨?_, ?_, ?_, ?_, ?_, ?_⟩ <;>
    simp only [drawnRoom, roomInGrid] <;> omega

theorem placementAttempt_inv (rnd : ℕ → ℚ) (hrnd : validRnd rnd) (st : PlacementState)
    (h : PlacementInv st) : PlacementInv (placementAttempt rnd st) := by
  unfold placementAttempt
  dsimp only
  set r := drawnRoom rnd st.ridx with hr
  split
  case isFalse => exact ⟨h.dims, h.bounds, h.marked, h.sep⟩
  case isTrue hempty =>
    have hrg : roomInGrid r := drawnRoom_inGrid rnd hrnd st.ridx
    have hdw : (DUNGEON_SIZE.width : ℤ) = 30 := by decide
    have hdh : (DUNGEON_SIZE.height : ℤ) = 30 := by decide
    have hsep5 : (ROOM_SEPARATION : ℤ) = 5 := by decide
    have hrow0 : ((st.cells[0]?.getD []).length : ℤ) = 30 := by
      have := h.dims.2 0 (by rw [h.dims.1]; decide)
      rw [this]
      decide
    have hlen : ((st.cells.length : ℕ) : ℤ) = 30 := by
      rw [h.dims.1]; decide
    -- any cell of an existing room within Chebyshev distance
    -- ROOM_SEPARATION - 1 of the candidate rectangle is inside the
    -- expanded rectangle, hence would contradict emptiness
    have key : ∀ s ∈ st.rooms, roomsSeparated s r := by
      intro s hs
      intro i j i' j' hcs hcr
      by_contra hlt
      push_neg at hlt
      obtain ⟨hsx, hsy, hsw, hsh, hsxw, hsyh⟩ := h.bounds s hs
      obtain ⟨rx0, ry0, rw1, rh1, rxw, ryh⟩ := hrg
      obtain ⟨c1, c2, c3, c4⟩ := hcs
      obtain ⟨d1, d2, d3, d4⟩ := hcr
      have hmax1 : |i - i'| ≤ ROOM_SEPARATION - 1 := by
        have := le_max_left |i - i'| |j - j'|
        omega
      have hmax2 : |j - j'| ≤ ROOM_SEPARATION - 1 := by
        have := le_max_right |i - i'| |j - j'|
        omega
      have hab1 := abs_le.mp hmax1
      have hab2 := abs_le.mp hmax2
      have hempty' := (isAreaEmpty_iff st.cells (r.x - ROOM_SEPARATION)
        (r.y - ROOM_SEPARATION) (r.width + ROOM_SEPARATION * 2)
        (r.height + ROOM_SEPARATION * 2)).mp hempty i j
        (by omega) (by omega) (by omega) (by omega)
        (by omega) (by omega) (by omega) (by omega)
      have hmark := h.marked s hs i j ⟨c1, c2, c3, c4⟩
      rw [hmark] at hempty'
      exact CellTypeEnum.noConfusion hempty'
    refine ⟨gridDims_placeRoom _ _ h.dims, ?_, ?_, ?_⟩
    · intro s hs
      rcases List.mem_append.mp hs with hs | hs
      · exact h.bounds s hs
      · rw [List.mem_singleton.mp hs]
        exact hrg
    · intro s hs i j hc
      rcases List.mem_append.mp hs with hs | hs
      · rw [get2_placeRoom]
        split
        · rfl
        · exact h.marked s hs i j hc
      · rw [List.mem_singleton.mp hs] at hc
        rw [get2_placeRoom]
        rw [if_pos]
        refine ⟨⟨hc.1, hc.2.1, hc.2.2.1, hc.2.2.2⟩, ?_⟩
        rw [inBoundsG_of_dims _ _ _ h.dims]
        obtain ⟨rx0, ry0, rw1, rh1, rxw, ryh⟩ := hrg
        obtain ⟨c1, c2, c3, c4⟩ := hc
        exact ⟨by omega, by omega, by omega, by omega⟩
    · rw [List.pairwise_append]
      exact ⟨h.sep, List.pairwise_singleton _ _, by
        intro a ha b hb
        rw [List.mem_singleton.mp hb]
        exact key a ha⟩

theorem placementLoop_inv (rnd : ℕ → ℚ) (hrnd : validRnd rnd) (fuel : ℕ)
    (st : PlacementState) (h : PlacementInv st) :
    PlacementInv (placementLoop rnd fuel st) := by
  induction fuel generalizing st with
  | zero => exact h
  | succ fuel ih =>
    unfold placementLoop
    split
    · exact ih _ (placementAttempt_inv rnd hrnd st h)
    · exact h

theorem placementPhase_inv (rnd : ℕ → ℚ) (hrnd : validRnd rnd) :
    PlacementInv (placementPhase rnd) := by
  apply placementLoop_inv rnd hrnd
  refine ⟨gridDims_createEmptyDungeon, ?_, ?_, ?_⟩ <;> simp

/-! ### Delaunay triangulation (Bowyer–Watson), from the module exported
through `app/layout.tsx` -/

/-- `edgeKey` canonicalizes an unordered index pair.  The source builds the
string `"min,max"`; the ordered pair carries the same information. -/
def edgeKey (a b : ℕ) : ℕ × ℕ :=
  if a < b then (a, b) else (b, a)

/-- The determinant-based circumcircle test, with the source's numeric
policy: `|d| < 1e-12` counts as colinear (not contained), and a `1e-8`
slack is added to the squared circumradius. -/
def circumcircleContains (pA pB pC p : Point) : Bool :=
  let d := 2 * (pA.x * (pB.y - pC.y) + pB.x * (pC.y - pA.y) + pC.x * (pA.y - pB.y))
  if |d| < 1 / 10 ^ 12 then false
  else
    let ux := ((pA.x * pA.x + pA.y * pA.y) * (pB.y - pC.y) +
        (pB.x * pB.x + pB.y * pB.y) * (pC.y - pA.y) +
        (pC.x * pC.x + pC.y * pC.y) * (pA.y - pB.y)) / d
    let uy := ((pA.x * pA.x + pA.y * pA.y) * (pC.x - pB.x) +
        (pB.x * pB.x + pB.y * pB.y) * (pA.x - pC.x) +
        (pC.x * pC.x + pC.y * pC.y) * (pB.x - pA.x)) / d
    let dx := ux - p.x
    let dy := uy - p.y
    let r2 := (ux - pA.x) * (ux - pA.x) + (uy - pA.y) * (uy - pA.y)
    let dist2 := dx * dx + dy * dy
    decide (dist2 ≤ r2 + 1 / 10 ^ 8)

/-- The three directed edges of a triangle, in the source's order. -/
def triEdges (t : Triangle) : List Edge :=
  [⟨t.a, t.b⟩, ⟨t.b, t.c⟩, ⟨t.c, t.a⟩]

/-- One XOR-toggle of the boundary `Map`: deleting the entry if the
canonical key is present, inserting it otherwise (JS `Map` keeps insertion
order, hence the append). -/
def toggleEdge (m : List ((ℕ × ℕ) × Edge)) (e : Edge) : List ((ℕ × ℕ) × Edge) :=
  let key := edgeKey e.a e.b
  if m.any (fun kv => kv.1 = key) then m.filter (fun kv => decide (kv.1 ≠ key))
  else m ++ [(key, e)]

/-- The boundary of the union of the bad triangles: XOR each bad
triangle's three edges into the keyed map. -/
def collectBoundary (bad : List Triangle) : List ((ℕ × ℕ) × Edge) :=
  bad.foldl (fun m t => (triEdges t).foldl toggleEdge m) []

/-- One Bowyer–Watson insertion of point `i`: find the triangles whose
circumcircle contains it, remove them, and re-triangulate their boundary
against the new point. -/
def bwStep (pts : List Point) (i : ℕ) (triangles : List Triangle) : List Triangle :=
  let point := pts.getD i ⟨0, 0⟩
  let bad := triangles.filter fun t =>
    circumcircleContains (pts.getD t.a ⟨0, 0⟩) (pts.getD t.b ⟨0, 0⟩) (pts.getD t.c ⟨0, 0⟩) point
  let boundary := collectBoundary bad
  triangles.filter (fun t => decide (t ∉ bad)) ++ boundary.map fun kv => ⟨kv.2.a, kv.2.b, i⟩

/-- The final deduplicated edge collection: first occurrence of each
canonical key wins. -/
def dedupEdges (tris : List Triangle) : List Edge :=
  (tris.foldl (fun m t =>
    (triEdges t).foldl (fun m e =>
      let key := edgeKey e.a e.b
      if m.any (fun kv => kv.1 = key) then m else m ++ [(key, e)]) m) ([] : List ((ℕ × ℕ) × Edge))).map
    (fun kv => kv.2)

/-- `createGraphFromPoints` from the Delaunay module: bounding box,
super-triangle, incremental insertion, super-vertex cleanup, and edge
collection. -/
def createGraphFromPoints (points : List Point) : Graph :=
  if points.length = 0 then { points := [], edges := [] }
  else
    let p0 := points.getD 0 ⟨0, 0⟩
    let minX := points.foldl (fun acc p => min acc p.x) p0.x
    let minY := points.foldl (fun acc p => min acc p.y) p0.y
    let maxX := points.foldl (fun acc p => max acc p.x) p0.x
    let maxY := points.foldl (fun acc p => max acc p.y) p0.y
    let dmax := max (maxX - minX) (maxY - minY)
    let midx := (minX + maxX) / 2
    let midy := (minY + maxY) / 2
    let superA : Point := ⟨midx - 20 * dmax, midy - dmax⟩
    let superB : Point := ⟨midx, midy + 20 * dmax⟩
    let superC : Point := ⟨midx + 20 * dmax, midy - dmax⟩
    let pts := points ++ [superA, superB, superC]
    let n := points.length
    let tris0 : List Triangle := [⟨n, n + 1, n + 2⟩]
    let tris1 := (List.range points.length).foldl (fun tris i => bwStep pts i tris) tris0
    let tris2 := tris1.filter fun t =>
      decide (t.a < points.length ∧ t.b < points.length ∧ t.c < points.length)
    { points := points, edges := dedupEdges tris2, triangles := tris2 }

/-- For the degenerate-input claim: every triangle ever present in the
insertion loop has pairwise-distinct vertices drawn from the already
inserted points and the three super-triangle vertices. -/
def triGood (n i : ℕ) (t : Triangle) : Prop :=
  (t.a < i ∨ (n ≤ t.a ∧ t.a < n + 3)) ∧
  (t.b < i ∨ (n ≤ t.b ∧ t.b < n + 3)) ∧
  (t.c < i ∨ (n ≤ t.c ∧ t.c < n + 3)) ∧
  t.a ≠ t.b ∧ t.b ≠ t.c ∧ t.a ≠ t.c

theorem triGood_mono {n i j : ℕ} (hij : i ≤ j) {t : Triangle} (h : triGood n i t) :
    triGood n j t := by
  obtain ⟨h1, h2, h3, h4, h5, h6⟩ := h
  exact ⟨by omega, by omega, by omega, h4, h5, h6⟩

theorem mem_toggleEdge {m : List ((ℕ × ℕ) × Edge)} {kv : (ℕ × ℕ) × Edge} {e : Edge}
    (h : kv ∈ toggleEdge m e) : kv ∈ m ∨ kv.2 = e := by
  simp only [toggleEdge] at h
  split at h
  · exact Or.inl (List.mem_of_mem_filter h)
  · rcases List.mem_append.mp h with h1 | h1
    · exact Or.inl h1
    · right
      rw [List.mem_singleton.mp h1]

theorem mem_toggle_fold {es : List Edge} {m : List ((ℕ × ℕ) × Edge)} {kv : (ℕ × ℕ) × Edge}
    (h : kv ∈ es.foldl toggleEdge m) : kv ∈ m ∨ kv.2 ∈ es := by
  induction es generalizing m with
  | nil => exact Or.inl h
  | cons e es ih =>
    rcases ih h with hm | hes
    · rcases mem_toggleEdge hm with h1 | h1
      · exact Or.inl h1
      · exact Or.inr (h1 ▸ List.mem_cons_self e es)
    · exact Or.inr (List.mem_cons_of_mem e hes)

theorem mem_collectBoundary {bad : List Triangle} {kv : (ℕ × ℕ) × Edge}
    (h : kv ∈ collectBoundary bad) : ∃ t ∈ bad, kv.2 ∈ triEdges t := by
  unfold collectBoundary at h
  suffices H : ∀ (m : List ((ℕ × ℕ) × Edge)),
      kv ∈ bad.foldl (fun m t => (triEdges t).foldl toggleEdge m) m →
      kv ∈ m ∨ ∃ t ∈ bad, kv.2 ∈ triEdges t by
    rcases H [] h with h0 | h0
    · exact absurd h0 (List.not_mem_nil kv)
    · exact h0
  clear h
  induction bad with
  | nil =>
    intro m h
    exact Or.inl h
  | cons t bad ih =>
    intro m h
    rcases ih _ h with hm | ht
    · rcases mem_toggle_fold hm with h1 | h1
      · exact Or.inl h1
      · exact Or.inr ⟨t, List.mem_cons_self t bad, h1⟩
    · obtain ⟨u, hu, he⟩ := ht
      exact Or.inr ⟨u, List.mem_cons_of_mem t hu, he⟩

theorem triEdges_good {n i : ℕ} {t : Triangle} (hg : triGood n i t) {e : Edge}
    (he : e ∈ triEdges t) :
    e.a ≠ e.b ∧ (e.a < i ∨ (n ≤ e.a ∧ e.a < n + 3)) ∧ (e.b < i ∨ (n ≤ e.b ∧ e.b < n + 3)) := by
  obtain ⟨h1, h2, h3, h4, h5, h6⟩ := hg
  simp only [triEdges, List.mem_cons, List.not_mem_nil, or_false] at he
  rcases he with rfl | rfl | rfl
  · exact ⟨h4, h1, h2⟩
  · exact ⟨h5, h2, h3⟩
  · exact ⟨fun hh => h6 hh.symm, h3, h1⟩

theorem bwStep_good {pts : List Point} {n i : ℕ} {tris : List Triangle}
    (hi : i < n) (h : ∀ t ∈ tris, triGood n i t) :
    ∀ t ∈ bwStep pts i tris, triGood n (i + 1) t := by
  intro t ht
  unfold bwStep at ht
  rcases List.mem_append.mp ht with hold | hnew
  · exact triGood_mono (by omega) (h t (List.mem_of_mem_filter hold))
  · rw [List.mem_map] at hnew
    obtain ⟨kv, hkv, rfl⟩ := hnew
    obtain ⟨u, hu, he⟩ := mem_collectBoundary hkv
    have hug := h u (List.mem_of_mem_filter hu)
    obtain ⟨hab, hva, hvb⟩ := triEdges_good hug he
    unfold triGood
    dsimp only
    omega

theorem bw_loop_good {pts : List Point} {n : ℕ} (m : ℕ) (hm : m ≤ n)
    {tris0 : List Triangle} (h0 : ∀ t ∈ tris0, triGood n 0 t) :
    ∀ t ∈ (List.range m).foldl (fun tris i => bwStep pts i tris) tris0, triGood n m t := by
  induction m with
  | zero => simpa using h0
  | succ m ih =>
    rw [List.range_succ, List.foldl_append]
    simp only [List.foldl_cons, List.foldl_nil]
    exact bwStep_good (by omega) (ih (by omega))

theorem edges_empty_of_small (pts : List Point) (N : ℕ) (hN : 1 ≤ N) (h : N ≤ 2) :
    dedupEdges (((List.range N).foldl (fun tris i => bwStep pts i tris)
      [⟨N, N + 1, N + 2⟩]).filter fun t => decide (t.a < N ∧ t.b < N ∧ t.c < N)) = [] := by
  have hgood := @bw_loop_good pts N N le_rfl [⟨N, N + 1, N + 2⟩]
    (by
      intro t ht
      rw [List.mem_singleton.mp ht]
      unfold triGood
      dsimp only
      omega)
  have hfil : ((List.range N).foldl (fun tris i => bwStep pts i tris)
      [⟨N, N + 1, N + 2⟩]).filter (fun t => decide (t.a < N ∧ t.b < N ∧ t.c < N)) = [] := by
    rw [List.filter_eq_nil_iff]
    intro t ht
    have hg := hgood t ht
    simp only [decide_eq_true_eq]
    obtain ⟨g1, g2, g3, g4, g5, g6⟩ := hg
    omega
  rw [hfil]
  rfl

/-- With at most two input points, every triangle surviving the
super-vertex filter would need three pairwise-distinct vertices below the
input count, which is impossible; the result keeps the input points and
has no edges. -/
theorem createGraphFromPoints_degenerate (points : List Point) (h : points.length ≤ 2) :
    (createGraphFromPoints points).points = points ∧
      (createGraphFromPoints points).edges = [] := by
  by_cases h0 : points.length = 0
  · have hnil : points = [] := List.length_eq_zero.mp h0
    subst hnil
    exact ⟨rfl, rfl⟩
  · constructor
    · unfold createGraphFromPoints
      rw [if_neg h0]
    · unfold createGraphFromPoints
      rw [if_neg h0]
      exact edges_empty_of_small _ points.length (by omega) h

/-! ### Prim MST, from the module exported through `app/layout.tsx` -/

/-- Squared Euclidean distance between points `a` and `b` of `pts`.  The
source's `dist` is `Math.sqrt` of this quantity and is used only inside
order comparisons; the square root is monotone, so every comparison the
algorithm makes agrees between `dist` and `dist2`, and the optimality
theorems below are stated for an arbitrary monotone reweighting of
`dist2` (which covers the Euclidean `Real.sqrt` weight). -/
def dist2 (pts : List Point) (a b : ℕ) : ℚ :=
  let pa := pts.getD a ⟨0, 0⟩
  let pb := pts.getD b ⟨0, 0⟩
  (pa.x - pb.x) * (pa.x - pb.x) + (pa.y - pb.y) * (pa.y - pb.y)

/-- `w < bestWeight` where `none` is the initial `Infinity`. -/
def ltOptQ (w : ℚ) : Option ℚ → Bool
  | none => true
  | some b => decide (w < b)

/-- The inner scan of Prim's loop: fold over the candidate edges keeping
the strictly smallest edge with exactly one endpoint in the tree
(first-encountered minimum wins, `w < bestWeight` being strict). -/
def scanBest (pts : List Point) (inMST : List Bool) (edges : List Edge) :
    Option Edge × Option ℚ :=
  edges.foldl
    (fun best e =>
      let aIn := inMST.getD e.a false
      let bIn := inMST.getD e.b false
      if (aIn && !bIn) || (!aIn && bIn) then
        let w := dist2 pts e.a e.b
        if ltOptQ w best.2 then (some e, some w) else best
      else best)
    (none, none)

/-- All `(i, j)` index pairs in the nested-loop scan order of the
disconnected-graph fallback. -/
def pairsLex (n : ℕ) : List (ℕ × ℕ) :=
  (List.range n).flatMap fun (i : ℕ) => (List.range n).map fun (j : ℕ) => (i, j)

/-- The disconnected-graph fallback of `primMST`: scan tree/non-tree index
pairs; the `found` flag breaks both loops at the first pair whose distance
beats `bestWeight`, so the result is the first qualifying pair in scan
order. -/
def fallbackSearch (pts : List Point) (inMST : List Bool) (n : ℕ) (bw : Option ℚ) :
    Option Edge :=
  ((pairsLex n).find? fun ij =>
    inMST.getD ij.1 false && !(inMST.getD ij.2 false) && ltOptQ (dist2 pts ij.1 ij.2) bw).map
    fun ij => ⟨ij.1, ij.2⟩

/-- The body of `primMST`'s `while` loop, with the remaining iteration
budget as fuel (`n - 1` suffices: each iteration either appends exactly
one edge or terminates the loop). -/
def primLoop (pts : List Point) (edges : List Edge) (n : ℕ) :
    ℕ → List Bool → List Edge → List Bool × List Edge
  | 0, inMST, acc => (inMST, acc)
  | fuel + 1, inMST, acc =>
      if acc.length < n - 1 then
        let best := scanBest pts inMST edges
        match (match best.1 with
               | some e => some e
               | none => fallbackSearch pts inMST n best.2) with
        | none => (inMST, acc)
        | some e => primLoop pts edges n fuel ((inMST.set e.a true).set e.b true) (acc ++ [e])
      else (inMST, acc)

/-- `primMST` from the Delaunay/Prim module: classic Prim from vertex 0
over the candidate edge list, with the exhaustive-pair fallback when no
candidate edge crosses the tree boundary. -/
def primMST (graph : Graph) : Graph :=
  let pts := graph.points
  let edges := graph.edges
  let n := pts.length
  if n = 0 then { points := [], edges := [] }
  else if n = 1 then { points := [pts.getD 0 ⟨0, 0⟩], edges := [] }
  else
    let st := primLoop pts edges n (n - 1) ((List.replicate n false).set 0 true) []
    { points := pts, edges := st.2 }

theorem pairsLex_aux (n m : ℕ) :
    (List.range m).flatMap (fun (i : ℕ) => (List.range n).map fun (j : ℕ) => (i, j)) =
      (List.range (m * n)).map fun k => (k / n, k % n) := by
  induction m with
  | zero => simp
  | succ m ih =>
    rw [List.range_succ, List.flatMap_append, ih, Nat.succ_mul, List.range_add,
      List.map_append]
    congr 1
    rw [List.flatMap_singleton, List.map_map]
    apply List.map_congr_left
    intro j hj
    rw [List.mem_range] at hj
    have h0 : 0 < n := by omega
    have h1 : (m * n + j) / n = m := by
      rw [Nat.mul_comm m n, Nat.mul_add_div h0, Nat.div_eq_of_lt hj, Nat.add_zero]
    have h2 : (m * n + j) % n = j := by
      rw [Nat.mul_comm m n, Nat.mul_add_mod, Nat.mod_eq_of_lt hj]
    simp only [Function.comp_apply]
    rw [h1, h2]

theorem pairsLex_eq (n : ℕ) :
    pairsLex n = (List.range (n * n)).map fun k => (k / n, k % n) :=
  pairsLex_aux n n

theorem pairsLex_length (n : ℕ) : (pairsLex n).length = n * n := by
  rw [pairsLex_eq, List.length_map, List.length_range]

theorem pairsLex_getElem (n k : ℕ) (h : k < (pairsLex n).length) :
    (pairsLex n).get ⟨k, h⟩ = (k / n, k % n) := by
  simp only [List.get_eq_getElem, pairsLex_eq]
  rw [List.getElem_map, List.getElem_range]

/-- What the disconnected-graph fallback actually selects when the scan
found no boundary edge (`bestWeight` still `Infinity`): the
lexicographically first tree/non-tree index pair in the nested-loop scan
order, regardless of its distance. -/
theorem fallbackSearch_first (pts : List Point) (inMST : List Bool) (n i j : ℕ)
    (h : fallbackSearch pts inMST n none = some ⟨i, j⟩) :
    i < n ∧ j < n ∧ inMST.getD i false = true ∧ inMST.getD j false = false ∧
      ∀ i' j' : ℕ, i' < n → j' < n → inMST.getD i' false = true →
        inMST.getD j' false = false → i < i' ∨ (i = i' ∧ j ≤ j') := by
  unfold fallbackSearch at h
  rw [Option.map_eq_some'] at h
  obtain ⟨ij, hfind, hijeq⟩ := h
  rcases ij with ⟨a, b⟩
  injection hijeq with h1 h2
  subst h1
  subst h2
  rw [List.find?_eq_some_iff_getElem] at hfind
  obtain ⟨hp, idx, hidx, hget, hbefore⟩ := hfind
  have hnn : idx < n * n := by rwa [pairsLex_length] at hidx
  have hgete : (idx / n, idx % n) = (a, b) := by
    have := pairsLex_getElem n idx hidx
    rw [List.get_eq_getElem] at this
    rw [← this, hget]
  rw [Prod.mk.injEq] at hgete
  obtain ⟨hia, hjb⟩ := hgete
  have hn0 : 0 < n := by
    rcases Nat.eq_zero_or_pos n with h0 | h0
    · rw [h0] at hnn
      omega
    · exact h0
  have hdm : n * (idx / n) + idx % n = idx := Nat.div_add_mod idx n
  rw [Nat.mul_comm n (idx / n)] at hdm
  rw [hia, hjb] at hdm
  have han : a < n := by
    rw [← hia]
    exact Nat.div_lt_of_lt_mul hnn
  have hbn : b < n := by
    rw [← hjb]
    exact Nat.mod_lt _ hn0
  simp only [Bool.and_eq_true, Bool.not_eq_true'] at hp
  refine ⟨han, hbn, hp.1.1, hp.1.2, ?_⟩
  intro i' j' hi' hj' ht' hnt'
  by_contra hc
  push_neg at hc
  dsimp only at hc
  have hlt : i' * n + j' < idx := by
    rcases Nat.lt_or_ge i' a with hcase | hcase
    · have e1 : (i' + 1) * n = i' * n + n := by ring
      have h2 : (i' + 1) * n ≤ a * n := Nat.mul_le_mul_right n (by omega)
      omega
    · have hae : i' = a := by omega
      subst hae
      omega
  have hkb : i' * n + j' < (pairsLex n).length := by
    rw [pairsLex_length]
    omega
  have hbef := hbefore (i' * n + j') hlt
  have hgetk : (pairsLex n).get ⟨i' * n + j', hkb⟩ = (i', j') := by
    rw [pairsLex_getElem]
    rw [Prod.mk.injEq]
    constructor
    · rw [Nat.mul_comm i' n, Nat.mul_add_div hn0, Nat.div_eq_of_lt hj', Nat.add_zero]
    · rw [Nat.mul_comm i' n, Nat.mul_add_mod, Nat.mod_eq_of_lt hj']
  rw [List.get_eq_getElem] at hgetk
  rw [hgetk] at hbef
  simp only [Bool.not_eq_true', Bool.and_eq_true, Bool.and_eq_false_iff,
    Bool.not_eq_false'] at hbef
  rcases hbef with hbef | hbef
  · rcases hbef with hbef | hbef
    · rw [ht'] at hbef
      exact Bool.noConfusion hbef
    · rw [hnt'] at hbef
      exact Bool.noConfusion hbef
  · exact Bool.noConfusion hbef

/-! ### Corridor router, from `createDungeon`'s inner helpers -/

instance : Inhabited Room := ⟨⟨0, 0, 0, 0, (0, 0)⟩⟩

/-- `roomIndexAt`: the first room whose rectangle contains `(x, y)`;
the source's `-1` becomes `none`. -/
def roomIndexAt (rooms : List Room) (x y : ℤ) : Option ℕ :=
  (List.range rooms.length).find? fun i =>
    let r := rooms.getD i default
    decide (r.x ≤ x ∧ x < r.x + r.width ∧ r.y ≤ y ∧ y < r.y + r.height)

/-- `distToRoom`: Chebyshev distance from `(px, py)` to the rectangle of
room `roomIdx` (0 inside). -/
def distToRoom (rooms : List Room) (roomIdx : ℕ) (px py : ℤ) : ℤ :=
  let r := rooms.getD roomIdx default
  let rx1 := r.x
  let ry1 := r.y
  let rx2 := r.x + r.width - 1
  let ry2 := r.y + r.height - 1
  let dx := if px < rx1 then rx1 - px else if px > rx2 then px - rx2 else 0
  let dy := if py < ry1 then ry1 - py else if py > ry2 then py - ry2 else 0
  max dx dy

/-- The cell-by-cell walk of `exitCellFromCenter`, with fuel for the
source's unbounded `while` (the walk moves monotonically along one axis,
so `cols + rows + 1` steps always reach the exit or the boundary; the
source would loop forever in the degenerate zero-step case, where this
returns `none` and falls through to the perimeter scan). -/
def exitWalk (rooms : List Room) (cols rows : ℤ) (roomIdx : ℕ) (stepX stepY : ℤ)
    (primary : Bool) : ℕ → ℤ → ℤ → Option (ℤ × ℤ)
  | 0, _, _ => none
  | fuel + 1, x, y =>
      if 0 ≤ x ∧ x < cols ∧ 0 ≤ y ∧ y < rows then
        if roomIndexAt rooms x y ≠ some roomIdx then some (x, y)
        else exitWalk rooms cols rows roomIdx stepX stepY primary fuel
          (if primary then x + stepX else x) (if primary then y else y + stepY)
      else none

/-- The perimeter cells scanned by `exitCellFromCenter`'s fallback:
`oy` from `r.y - 1` to `r.y + r.height`, `ox` from `r.x - 1` to
`r.x + r.width`, in that order. -/
def perimCoords (r : Room) : List (ℤ × ℤ) :=
  (List.range (r.height + 2).toNat).flatMap fun (dy : ℕ) =>
    (List.range (r.width + 2).toNat).map fun (dx : ℕ) =>
      (r.x - 1 + (dx : ℤ), r.y - 1 + (dy : ℤ))

/-- `exitCellFromCenter`: walk from the room center toward the target
(prioritizing the axis of larger displacement) until leaving the room;
fall back to the first in-bounds perimeter cell belonging to no room, and
finally to the center itself. -/
def exitCellFromCenter (rooms : List Room) (cols rows : ℤ) (roomIdx : ℕ)
    (target : Point) : ℤ × ℤ :=
  let r := rooms.getD roomIdx default
  let cx := r.center.1
  let cy := r.center.2
  let dx : ℚ := target.x - (cx : ℚ)
  let dy : ℚ := target.y - (cy : ℚ)
  let stepX : ℤ := if dx = 0 then 0 else if 0 < dx then 1 else -1
  let stepY : ℤ := if dy = 0 then 0 else if 0 < dy then 1 else -1
  let primary : Bool := decide (|dy| ≤ |dx|)
  match exitWalk rooms cols rows roomIdx stepX stepY primary ((cols + rows).toNat + 1) cx cy with
  | some p => p
  | none =>
      match (perimCoords r).find? fun p =>
          decide (0 ≤ p.1 ∧ p.1 < cols ∧ 0 ≤ p.2 ∧ p.2 < rows) &&
            decide (roomIndexAt rooms p.1 p.2 = none) with
      | some p => p
      | none => (cx, cy)

def clamp (v mn mx : ℤ) : ℤ :=
  if v < mn then mn else if v > mx then mx else v

/-- The body of `lineCells`' `while` loop; fuel equals the remaining
Chebyshev-path length, which bounds the source loop exactly. -/
def lineCellsAux (x1 y1 dx dy : ℤ) : ℕ → ℤ → ℤ → List (ℤ × ℤ)
  | 0, _, _ => []
  | fuel + 1, x, y =>
      if x ≠ x1 ∨ y ≠ y1 then
        let xn := if x ≠ x1 then x + dx else x
        let yn := if y ≠ y1 then y + dy else y
        (xn, yn) :: lineCellsAux x1 y1 dx dy fuel xn yn
      else []

/-- `lineCells`: rasterize the (axis-aligned or diagonal-stepping) segment
from `(x0, y0)` to `(x1, y1)`, both endpoints included. -/
def lineCells (x0 y0 x1 y1 : ℤ) : List (ℤ × ℤ) :=
  let dx : ℤ := if x1 = x0 then 0 else if x1 > x0 then 1 else -1
  let dy : ℤ := if y1 = y0 then 0 else if y1 > y0 then 1 else -1
  (x0, y0) :: lineCellsAux x1 y1 dx dy ((x1 - x0).natAbs + (y1 - y0).natAbs) x0 y0

/-- `polylineToCells`: concatenate the rasterized cells of each
non-degenerate consecutive segment. -/
def polylineToCells (pointsArr : List (ℤ × ℤ)) : List (ℤ × ℤ) :=
  (List.range (pointsArr.length - 1)).foldl
    (fun out i =>
      let a := pointsArr.getD i (0, 0)
      let b := pointsArr.getD (i + 1) (0, 0)
      if a.1 = b.1 ∧ a.2 = b.2 then out
      else out ++ lineCells a.1 a.2 b.1 b.2)
    []

/-- `cellTooCloseToRooms`: some room is within `ROOM_CORRIDOR_GAP`
(Chebyshev) of `p`, except that the path's start/end connector cell is
exempted for its own source/destination room. -/
def cellTooCloseToRooms (rooms : List Room) (p : ℤ × ℤ) (srcRoom dstRoom : ℕ)
    (startP endP : ℤ × ℤ) : Bool :=
  let isStart := decide (p = startP)
  let isEnd := decide (p = endP)
  (List.range rooms.length).any fun i =>
    decide (distToRoom rooms i p.1 p.2 < ROOM_CORRIDOR_GAP) &&
      !((decide (i = srcRoom) && isStart) || (decide (i = dstRoom) && isEnd))

/-- `corridorTooCloseToOthers`: out-of-bounds cells are rejected; a cell
already carved as corridor merges (allowed); otherwise any corridor among
the eight neighbours within `CORRIDOR_CORRIDOR_GAP` rejects. -/
def corridorTooCloseToOthers (cells : Grid) (cols rows : ℤ) (p : ℤ × ℤ) : Bool :=
  if p.2 < 0 ∨ rows ≤ p.2 ∨ p.1 < 0 ∨ cols ≤ p.1 then true
  else if get2 cells p.1 p.2 = CellTypeEnum.corridor then false
  else
    ([-1, 0, 1] : List ℤ).any fun dy =>
      ([-1, 0, 1] : List ℤ).any fun dx =>
        if dx = 0 ∧ dy = 0 then false
        else
          let nx := p.1 + dx
          let ny := p.2 + dy
          if ny < 0 ∨ rows ≤ ny ∨ nx < 0 ∨ cols ≤ nx then false
          else if get2 cells nx ny = CellTypeEnum.corridor then
            decide (max |dx| |dy| ≤ CORRIDOR_CORRIDOR_GAP)
          else false

/-- The four cells of the 2×2 window whose top-left corner is `(sx, sy)`,
in the source's scan order. -/
def windowCells (sx sy : ℤ) : List (ℤ × ℤ) :=
  [(sx, sy), (sx + 1, sy), (sx, sy + 1), (sx + 1, sy + 1)]

/-- `createsCorridorSquare`: slide a 2×2 window around each path cell and
count the path cell itself plus the already-carved corridor cells of the
grid; three or more rejects the path. -/
def createsCorridorSquare (cells : Grid) (cols rows : ℤ) (path : List (ℤ × ℤ)) : Bool :=
  path.any fun c =>
    ([-1, 0] : List ℤ).any fun oy =>
      ([-1, 0] : List ℤ).any fun ox =>
        let sx := c.1 + ox
        let sy := c.2 + oy
        if sx < 0 ∨ sy < 0 ∨ cols ≤ sx + 1 ∨ rows ≤ sy + 1 then false
        else
          3 ≤ (windowCells sx sy).countP fun w =>
            decide (w = c) || decide (get2 cells w.1 w.2 = CellTypeEnum.corridor)

/-- `candidatePolylines`: the straight segment (when collinear), the two
L routes, and the two pivot fans (`Math.floor((s+e)/2)` on integers is
exactly floor division), then first-occurrence deduplication and the
`≤ 4` vertex filter. -/
def candidatePolylines (cols rows : ℤ) (s e : ℤ × ℤ) : List (List (ℤ × ℤ)) :=
  let midX := Int.fdiv (s.1 + e.1) 2
  let midY := Int.fdiv (s.2 + e.2) 2
  let polys : List (List (ℤ × ℤ)) :=
    (if s.1 = e.1 ∨ s.2 = e.2 then [[s, e]] else []) ++
    [[s, (e.1, s.2), e], [s, (s.1, e.2), e]] ++
    ((List.range 5).map fun (o : ℕ) =>
      let px := clamp (midX + ((o : ℤ) - 2)) 0 (cols - 1)
      [s, (px, s.2), (px, e.2), e]) ++
    ((List.range 5).map fun (o : ℕ) =>
      let py := clamp (midY + ((o : ℤ) - 2)) 0 (rows - 1)
      [s, (s.1, py), (e.1, py), e])
  let unique := polys.foldl (fun acc poly => if poly ∈ acc then acc else acc ++ [poly]) []
  unique.filter fun p => p.length ≤ 4

/-- The per-cell validity checks of `carveCorridorBetween`, in source
order: bounds, room interiors, room clearance, corridor clearance. -/
def cellInvalid (rooms : List Room) (cells : Grid) (cols rows : ℤ) (aIdx bIdx : ℕ)
    (startP endP : ℤ × ℤ) (p : ℤ × ℤ) : Bool :=
  decide (p.1 < 0 ∨ cols ≤ p.1 ∨ p.2 < 0 ∨ rows ≤ p.2) ||
  decide (roomIndexAt rooms p.1 p.2 ≠ none) ||
  cellTooCloseToRooms rooms p aIdx bIdx startP endP ||
  corridorTooCloseToOthers cells cols rows p

/-- The candidate loop of `carveCorridorBetween`: validate each candidate
cell-by-cell, then apply the anti-blob check, and carve the first
candidate that passes; carving returns `true`, exhaustion `false`. -/
def carveTry (rooms : List Room) (cells : Grid) (cols rows : ℤ) (aIdx bIdx : ℕ)
    (startP endP : ℤ × ℤ) : List (List (ℤ × ℤ)) → Bool × Grid
  | [] => (false, cells)
  | poly :: rest =>
      let cellsPath := polylineToCells poly
      if cellsPath.any (cellInvalid rooms cells cols rows aIdx bIdx startP endP) then
        carveTry rooms cells cols rows aIdx bIdx startP endP rest
      else if createsCorridorSquare cells cols rows cellsPath then
        carveTry rooms cells cols rows aIdx bIdx startP endP rest
      else (true, carveCells cells cellsPath cols rows)

/-- `carveCorridorBetween`: route one edge between rooms `aIdx` and
`bIdx` on the current grid. -/
def carveCorridorBetween (points : List Point) (rooms : List Room) (cells : Grid)
    (cols rows : ℤ) (aIdx bIdx : ℕ) : Bool × Grid :=
  let aCenter := points.getD aIdx ⟨0, 0⟩
  let bCenter := points.getD bIdx ⟨0, 0⟩
  let startP := exitCellFromCenter rooms cols rows aIdx bCenter
  let endP := exitCellFromCenter rooms cols rows bIdx aCenter
  carveTry rooms cells cols rows aIdx bIdx startP endP
    (candidatePolylines cols rows startP endP)

theorem carveCells_not_mem (cells : Grid) (path : List (ℤ × ℤ)) (cols rows : ℤ)
    (w : ℤ × ℤ) (hw : w ∉ path) :
    get2 (carveCells cells path cols rows) w.1 w.2 = get2 cells w.1 w.2 := by
  unfold carveCells
  induction path generalizing cells with
  | nil => rfl
  | cons p path ih =>
    simp only [List.foldl_cons]
    have hwp : w ∉ path := fun hmem => hw (List.mem_cons_of_mem p hmem)
    have hne : w ≠ p := fun he => hw (he ▸ List.mem_cons_self p path)
    rw [ih _ hwp]
    split
    · rfl
    · split
      · rfl
      · exact get2_set2_ne _ _ _ _ _ _ (pair_ne_coords hne)

/-- The guarantee the anti-blob check does give: if carving the path
completes a fully-in-bounds 2×2 corridor block in which at most two of
the four cells come from the path itself (and at least one does), the
check fires and the candidate is rejected. -/
theorem createsCorridorSquare_catches (cells : Grid) (cols rows : ℤ)
    (path : List (ℤ × ℤ)) (sx sy : ℤ)
    (hb : 0 ≤ sx ∧ 0 ≤ sy ∧ sx + 1 < cols ∧ sy + 1 < rows)
    (hall : ∀ w ∈ windowCells sx sy,
      get2 (carveCells cells path cols rows) w.1 w.2 = CellTypeEnum.corridor)
    (hcount : (windowCells sx sy).countP (fun w => decide (w ∈ path)) ≤ 2)
    (c : ℤ × ℤ) (hc : c ∈ path) (hcw : c ∈ windowCells sx sy) :
    createsCorridorSquare cells cols rows path = true := by
  have hP : ∀ w ∈ windowCells sx sy, w ∉ path → get2 cells w.1 w.2 = CellTypeEnum.corridor := by
    intro w hw hwp
    rw [← carveCells_not_mem cells path cols rows w hwp]
    exact hall w hw
  have hcore : 3 ≤ (windowCells sx sy).countP
      fun w => decide (w = c) || decide (get2 cells w.1 w.2 = CellTypeEnum.corridor) := by
    have ec : c = (sx, sy) ∨ c = (sx + 1, sy) ∨ c = (sx, sy + 1) ∨ c = (sx + 1, sy + 1) := by
      simpa [windowCells] using hcw
    simp only [windowCells, List.countP_cons, List.countP_nil] at hcount ⊢
    have key : ∀ w : ℤ × ℤ, w ∈ windowCells sx sy →
        (decide (w ∈ path) = false →
          (decide (w = c) || decide (get2 cells w.1 w.2 = CellTypeEnum.corridor)) = true) := by
      intro w hw hb
      have hcor := hP w hw (of_decide_eq_false hb)
      simp [hcor]
    have i1 := key (sx, sy) (by simp [windowCells])
    have i2 := key (sx + 1, sy) (by simp [windowCells])
    have i3 := key (sx, sy + 1) (by simp [windowCells])
    have i4 := key (sx + 1, sy + 1) (by simp [windowCells])
    have hone :
        (decide ((sx, sy) ∈ path) = true ∧
          (decide ((sx, sy) = c) ||
            decide (get2 cells (sx, sy).1 (sx, sy).2 = CellTypeEnum.corridor)) = true) ∨
        (decide ((sx + 1, sy) ∈ path) = true ∧
          (decide ((sx + 1, sy) = c) ||
            decide (get2 cells (sx + 1, sy).1 (sx + 1, sy).2 = CellTypeEnum.corridor)) = true) ∨
        (decide ((sx, sy + 1) ∈ path) = true ∧
          (decide ((sx, sy + 1) = c) ||
            decide (get2 cells (sx, sy + 1).1 (sx, sy + 1).2 = CellTypeEnum.corridor)) = true) ∨
        (decide ((sx + 1, sy + 1) ∈ path) = true ∧
          (decide ((sx + 1, sy + 1) = c) ||
            decide (get2 cells (sx + 1, sy + 1).1 (sx + 1, sy + 1).2 =
              CellTypeEnum.corridor)) = true) := by
      rcases ec with rfl | rfl | rfl | rfl
      · exact Or.inl ⟨decide_eq_true hc, by simp⟩
      · exact Or.inr (Or.inl ⟨decide_eq_true hc, by simp⟩)
      · exact Or.inr (Or.inr (Or.inl ⟨decide_eq_true hc, by simp⟩))
      · exact Or.inr (Or.inr (Or.inr ⟨decide_eq_true hc, by simp⟩))
    revert i1 i2 i3 i4 hone hcount
    generalize decide ((sx, sy) ∈ path) = b1
    generalize decide ((sx + 1, sy) ∈ path) = b2
    generalize decide ((sx, sy + 1) ∈ path) = b3
    generalize decide ((sx + 1, sy + 1) ∈ path) = b4
    generalize (decide ((sx, sy) = c) ||
      decide (get2 cells (sx, sy).1 (sx, sy).2 = CellTypeEnum.corridor)) = a1
    generalize (decide ((sx + 1, sy) = c) ||
      decide (get2 cells (sx + 1, sy).1 (sx + 1, sy).2 = CellTypeEnum.corridor)) = a2
    generalize (decide ((sx, sy + 1) = c) ||
      decide (get2 cells (sx, sy + 1).1 (sx, sy + 1).2 = CellTypeEnum.corridor)) = a3
    generalize (decide ((sx + 1, sy + 1) = c) ||
      decide (get2 cells (sx + 1, sy + 1).1 (sx + 1, sy + 1).2 = CellTypeEnum.corridor)) = a4
    revert b1 b2 b3 b4 a1 a2 a3 a4
    decide
  unfold createsCorridorSquare
  rw [List.any_eq_true]
  refine ⟨c, hc, ?_⟩
  have hrange : (sx - c.1 ∈ ([-1, 0] : List ℤ)) ∧ (sy - c.2 ∈ ([-1, 0] : List ℤ)) ∧
      c.1 + (sx - c.1) = sx ∧ c.2 + (sy - c.2) = sy := by
    rcases (by simpa [windowCells] using hcw :
        c = (sx, sy) ∨ c = (sx + 1, sy) ∨ c = (sx, sy + 1) ∨ c = (sx + 1, sy + 1)) with
      rfl | rfl | rfl | rfl <;> simp
  rw [List.any_eq_true]
  refine ⟨sy - c.2, hrange.2.1, ?_⟩
  rw [List.any_eq_true]
  refine ⟨sx - c.1, hrange.1, ?_⟩
  rw [hrange.2.2.1, hrange.2.2.2]
  rw [if_neg (by omega)]
  simpa using hcore

theorem carveTry_atomic (rooms : List Room) (cells : Grid) (cols rows : ℤ)
    (aIdx bIdx : ℕ) (startP endP : ℤ × ℤ) (polys : List (List (ℤ × ℤ))) :
    ((carveTry rooms cells cols rows aIdx bIdx startP endP polys).1 = false →
      (carveTry rooms cells cols rows aIdx bIdx startP endP polys).2 = cells) ∧
    ((carveTry rooms cells cols rows aIdx bIdx startP endP polys).1 = true →
      ∃ poly ∈ polys,
        (polylineToCells poly).any
          (cellInvalid rooms cells cols rows aIdx bIdx startP endP) = false ∧
        createsCorridorSquare cells cols rows (polylineToCells poly) = false ∧
        (carveTry rooms cells cols rows aIdx bIdx startP endP polys).2 =
          carveCells cells (polylineToCells poly) cols rows) := by
  induction polys with
  | nil =>
    constructor
    · intro _
      rfl
    · intro h
      exact absurd h (by simp [carveTry])
  | cons poly rest ih =>
    by_cases h1 : (polylineToCells poly).any
        (cellInvalid rooms cells cols rows aIdx bIdx startP endP) = true
    · have hstep : carveTry rooms cells cols rows aIdx bIdx startP endP (poly :: rest) =
          carveTry rooms cells cols rows aIdx bIdx startP endP rest := by
        conv_lhs => unfold carveTry
        rw [if_pos h1]
      rw [hstep]
      refine ⟨ih.1, ?_⟩
      intro h
      obtain ⟨q, hq, hv⟩ := ih.2 h
      exact ⟨q, List.mem_cons_of_mem _ hq, hv⟩
    · by_cases h2 : createsCorridorSquare cells cols rows (polylineToCells poly) = true
      · have hstep : carveTry rooms cells cols rows aIdx bIdx startP endP (poly :: rest) =
            carveTry rooms cells cols rows aIdx bIdx startP endP rest := by
          conv_lhs => unfold carveTry
          rw [if_neg h1, if_pos h2]
        rw [hstep]
        refine ⟨ih.1, ?_⟩
        intro h
        obtain ⟨q, hq, hv⟩ := ih.2 h
        exact ⟨q, List.mem_cons_of_mem _ hq, hv⟩
      · have hstep : carveTry rooms cells cols rows aIdx bIdx startP endP (poly :: rest) =
            (true, carveCells cells (polylineToCells poly) cols rows) := by
          conv_lhs => unfold carveTry
          rw [if_neg h1, if_neg h2]
        rw [hstep]
        constructor
        · intro h
          exact absurd h (by simp)
        · intro _
          exact ⟨poly, List.mem_cons_self _ _,
            Bool.not_eq_true _ ▸ Bool.of_not_eq_true h1,
            Bool.of_not_eq_true h2, rfl⟩

/-- Atomicity of one routing attempt: either the first valid candidate is
carved in full, or the grid is returned unchanged. -/
theorem carveCorridorBetween_atomic (points : List Point) (rooms : List Room)
    (cells : Grid) (cols rows : ℤ) (aIdx bIdx : ℕ) :
    ((carveCorridorBetween points rooms cells cols rows aIdx bIdx).1 = false →
      (carveCorridorBetween points rooms cells cols rows aIdx bIdx).2 = cells) ∧
    ((carveCorridorBetween points rooms cells cols rows aIdx bIdx).1 = true →
      ∃ poly ∈ candidatePolylines cols rows
          (exitCellFromCenter rooms cols rows aIdx (points.getD bIdx ⟨0, 0⟩))
          (exitCellFromCenter rooms cols rows bIdx (points.getD aIdx ⟨0, 0⟩)),
        (polylineToCells poly).any
          (cellInvalid rooms cells cols rows aIdx bIdx
            (exitCellFromCenter rooms cols rows aIdx (points.getD bIdx ⟨0, 0⟩))
            (exitCellFromCenter rooms cols rows bIdx (points.getD aIdx ⟨0, 0⟩))) = false ∧
        createsCorridorSquare cells cols rows (polylineToCells poly) = false ∧
        (carveCorridorBetween points rooms cells cols rows aIdx bIdx).2 =
          carveCells cells (polylineToCells poly) cols rows) :=
  carveTry_atomic rooms cells cols rows aIdx bIdx _ _ _

/-! ### Loop augmenter, from `createDungeon` (lines 127-164) -/

/-- `keyEdge` from `createDungeon`: canonical unordered pair (the source
builds the string `"min,max"`). -/
def keyEdge (a b : ℕ) : ℕ × ℕ :=
  if a < b then (a, b) else (b, a)

def MAX_ALLOWED_CONNECTIONS : ℕ := 2

/-- `adjacency[i]++`. -/
def incrAt (l : List ℕ) (i : ℕ) : List ℕ :=
  l.set i (l.getD i 0 + 1)

/-- The candidate loop of the augmenter: skip MST edges (no draw), then
draw once per non-MST candidate; accept when the draw passes
`EXTRA_EDGE_CHANCE` and both endpoint degrees are at most
`MAX_ALLOWED_CONNECTIONS`, incrementing both degrees immediately. -/
def augmentLoop (rnd : ℕ → ℚ) (mstSet : List (ℕ × ℕ)) :
    List Edge → List Edge → List ℕ → ℕ → List Edge × List ℕ × ℕ
  | [], finalEdges, adj, k => (finalEdges, adj, k)
  | e :: rest, finalEdges, adj, k =>
      if keyEdge e.a e.b ∈ mstSet then augmentLoop rnd mstSet rest finalEdges adj k
      else if rnd k > EXTRA_EDGE_CHANCE then augmentLoop rnd mstSet rest finalEdges adj (k + 1)
      else if adj.getD e.a 0 > MAX_ALLOWED_CONNECTIONS then
        augmentLoop rnd mstSet rest finalEdges adj (k + 1)
      else if adj.getD e.b 0 > MAX_ALLOWED_CONNECTIONS then
        augmentLoop rnd mstSet rest finalEdges adj (k + 1)
      else
        augmentLoop rnd mstSet rest (finalEdges ++ [e])
          (incrAt (incrAt adj e.a) e.b) (k + 1)

/-- The whole loop-augmentation phase: degree counters seeded from the
MST edges, `finalEdges` seeded with the MST edges, then the candidate
loop; also returns the final degree counters and random index. -/
def augmentPhase (rnd : ℕ → ℚ) (k0 : ℕ) (nPoints : ℕ)
    (mstEdges candEdges : List Edge) : List Edge × List ℕ × ℕ :=
  let mstSet := mstEdges.map fun e => keyEdge e.a e.b
  let adj0 := mstEdges.foldl (fun adj e => incrAt (incrAt adj e.a) e.b)
    (List.replicate nPoints 0)
  augmentLoop rnd mstSet candEdges mstEdges adj0 k0

/-- Degree of point `i` in an edge list, counting both endpoints. -/
def degreeOf (edges : List Edge) (i : ℕ) : ℕ :=
  edges.countP (fun e => decide (e.a = i)) + edges.countP (fun e => decide (e.b = i))

theorem degreeOf_cons (e : Edge) (es : List Edge) (i : ℕ) :
    degreeOf (e :: es) i =
      degreeOf es i + (if e.a = i then 1 else 0) + (if e.b = i then 1 else 0) := by
  simp only [degreeOf, List.countP_cons, decide_eq_true_eq]
  omega

theorem degreeOf_append_one (es : List Edge) (e : Edge) (i : ℕ) :
    degreeOf (es ++ [e]) i =
      degreeOf es i + (if e.a = i then 1 else 0) + (if e.b = i then 1 else 0) := by
  simp only [degreeOf, List.countP_append, List.countP_cons, List.countP_nil,
    decide_eq_true_eq]
  omega

theorem length_incrAt (l : List ℕ) (j : ℕ) : (incrAt l j).length = l.length := by
  simp [incrAt]

theorem getD_incrAt (l : List ℕ) (j i : ℕ) (hj : j < l.length) :
    (incrAt l j).getD i 0 = if j = i then l.getD i 0 + 1 else l.getD i 0 := by
  unfold incrAt
  by_cases hij : j = i
  · subst hij
    rw [if_pos rfl, List.getD_eq_getElem?_getD, List.getElem?_set_self (by simpa using hj)]
    simp
  · rw [if_neg hij, List.getD_eq_getElem?_getD, List.getElem?_set_ne (by omega),
      List.getD_eq_getElem?_getD]

theorem adj_fold_spec (es : List Edge) (n : ℕ) (init : List ℕ)
    (hlen : init.length = n) (hes : ∀ e ∈ es, e.a < n ∧ e.b < n) :
    (es.foldl (fun adj e => incrAt (incrAt adj e.a) e.b) init).length = n ∧
    ∀ i, i < n →
      (es.foldl (fun adj e => incrAt (incrAt adj e.a) e.b) init).getD i 0 =
        init.getD i 0 + degreeOf es i := by
  induction es generalizing init with
  | nil =>
    refine ⟨hlen, ?_⟩
    intro i _
    simp [degreeOf]
  | cons e es ih =>
    obtain ⟨hea, heb⟩ := hes e (List.mem_cons_self e es)
    have hlen1 : (incrAt (incrAt init e.a) e.b).length = n := by
      rw [length_incrAt, length_incrAt, hlen]
    obtain ⟨ihlen, ihval⟩ := ih (incrAt (incrAt init e.a) e.b) hlen1
      (fun f hf => hes f (List.mem_cons_of_mem e hf))
    refine ⟨ihlen, ?_⟩
    intro i hi
    simp only [List.foldl_cons]
    rw [ihval i hi]
    rw [getD_incrAt _ _ _ (by rw [length_incrAt, hlen]; exact heb),
      getD_incrAt _ _ _ (by rw [hlen]; exact hea), degreeOf_cons]
    split <;> split <;> omega

theorem augmentLoop_spec (rnd : ℕ → ℚ) (mstSet : List (ℕ × ℕ)) (b : ℕ → ℕ) (n : ℕ)
    (cand : List Edge) (F : List Edge) (adj : List ℕ) (k : ℕ)
    (hlen : adj.length = n)
    (hadj : ∀ i, i < n → adj.getD i 0 = degreeOf F i)
    (hF : ∀ i, degreeOf F i ≤ max (b i) 3)
    (hcand : ∀ e ∈ cand, e.a < n ∧ e.b < n ∧ e.a ≠ e.b) :
    (∀ i, degreeOf (augmentLoop rnd mstSet cand F adj k).1 i ≤ max (b i) 3) ∧
    ∃ extra, (augmentLoop rnd mstSet cand F adj k).1 = F ++ extra ∧
      ∀ e ∈ extra, e ∈ cand := by
  induction cand generalizing F adj k with
  | nil => exact ⟨hF, [], by simp [augmentLoop], by simp⟩
  | cons e cand ih =>
    obtain ⟨hea, heb, hab⟩ := hcand e (List.mem_cons_self e cand)
    have hcand' : ∀ f ∈ cand, f.a < n ∧ f.b < n ∧ f.a ≠ f.b :=
      fun f hf => hcand f (List.mem_cons_of_mem e hf)
    have hmem : ∀ (F' : List Edge) (adj' : List ℕ) (k' : ℕ)
        (h1 : adj'.length = n) (h2 : ∀ i, i < n → adj'.getD i 0 = degreeOf F' i)
        (h3 : ∀ i, degreeOf F' i ≤ max (b i) 3),
        (∀ i, degreeOf (augmentLoop rnd mstSet cand F' adj' k').1 i ≤ max (b i) 3) ∧
        ∃ extra, (augmentLoop rnd mstSet cand F' adj' k').1 = F' ++ extra ∧
          ∀ f ∈ extra, f ∈ e :: cand := by
      intro F' adj' k' h1 h2 h3
      obtain ⟨hd, extra, heq, hex⟩ := ih F' adj' k' h1 h2 h3 hcand'
      exact ⟨hd, extra, heq, fun f hf => List.mem_cons_of_mem e (hex f hf)⟩
    unfold augmentLoop
    split
    · exact hmem F adj k hlen hadj hF
    · split
      · exact hmem F adj (k + 1) hlen hadj hF
      · split
        · exact hmem F adj (k + 1) hlen hadj hF
        · split
          · exact hmem F adj (k + 1) hlen hadj hF
          · rename_i hnk hr hda hdb
            push_neg at hda hdb
            have hdega : degreeOf F e.a ≤ MAX_ALLOWED_CONNECTIONS := by
              rw [← hadj e.a hea]
              exact hda
            have hdegb : degreeOf F e.b ≤ MAX_ALLOWED_CONNECTIONS := by
              rw [← hadj e.b heb]
              exact hdb
            have hM2 : MAX_ALLOWED_CONNECTIONS = 2 := rfl
            have h1' : (incrAt (incrAt adj e.a) e.b).length = n := by
              rw [length_incrAt, length_incrAt, hlen]
            have h2' : ∀ i, i < n →
                (incrAt (incrAt adj e.a) e.b).getD i 0 = degreeOf (F ++ [e]) i := by
              intro i hi
              rw [getD_incrAt _ _ _ (by rw [length_incrAt, hlen]; exact heb),
                getD_incrAt _ _ _ (by rw [hlen]; exact hea), degreeOf_append_one,
                ← hadj i hi]
              split_ifs <;> omega
            have h3' : ∀ i, degreeOf (F ++ [e]) i ≤ max (b i) 3 := by
              intro i
              rw [degreeOf_append_one]
              by_cases hia : e.a = i
              · have hib : ¬ e.b = i := fun hc => hab (hia.trans hc.symm)
                rw [if_pos hia, if_neg hib]
                have := hdega
                rw [hia] at this
                omega
              · by_cases hib : e.b = i
                · rw [if_neg hia, if_pos hib]
                  have := hdegb
                  rw [hib] at this
                  omega
                · rw [if_neg hia, if_neg hib]
                  have := hF i
                  omega
            obtain ⟨hd, extra, heq, hex⟩ := hmem (F ++ [e]) (incrAt (incrAt adj e.a) e.b)
              (k + 1) h1' h2' h3'
            refine ⟨hd, e :: extra, ?_, ?_⟩
            · rw [heq]
              simp
            · intro f hf
              rcases List.mem_cons.mp hf with rfl | hf
              · exact List.mem_cons_self f cand
              · exact hex f hf

/-- The degree guarantee the augmenter actually provides: afterwards a
point's degree is at most `max (its MST degree) 3` — augmentation can push
a degree-2 point to 3, and MST degrees above the cap persist untouched;
the MST edges form a prefix of the result and the extras come from the
candidate list. -/
theorem augmentPhase_spec (rnd : ℕ → ℚ) (k0 n : ℕ) (mstEdges candEdges : List Edge)
    (hmst : ∀ e ∈ mstEdges, e.a < n ∧ e.b < n)
    (hcand : ∀ e ∈ candEdges, e.a < n ∧ e.b < n ∧ e.a ≠ e.b) :
    (∀ i, degreeOf (augmentPhase rnd k0 n mstEdges candEdges).1 i ≤
      max (degreeOf mstEdges i) 3) ∧
    ∃ extra, (augmentPhase rnd k0 n mstEdges candEdges).1 = mstEdges ++ extra ∧
      ∀ e ∈ extra, e ∈ candEdges := by
  unfold augmentPhase
  obtain ⟨hlen, hval⟩ := adj_fold_spec mstEdges n (List.replicate n 0) (by simp) hmst
  apply augmentLoop_spec rnd _ (fun i => degreeOf mstEdges i) n candEdges mstEdges _ k0 hlen
  · intro i hi
    rw [hval i hi]
    simp
  · intro i
    exact le_max_left _ _
  · exact hcand

/-! ### The full `createDungeon` pipeline -/

structure Dungeon where
  cells : Grid
  rooms : List Room
  roomGraph : Graph
deriving Repr

/-- The corridor-carving loop of `createDungeon`: route every final edge
in order, threading the grid. -/
def carvePhase (points : List Point) (rooms : List Room) (cols rows : ℤ)
    (edges : List Edge) (cells : Grid) : Grid :=
  edges.foldl (fun g e => (carveCorridorBetween points rooms g cols rows e.a e.b).2) cells

/-- `createDungeon`: place rooms, triangulate their centers, extract the
MST, augment with loop edges, and carve corridors.  The ambient
`Math.random()` stream is the explicit `rnd`, read at increasing indices
by placement first and augmentation second, exactly as the source draws
them. -/
def createDungeon (rnd : ℕ → ℚ) : Dungeon :=
  let st := placementPhase rnd
  let points : List Point := st.rooms.map fun r => ⟨(r.center.1 : ℚ), (r.center.2 : ℚ)⟩
  let roomGraph := createGraphFromPoints points
  let mst := primMST roomGraph
  let res := augmentPhase rnd st.ridx points.length mst.edges roomGraph.edges
  let cols : ℤ := (st.cells[0]?.getD []).length
  let rows : ℤ := st.cells.length
  ⟨carvePhase points st.rooms cols rows res.1 st.cells, st.rooms, roomGraph⟩

theorem createDungeon_rooms (rnd : ℕ → ℚ) :
    (createDungeon rnd).rooms = (placementPhase rnd).rooms := rfl

theorem carveCorridorBetween_room_stable (points : List Point) (rooms : List Room)
    (cells : Grid) (cols rows : ℤ) (aIdx bIdx : ℕ) (i j : ℤ)
    (h : get2 cells i j = CellTypeEnum.room) :
    get2 (carveCorridorBetween points rooms cells cols rows aIdx bIdx).2 i j =
      CellTypeEnum.room := by
  cases hb : (carveCorridorBetween points rooms cells cols rows aIdx bIdx).1 with
  | false =>
    rw [(carveCorridorBetween_atomic points rooms cells cols rows aIdx bIdx).1 hb]
    exact h
  | true =>
    obtain ⟨poly, _, _, _, heq⟩ :=
      (carveCorridorBetween_atomic points rooms cells cols rows aIdx bIdx).2 hb
    rw [heq]
    exact carveCells_room_stable _ cols rows cells i j h

theorem carveCorridorBetween_no_new_room (points : List Point) (rooms : List Room)
    (cells : Grid) (cols rows : ℤ) (aIdx bIdx : ℕ) (i j : ℤ)
    (h : get2 cells i j ≠ CellTypeEnum.room) :
    get2 (carveCorridorBetween points rooms cells cols rows aIdx bIdx).2 i j ≠
      CellTypeEnum.room := by
  cases hb : (carveCorridorBetween points rooms cells cols rows aIdx bIdx).1 with
  | false =>
    rw [(carveCorridorBetween_atomic points rooms cells cols rows aIdx bIdx).1 hb]
    exact h
  | true =>
    obtain ⟨poly, _, _, _, heq⟩ :=
      (carveCorridorBetween_atomic points rooms cells cols rows aIdx bIdx).2 hb
    rw [heq]
    exact carveCells_no_new_room _ cols rows cells i j h

theorem carvePhase_room_stable (points : List Point) (rooms : List Room)
    (cols rows : ℤ) (edges : List Edge) (cells : Grid) (i j : ℤ)
    (h : get2 cells i j = CellTypeEnum.room) :
    get2 (carvePhase points rooms cols rows edges cells) i j = CellTypeEnum.room := by
  unfold carvePhase
  induction edges generalizing cells with
  | nil => exact h
  | cons e es ih =>
    simp only [List.foldl_cons]
    exact ih _ (carveCorridorBetween_room_stable points rooms cells cols rows e.a e.b i j h)

theorem carvePhase_no_new_room (points : List Point) (rooms : List Room)
    (cols rows : ℤ) (edges : List Edge) (cells : Grid) (i j : ℤ)
    (h : get2 cells i j ≠ CellTypeEnum.room) :
    get2 (carvePhase points rooms cols rows edges cells) i j ≠ CellTypeEnum.room := by
  unfold carvePhase
  induction edges generalizing cells with
  | nil => exact h
  | cons e es ih =>
    simp only [List.foldl_cons]
    exact ih _ (carveCorridorBetween_no_new_room points rooms cells cols rows e.a e.b i j h)

/-! ### Graph-theoretic scaffolding for the MST optimality proof -/

/-- Vertices `i` and `j` are joined by some edge of the list (in either
orientation). -/
def linkedE (es : List Edge) (i j : ℕ) : Prop :=
  ∃ e ∈ es, (e.a = i ∧ e.b = j) ∨ (e.a = j ∧ e.b = i)

/-- Reachability through an edge list. -/
inductive ReachE (es : List Edge) : ℕ → ℕ → Prop
  | refl : ∀ i, ReachE es i i
  | tail : ∀ {i j k}, ReachE es i j → linkedE es j k → ReachE es i k

/-- The edge list spans the `n` vertices: everything is reachable from 0. -/
def EdgesConnect (es : List Edge) (n : ℕ) : Prop :=
  ∀ i, i < n → ReachE es 0 i

/-- A spanning tree over the candidate edge set: a selection of candidate
edges, `n - 1` of them, connecting all `n` vertices. -/
def IsSpanningTree (T : List Edge) (edges : List Edge) (n : ℕ) : Prop :=
  (∀ e ∈ T, e ∈ edges) ∧ T.length = n - 1 ∧ EdgesConnect T n

/-- Total edge weight under a reweighting `w` of the squared distance;
`w = fun q => Real.sqrt (q : ℝ)` gives the source's Euclidean weight. -/
def weightOf (w : ℚ → ℝ) (pts : List Point) (T : List Edge) : ℝ :=
  (T.map fun e => w (dist2 pts e.a e.b)).sum

theorem linkedE_symm {es : List Edge} {i j : ℕ} (h : linkedE es i j) : linkedE es j i := by
  obtain ⟨e, he, hor⟩ := h
  exact ⟨e, he, hor.symm⟩

theorem linkedE_mono {es es' : List Edge} (hsub : ∀ e ∈ es, e ∈ es') {i j : ℕ}
    (h : linkedE es i j) : linkedE es' i j := by
  obtain ⟨e, he, hor⟩ := h
  exact ⟨e, hsub e he, hor⟩

theorem ReachE.single {es : List Edge} {i j : ℕ} (h : linkedE es i j) : ReachE es i j :=
  ReachE.tail (ReachE.refl i) h

theorem ReachE.trans {es : List Edge} {i j k : ℕ} (h1 : ReachE es i j)
    (h2 : ReachE es j k) : ReachE es i k := by
  induction h2 with
  | refl => exact h1
  | tail _ hl ih => exact ReachE.tail ih hl

theorem ReachE.symm {es : List Edge} {i j : ℕ} (h : ReachE es i j) : ReachE es j i := by
  induction h with
  | refl => exact ReachE.refl _
  | tail _ hl ih => exact ReachE.trans (ReachE.single (linkedE_symm hl)) ih

theorem ReachE.mono {es es' : List Edge} (hsub : ∀ e ∈ es, e ∈ es') {i j : ℕ}
    (h : ReachE es i j) : ReachE es' i j := by
  induction h with
  | refl => exact ReachE.refl _
  | tail _ hl ih => exact ReachE.tail ih (linkedE_mono hsub hl)

/-- Reachability transfers to another edge list as soon as every linked
pair of the first is connected in the second. -/
theorem ReachE.transfer {es es' : List Edge}
    (h : ∀ x y, linkedE es x y → ReachE es' x y) {i j : ℕ}
    (hr : ReachE es i j) : ReachE es' i j := by
  induction hr with
  | refl => exact ReachE.refl _
  | tail _ hl ih => exact ReachE.trans ih (h _ _ hl)

/-- A walk from `u` through the vertex list `l`, ending at `v`. -/
def IsWalk (es : List Edge) : ℕ → List ℕ → ℕ → Prop
  | u, [], v => u = v
  | u, x :: l, v => linkedE es u x ∧ IsWalk es x l v

theorem IsWalk.nil (es : List Edge) (u : ℕ) : IsWalk es u [] u := rfl

theorem walk_snoc {es : List Edge} {u v k : ℕ} {l : List ℕ} (h : IsWalk es u l v)
    (hl : linkedE es v k) : IsWalk es u (l ++ [k]) k := by
  induction l generalizing u with
  | nil =>
    rw [IsWalk] at h
    subst h
    exact ⟨hl, rfl⟩
  | cons x l ih =>
    obtain ⟨h1, h2⟩ := h
    exact ⟨h1, ih h2⟩

theorem reach_iff_walk {es : List Edge} {u v : ℕ} :
    ReachE es u v ↔ ∃ l, IsWalk es u l v := by
  constructor
  · intro h
    induction h with
    | refl => exact ⟨[], rfl⟩
    | tail _ hl ih =>
      obtain ⟨l, hw⟩ := ih
      exact ⟨l ++ [_], walk_snoc hw hl⟩
  · rintro ⟨l, hw⟩
    induction l generalizing u with
    | nil =>
      rw [IsWalk] at hw
      subst hw
      exact ReachE.refl u
    | cons x l ih =>
      obtain ⟨h1, h2⟩ := hw
      exact ReachE.trans (ReachE.single h1) (ih h2)

theorem walk_last_mem {es : List Edge} {u v : ℕ} {l : List ℕ} (h : IsWalk es u l v) :
    v ∈ u :: l := by
  induction l generalizing u with
  | nil =>
    rw [IsWalk] at h
    subst h
    exact List.mem_singleton_self u
  | cons x l ih =>
    obtain ⟨h1, h2⟩ := h
    exact List.mem_cons_of_mem u (ih h2)

theorem walk_suffix {es : List Edge} {u v x : ℕ} {l1 l2 : List ℕ}
    (h : IsWalk es u (l1 ++ x :: l2) v) : IsWalk es x l2 v := by
  induction l1 generalizing u with
  | nil => exact h.2
  | cons y l1 ih => exact ih h.2

theorem walk_take {es : List Edge} {u v x : ℕ} {l1 l2 : List ℕ}
    (h : IsWalk es u (l1 ++ x :: l2) v) : IsWalk es u (l1 ++ [x]) x := by
  induction l1 generalizing u with
  | nil => exact ⟨h.1, rfl⟩
  | cons y l1 ih => exact ⟨h.1, ih h.2⟩

theorem walk_join {es : List Edge} {u x v : ℕ} {l1 l2 : List ℕ}
    (h1 : IsWalk es u (l1 ++ [x]) x) (h2 : IsWalk es x l2 v) :
    IsWalk es u (l1 ++ x :: l2) v := by
  induction l1 generalizing u with
  | nil => exact ⟨h1.1, h2⟩
  | cons y l1 ih => exact ⟨h1.1, ih h1.2⟩

theorem not_nodup_decomp {l : List ℕ} (h : ¬ l.Nodup) :
    ∃ x l1 l2 l3, l = l1 ++ x :: l2 ++ x :: l3 := by
  induction l with
  | nil => exact absurd List.nodup_nil h
  | cons a l ih =>
    by_cases ha : a ∈ l
    · obtain ⟨s, t, rfl⟩ := List.append_of_mem ha
      exact ⟨a, [], s, t, rfl⟩
    · have hl : ¬ l.Nodup := by
        intro hnd
        exact h (List.nodup_cons.mpr ⟨ha, hnd⟩)
      obtain ⟨x, l1, l2, l3, rfl⟩ := ih hl
      exact ⟨x, a :: l1, l2, l3, rfl⟩

theorem walk_nodup {es : List Edge} :
    ∀ (N : ℕ) (u v : ℕ) (l : List ℕ), l.length ≤ N → IsWalk es u l v →
      ∃ l', IsWalk es u l' v ∧ (u :: l').Nodup := by
  intro N
  induction N with
  | zero =>
    intro u v l hlen h
    have hl0 : l = [] := List.length_eq_zero.mp (by omega)
    subst hl0
    rw [IsWalk] at h
    subst h
    exact ⟨[], rfl, List.nodup_singleton u⟩
  | succ N ih =>
    intro u v l hlen h
    by_cases hnd : (u :: l).Nodup
    · exact ⟨l, h, hnd⟩
    · by_cases hu : u ∈ l
      · obtain ⟨s, t, rfl⟩ := List.append_of_mem hu
        exact ih u v t (by simp at hlen; omega) (walk_suffix h)
      · have hl : ¬ l.Nodup := by
          intro hnd'
          exact hnd (List.nodup_cons.mpr ⟨hu, hnd'⟩)
        obtain ⟨x, l1, l2, l3, rfl⟩ := not_nodup_decomp hl
        have hshape : IsWalk es u (l1 ++ x :: (l2 ++ x :: l3)) v := by simpa using h
        have hpre : IsWalk es u (l1 ++ [x]) x := walk_take hshape
        have hsuf : IsWalk es x l3 v := by
          have h' : IsWalk es u ((l1 ++ x :: l2) ++ x :: l3) v := by
            simpa using h
          exact walk_suffix h'
        exact ih u v (l1 ++ x :: l3) (by simp at hlen ⊢; omega) (walk_join hpre hsuf)

theorem walk_first_exit {es : List Edge} {S : ℕ → Bool} :
    ∀ {u v : ℕ} {l : List ℕ}, IsWalk es u l v → S u = true → S v = false →
      ∃ l1 p q l2, l = l1 ++ q :: l2 ∧ IsWalk es u l1 p ∧
        (∀ x ∈ u :: l1, S x = true) ∧ S q = false ∧ linkedE es p q ∧ IsWalk es q l2 v := by
  intro u v l
  induction l generalizing u with
  | nil =>
    intro h hu hv
    rw [IsWalk] at h
    subst h
    rw [hu] at hv
    exact Bool.noConfusion hv
  | cons x l ih =>
    intro h hu hv
    obtain ⟨hl, hw⟩ := h
    by_cases hx : S x = true
    · obtain ⟨l1, p, q, l2, heq, hwp, hall, hq, hpq, hsuf⟩ := ih hw hx hv
      refine ⟨x :: l1, p, q, l2, by rw [heq]; rfl, ⟨hl, hwp⟩, ?_, hq, hpq, hsuf⟩
      intro y hy
      rcases List.mem_cons.mp hy with rfl | hy
      · exact hu
      · exact hall y hy
    · refine ⟨[], u, x, l, rfl, rfl, ?_, by simpa using hx, hl, hw⟩
      intro y hy
      rw [List.mem_singleton.mp hy]
      exact hu

/-- A walk whose vertices all satisfy `P` survives erasing an edge with
an endpoint outside `P`. -/
theorem walk_erase {es : List Edge} {f : Edge} (P : ℕ → Prop) {u v : ℕ} {l : List ℕ}
    (hw : IsWalk es u l v) (hP : ∀ x ∈ u :: l, P x) (hf : ¬ P f.a ∨ ¬ P f.b) :
    IsWalk (es.erase f) u l v := by
  induction l generalizing u with
  | nil => exact hw
  | cons x l ih =>
    obtain ⟨⟨g, hg, hor⟩, hw2⟩ := hw
    have hgf : g ≠ f := by
      intro he
      subst he
      have hu : P u := hP u (List.mem_cons_self _ _)
      have hx : P x := hP x (List.mem_cons_of_mem _ (List.mem_cons_self _ _))
      rcases hor with ⟨ha, hb⟩ | ⟨ha, hb⟩ <;> rw [ha, hb] at hf <;> tauto
    refine ⟨⟨g, (List.mem_erase_of_ne hgf).mpr hg, hor⟩, ih hw2 ?_⟩
    intro y hy
    exact hP y (List.mem_cons_of_mem _ hy)

/-- The exchange step: if `e` joins `u ∈ S` to `v ∉ S` and `T'` connects
`u` to `v`, then some edge `f` of `T'` crosses the cut and every linked
pair of `T'` stays connected after swapping `f` for `e`. -/
theorem exchange_lemma (T' : List Edge) (S : ℕ → Bool) (e : Edge) (u v : ℕ)
    (hpair : (e.a = u ∧ e.b = v) ∨ (e.a = v ∧ e.b = u))
    (hSu : S u = true) (hSv : S v = false) (hreach : ReachE T' u v) :
    ∃ f ∈ T', ((S f.a = true ∧ S f.b = false) ∨ (S f.a = false ∧ S f.b = true)) ∧
      ∀ x y, linkedE T' x y → ReachE (e :: T'.erase f) x y := by
  obtain ⟨l0, hw0⟩ := reach_iff_walk.mp hreach
  obtain ⟨l, hw, hnd⟩ := walk_nodup l0.length u v l0 le_rfl hw0
  obtain ⟨l1, p, q, l2, heq, hpre, hallS, hq, hpq, hsuf⟩ := walk_first_exit hw hSu hSv
  obtain ⟨f, hfT, hfor⟩ := hpq
  have hSp : S p = true := hallS p (walk_last_mem hpre)
  have hcross : (S f.a = true ∧ S f.b = false) ∨ (S f.a = false ∧ S f.b = true) := by
    rcases hfor with ⟨ha, hb⟩ | ⟨ha, hb⟩
    · exact Or.inl ⟨ha ▸ hSp, hb ▸ hq⟩
    · exact Or.inr ⟨ha ▸ hq, hb ▸ hSp⟩
  have hfS : ¬ S f.a = true ∨ ¬ S f.b = true := by
    rcases hcross with ⟨_, hb⟩ | ⟨ha, _⟩
    · exact Or.inr (by rw [hb]; exact Bool.false_ne_true)
    · exact Or.inl (by rw [ha]; exact Bool.false_ne_true)
  have hfp : f.a = p ∨ f.b = p := by
    rcases hfor with ⟨ha, _⟩ | ⟨_, hb⟩
    · exact Or.inl ha
    · exact Or.inr hb
  -- the prefix stays inside S, the suffix avoids p (by nodup)
  have hpreE : IsWalk (T'.erase f) u l1 p :=
    walk_erase (fun x => S x = true) hpre hallS hfS
  have hpnot : p ∉ q :: l2 := by
    have hmemp : p ∈ u :: l1 := walk_last_mem hpre
    have : (u :: l1 ++ q :: l2).Nodup := by
      rw [heq] at hnd
      simpa using hnd
    intro hcontra
    rcases List.mem_cons.mp hmemp with rfl | hmem1
    · exact (List.disjoint_of_nodup_append this) (List.mem_cons_self _ _) hcontra
    · exact (List.disjoint_of_nodup_append this)
        (List.mem_cons_of_mem _ hmem1) hcontra
  have hsufE : IsWalk (T'.erase f) q l2 v := by
    refine walk_erase (fun x => x ≠ p) hsuf ?_ ?_
    · intro x hx he
      exact hpnot (he ▸ hx)
    · rcases hfp with ha | hb
      · exact Or.inl (by simpa using ha)
      · exact Or.inr (by simpa using hb)
  have hsub : ∀ g ∈ T'.erase f, g ∈ (e :: T'.erase f) := fun g hg => List.mem_cons_of_mem _ hg
  have hpq' : ReachE (e :: T'.erase f) p q := by
    have h1 : ReachE (e :: T'.erase f) p u :=
      (ReachE.mono hsub (reach_iff_walk.mpr ⟨l1, hpreE⟩)).symm
    have h2 : ReachE (e :: T'.erase f) u v :=
      ReachE.single ⟨e, List.mem_cons_self _ _, hpair⟩
    have h3 : ReachE (e :: T'.erase f) v q :=
      (ReachE.mono hsub (reach_iff_walk.mpr ⟨l2, hsufE⟩)).symm
    exact (h1.trans h2).trans h3
  refine ⟨f, hfT, hcross, ?_⟩
  intro x y hxy
  obtain ⟨g, hgT, hgor⟩ := hxy
  by_cases hgf : g = f
  · subst hgf
    have hxy' : (x = p ∧ y = q) ∨ (x = q ∧ y = p) := by
      rcases hgor with ⟨ha, hb⟩ | ⟨ha, hb⟩ <;> rcases hfor with ⟨ha', hb'⟩ | ⟨ha', hb'⟩ <;>
        omega
    rcases hxy' with ⟨rfl, rfl⟩ | ⟨rfl, rfl⟩
    · exact hpq'
    · exact hpq'.symm
  · exact ReachE.single ⟨g, List.mem_cons_of_mem _ ((List.mem_erase_of_ne hgf).mpr hgT), hgor⟩

/-- The boundary-crossing test of the edge scan. -/
def crosses (inT : List Bool) (e : Edge) : Bool :=
  (inT.getD e.a false && !(inT.getD e.b false)) || (!(inT.getD e.a false) && inT.getD e.b false)

/-- Invariant of the `scanBest` fold over the processed prefix. -/
def ScanInv (pts : List Point) (inT : List Bool) (processed : List Edge)
    (st : Option Edge × Option ℚ) : Prop :=
  (st = (none, none) ∧ ∀ f ∈ processed, crosses inT f = false) ∨
  (∃ e l1 l2, st = (some e, some (dist2 pts e.a e.b)) ∧ crosses inT e = true ∧
    processed = l1 ++ e :: l2 ∧
    (∀ f ∈ l1, crosses inT f = true → dist2 pts e.a e.b < dist2 pts f.a f.b) ∧
    (∀ f ∈ l2, crosses inT f = true → dist2 pts e.a e.b ≤ dist2 pts f.a f.b))

theorem scanInv_step (pts : List Point) (inT : List Bool) (processed : List Edge)
    (st : Option Edge × Option ℚ) (f : Edge) (h : ScanInv pts inT processed st) :
    ScanInv pts inT (processed ++ [f])
      (if (inT.getD f.a false && !(inT.getD f.b false)) ||
          (!(inT.getD f.a false) && inT.getD f.b false) then
        if ltOptQ (dist2 pts f.a f.b) st.2 then (some f, some (dist2 pts f.a f.b)) else st
      else st) := by
  have hcond : ((inT.getD f.a false && !(inT.getD f.b false)) ||
      (!(inT.getD f.a false) && inT.getD f.b false)) = crosses inT f := rfl
  rw [hcond]
  by_cases hcr : crosses inT f = true
  · rw [if_pos hcr]
    rcases h with ⟨hst, hall⟩ | ⟨e, l1, l2, hst, hecr, hproc, hl1, hl2⟩
    · subst hst
      simp only [ltOptQ, if_pos rfl]
      right
      exact ⟨f, processed, [], rfl, hcr, by simp, fun g hg hgcr => by
        rw [hall g hg] at hgcr
        exact Bool.noConfusion hgcr, by simp⟩
    · subst hst
      simp only [ltOptQ]
      by_cases hlt : dist2 pts f.a f.b < dist2 pts e.a e.b
      · rw [if_pos (by simpa using hlt)]
        right
        refine ⟨f, processed, [], rfl, hcr, by simp, ?_, by simp⟩
        intro g hg hgcr
        rw [hproc] at hg
        rcases List.mem_append.mp hg with hg1 | hg2
        · exact lt_trans hlt (hl1 g hg1 hgcr)
        · rcases List.mem_cons.mp hg2 with rfl | hg3
          · exact hlt
          · exact lt_of_lt_of_le hlt (hl2 g hg3 hgcr)
      · rw [if_neg (by simpa using hlt)]
        right
        refine ⟨e, l1, l2 ++ [f], rfl, hecr, by rw [hproc]; simp, hl1, ?_⟩
        intro g hg hgcr
        rcases List.mem_append.mp hg with hg1 | hg2
        · exact hl2 g hg1 hgcr
        · rw [List.mem_singleton.mp hg2]
          exact le_of_not_lt hlt
  · rw [if_neg hcr]
    have hcrf : crosses inT f = false := by
      rwa [Bool.not_eq_true] at hcr
    rcases h with ⟨hst, hall⟩ | ⟨e, l1, l2, hst, hecr, hproc, hl1, hl2⟩
    · left
      refine ⟨hst, ?_⟩
      intro g hg
      rcases List.mem_append.mp hg with hg1 | hg2
      · exact hall g hg1
      · rw [List.mem_singleton.mp hg2]
        exact hcrf
    · right
      refine ⟨e, l1, l2 ++ [f], hst, hecr, by rw [hproc]; simp, hl1, ?_⟩
      intro g hg hgcr
      rcases List.mem_append.mp hg with hg1 | hg2
      · exact hl2 g hg1 hgcr
      · have hgf : g = f := List.mem_singleton.mp hg2
        subst hgf
        exact absurd hgcr hcr

theorem scanBest_inv (pts : List Point) (inT : List Bool) (edges : List Edge) :
    ScanInv pts inT edges (scanBest pts inT edges) := by
  suffices H : ∀ (es processed : List Edge) (st : Option Edge × Option ℚ),
      ScanInv pts inT processed st →
      ScanInv pts inT (processed ++ es)
        (es.foldl (fun best e =>
          if (inT.getD e.a false && !(inT.getD e.b false)) ||
              (!(inT.getD e.a false) && inT.getD e.b false) then
            if ltOptQ (dist2 pts e.a e.b) best.2 then (some e, some (dist2 pts e.a e.b))
            else best
          else best) st) by
    have := H edges [] (none, none) (Or.inl ⟨rfl, by simp⟩)
    simpa [scanBest] using this
  intro es
  induction es with
  | nil =>
    intro processed st h
    simpa using h
  | cons f es ih =>
    intro processed st h
    have hstep := scanInv_step pts inT processed st f h
    have := ih (processed ++ [f]) _ hstep
    simpa using this

theorem getD_set_self_true (l : List Bool) (i : ℕ) (hi : i < l.length) :
    (l.set i true).getD i false = true := by
  rw [List.getD_eq_getElem?_getD, List.getElem?_set_self (by simpa using hi)]
  simp

theorem getD_set_other (l : List Bool) (i j : ℕ) (v : Bool) (hij : i ≠ j) :
    (l.set i v).getD j false = l.getD j false := by
  rw [List.getD_eq_getElem?_getD, List.getElem?_set_ne (by omega),
    List.getD_eq_getElem?_getD]

theorem getD_set_true_mono (l : List Bool) (i j : ℕ)
    (h : l.getD j false = true) : (l.set i true).getD j false = true := by
  by_cases hij : i = j
  · subst hij
    rcases Nat.lt_or_ge i l.length with hi | hi
    · exact getD_set_self_true l i hi
    · rwa [List.set_eq_of_length_le (by omega)]
  · rw [getD_set_other l i j true hij]
    exact h

theorem getD_set_true_cases (l : List Bool) (i j : ℕ)
    (h : (l.set i true).getD j false = true) :
    l.getD j false = true ∨ j = i := by
  by_cases hij : i = j
  · exact Or.inr hij.symm
  · rw [getD_set_other l i j true hij] at h
    exact Or.inl h

theorem getD_false_of_ge (l : List Bool) (j : ℕ) (h : l.length ≤ j) :
    l.getD j false = false := by
  rw [List.getD_eq_getElem?_getD, List.getElem?_eq_none (by simpa using h)]
  rfl

theorem count_true_set (l : List Bool) (i : ℕ) (hi : i < l.length) :
    (l.set i true).count true =
      l.count true + (if l.getD i false = true then 0 else 1) := by
  induction l generalizing i with
  | nil => simp at hi
  | cons x t ih =>
    cases i with
    | zero =>
      simp only [List.set_cons_zero, List.count_cons, List.getD_cons_zero]
      cases x <;> simp
    | succ i =>
      simp only [List.set_cons_succ, List.count_cons, List.getD_cons_succ]
      rw [ih i (by simpa using hi)]
      split <;> cases x <;> simp

theorem exists_false_index (l : List Bool) (h : l.count true < l.length) :
    ∃ j, j < l.length ∧ l.getD j false = false := by
  by_contra hc
  push_neg at hc
  have hall : ∀ b ∈ l, true = b := by
    intro b hb
    obtain ⟨j, hj, hjb⟩ := List.mem_iff_getElem.mp hb
    have h2 := hc j hj
    rw [List.getD_eq_getElem?_getD, List.getElem?_eq_getElem hj] at h2
    simp only [Option.getD_some] at h2
    have h3 : l[j] = true := by
      cases hlj : l[j]
      · exact absurd hlj h2
      · rfl
    rw [← hjb, h3]
  rw [List.count_eq_length.mpr hall] at h
  omega

theorem crosses_iff (inT : List Bool) (f : Edge) :
    crosses inT f = true ↔
      (inT.getD f.a false = true ∧ inT.getD f.b false = false) ∨
      (inT.getD f.a false = false ∧ inT.getD f.b false = true) := by
  unfold crosses
  cases h1 : inT.getD f.a false <;> cases h2 : inT.getD f.b false <;> simp

/-- While the tree is a strict subset of a connected vertex set, some
candidate edge crosses the boundary. -/
theorem exists_crossing_edge (edges : List Edge) (n : ℕ) (inT : List Bool)
    (hconn : EdgesConnect edges n) (hzero : inT.getD 0 false = true)
    (j : ℕ) (hj : j < n) (hjf : inT.getD j false = false) :
    ∃ e ∈ edges, crosses inT e = true := by
  have hreach : ReachE edges 0 j := hconn j hj
  obtain ⟨l, hw⟩ := reach_iff_walk.mp hreach
  obtain ⟨l1, p, q, l2, _, hpre, hallS, hq, hpq, _⟩ :=
    walk_first_exit (S := fun i => inT.getD i false) hw hzero hjf
  obtain ⟨f, hfT, hfor⟩ := hpq
  refine ⟨f, hfT, ?_⟩
  rw [crosses_iff]
  have hSp : inT.getD p false = true := hallS p (walk_last_mem hpre)
  rcases hfor with ⟨ha, hb⟩ | ⟨ha, hb⟩
  · exact Or.inl ⟨by rw [ha]; exact hSp, by rw [hb]; exact hq⟩
  · exact Or.inr ⟨by rw [ha]; exact hq, by rw [hb]; exact hSp⟩

theorem weightOf_cons (w : ℚ → ℝ) (pts : List Point) (e : Edge) (T : List Edge) :
    weightOf w pts (e :: T) = w (dist2 pts e.a e.b) + weightOf w pts T := by
  simp [weightOf]

theorem weightOf_perm (w : ℚ → ℝ) (pts : List Point) {T T' : List Edge}
    (h : T.Perm T') : weightOf w pts T = weightOf w pts T' :=
  List.Perm.sum_eq (List.Perm.map _ h)

/-- Cut-exchange step: adding the scan's minimum boundary edge to a
promising forest keeps it inside some spanning tree of no greater weight
(simultaneously for every monotone reweighting). -/
theorem promising_extend (pts : List Point) (edges : List Edge) (n : ℕ)
    (inT : List Bool) (e : Edge) (hcr : crosses inT e = true)
    (hmin : ∀ f ∈ edges, crosses inT f = true →
      dist2 pts e.a e.b ≤ dist2 pts f.a f.b)
    (he : e ∈ edges) (hea : e.a < n) (heb : e.b < n)
    (acc : List Edge)
    (hintree : ∀ g ∈ acc, inT.getD g.a false = true ∧ inT.getD g.b false = true)
    (T' : List Edge) (hT' : IsSpanningTree T' edges n) (hsub : ∀ g ∈ acc, g ∈ T') :
    ∃ Tn, IsSpanningTree Tn edges n ∧ (∀ g ∈ acc ++ [e], g ∈ Tn) ∧
      ∀ w : ℚ → ℝ, Monotone w → weightOf w pts Tn ≤ weightOf w pts T' := by
  obtain ⟨hTsub, hTlen, hTconn⟩ := hT'
  by_cases heT : e ∈ T'
  · refine ⟨T', ⟨hTsub, hTlen, hTconn⟩, ?_, fun w _ => le_refl _⟩
    intro g hg
    rcases List.mem_append.mp hg with hg1 | hg2
    · exact hsub g hg1
    · rw [List.mem_singleton.mp hg2]
      exact heT
  · -- orient e across the cut
    rw [crosses_iff] at hcr
    have key : ∀ u v : ℕ, ((e.a = u ∧ e.b = v) ∨ (e.a = v ∧ e.b = u)) →
        u < n → v < n →
        inT.getD u false = true → inT.getD v false = false →
        ∃ Tn, IsSpanningTree Tn edges n ∧ (∀ g ∈ acc ++ [e], g ∈ Tn) ∧
          ∀ w : ℚ → ℝ, Monotone w → weightOf w pts Tn ≤ weightOf w pts T' := by
      intro u v hpair hu hv hSu hSv
      have hreach : ReachE T' u v :=
        ReachE.trans (ReachE.symm (hTconn u hu)) (hTconn v hv)
      obtain ⟨f, hfT, hfcross, htransfer⟩ :=
        exchange_lemma T' (fun i => inT.getD i false) e u v hpair hSu hSv hreach
      have hfedges : f ∈ edges := hTsub f hfT
      have hfcr : crosses inT f = true := by
        rw [crosses_iff]
        exact hfcross
      have hfw : dist2 pts e.a e.b ≤ dist2 pts f.a f.b := hmin f hfedges hfcr
      have hfacc : f ∉ acc := by
        intro hfa
        obtain ⟨h1, h2⟩ := hintree f hfa
        rcases hfcross with ⟨_, hb⟩ | ⟨ha, _⟩
        · rw [h2] at hb
          exact Bool.noConfusion hb
        · rw [h1] at ha
          exact Bool.noConfusion ha
      refine ⟨e :: T'.erase f, ⟨?_, ?_, ?_⟩, ?_, ?_⟩
      · intro g hg
        rcases List.mem_cons.mp hg with rfl | hg2
        · exact he
        · exact hTsub g (List.mem_of_mem_erase hg2)
      · rw [List.length_cons, List.length_erase_of_mem hfT, hTlen]
        have huv : u ≠ v := by
          intro h
          rw [h, hSv] at hSu
          exact Bool.noConfusion hSu
        have hn2 : 2 ≤ n := by omega
        have hT1 : 1 ≤ T'.length := by
          by_contra hc
          push_neg at hc
          have : T' = [] := List.length_eq_zero.mp (by omega)
          rw [this] at hfT
          exact List.not_mem_nil f hfT
        omega
      · intro i hi
        exact ReachE.transfer htransfer (hTconn i hi)
      · intro g hg
        rcases List.mem_append.mp hg with hg1 | hg2
        · have hgf : g ≠ f := fun hgf => hfacc (hgf ▸ hg1)
          exact List.mem_cons_of_mem _ ((List.mem_erase_of_ne hgf).mpr (hsub g hg1))
        · rw [List.mem_singleton.mp hg2]
          exact List.mem_cons_self _ _
      · intro w hw
        have hperm : T'.Perm (f :: T'.erase f) := List.perm_cons_erase hfT
        rw [weightOf_perm w pts hperm, weightOf_cons, weightOf_cons]
        have := hw hfw
        linarith
    rcases hcr with ⟨h1, h2⟩ | ⟨h1, h2⟩
    · exact key e.a e.b (Or.inl ⟨rfl, rfl⟩) hea heb h1 h2
    · exact key e.b e.a (Or.inr ⟨rfl, rfl⟩) heb hea h2 h1

/-- Invariant carried through `primLoop`. -/
structure PrimInv (edges : List Edge) (n : ℕ) (inT : List Bool) (acc : List Edge) : Prop where
  len : inT.length = n
  zero : inT.getD 0 false = true
  count : inT.count true = acc.length + 1
  sub : ∀ e ∈ acc, e ∈ edges
  intree : ∀ e ∈ acc, inT.getD e.a false = true ∧ inT.getD e.b false = true
  conn : ∀ i, i < n → inT.getD i false = true → ReachE acc 0 i
  distinct : acc.Pairwise fun e f => ¬ ((e.a = f.a ∧ e.b = f.b) ∨ (e.a = f.b ∧ e.b = f.a))

theorem primLoop_master (pts : List Point) (edges : List Edge) (n : ℕ)
    (hn : 2 ≤ n) (hvalid : ∀ e ∈ edges, e.a < n ∧ e.b < n)
    (hconn : EdgesConnect edges n) :
    ∀ (fuel : ℕ) (inT : List Bool) (acc : List Edge),
      acc.length + fuel = n - 1 →
      PrimInv edges n inT acc →
      (∀ T, IsSpanningTree T edges n → ∃ Tp, IsSpanningTree Tp edges n ∧
        (∀ e ∈ acc, e ∈ Tp) ∧
        ∀ w : ℚ → ℝ, Monotone w → weightOf w pts Tp ≤ weightOf w pts T) →
      (primLoop pts edges n fuel inT acc).2.length = n - 1 ∧
      PrimInv edges n (primLoop pts edges n fuel inT acc).1
        (primLoop pts edges n fuel inT acc).2 ∧
      ∀ T, IsSpanningTree T edges n → ∃ Tp, IsSpanningTree Tp edges n ∧
        (∀ e ∈ (primLoop pts edges n fuel inT acc).2, e ∈ Tp) ∧
        ∀ w : ℚ → ℝ, Monotone w → weightOf w pts Tp ≤ weightOf w pts T := by
  intro fuel
  induction fuel with
  | zero =>
    intro inT acc hfuel hinv hprom
    rw [primLoop]
    exact ⟨show acc.length = n - 1 by omega, hinv, hprom⟩
  | succ fuel ih =>
    intro inT acc hfuel hinv hprom
    have hlt : acc.length < n - 1 := by omega
    -- the scan cannot fail: some candidate edge crosses the boundary
    have hcount_lt : inT.count true < inT.length := by
      rw [hinv.count, hinv.len]
      omega
    obtain ⟨j, hjlen, hjfalse⟩ := exists_false_index inT hcount_lt
    have hjn : j < n := by rw [hinv.len] at hjlen; exact hjlen
    obtain ⟨ecr, hecr_mem, hecr⟩ :=
      exists_crossing_edge edges n inT hconn hinv.zero j hjn hjfalse
    have hscan : ∃ e, (scanBest pts inT edges).1 = some e := by
      rcases scanBest_inv pts inT edges with ⟨hst, hall⟩ | ⟨e, l1, l2, hst, _, _, _, _⟩
      · rw [hall ecr hecr_mem] at hecr
        exact Bool.noConfusion hecr
      · exact ⟨e, by rw [hst]⟩
    obtain ⟨e, he⟩ := hscan
    -- properties of the selected edge
    have hespec : crosses inT e = true ∧ e ∈ edges ∧
        ∀ f ∈ edges, crosses inT f = true →
          dist2 pts e.a e.b ≤ dist2 pts f.a f.b := by
      rcases scanBest_inv pts inT edges with ⟨hst, _⟩ | ⟨e', l1, l2, hst, hcr', hdec, hl1, hl2⟩
      · rw [hst] at he
        exact Option.noConfusion he
      · have hee : e' = e := by
          rw [hst] at he
          exact Option.some.inj he
        subst hee
        refine ⟨hcr', by rw [hdec]; simp, ?_⟩
        intro f hf hfcr
        rw [hdec] at hf
        rcases List.mem_append.mp hf with hf1 | hf2
        · exact le_of_lt (hl1 f hf1 hfcr)
        · rcases List.mem_cons.mp hf2 with rfl | hf3
          · exact le_refl _
          · exact hl2 f hf3 hfcr
    obtain ⟨hecross, heedges, hemin⟩ := hespec
    obtain ⟨hean, hebn⟩ := hvalid e heedges
    have heab : e.a ≠ e.b := by
      rw [crosses_iff] at hecross
      intro hc
      rcases hecross with ⟨h1, h2⟩ | ⟨h1, h2⟩ <;> rw [hc, h2] at h1 <;>
        exact Bool.noConfusion h1
    -- unfold one loop iteration
    have hstep : primLoop pts edges n (fuel + 1) inT acc =
        primLoop pts edges n fuel ((inT.set e.a true).set e.b true) (acc ++ [e]) := by
      conv_lhs => unfold primLoop
      rw [if_pos hlt]
      dsimp only
      rw [he]
    rw [hstep]
    -- the new tree-membership list
    set inT' := (inT.set e.a true).set e.b true with hinT'
    have hlen' : inT'.length = n := by
      show ((inT.set e.a true).set e.b true).length = n
      rw [List.length_set, List.length_set, hinv.len]
    have hget_mono : ∀ i, inT.getD i false = true → inT'.getD i false = true := by
      intro i hi
      exact getD_set_true_mono _ _ _ (getD_set_true_mono _ _ _ hi)
    have hget_a : inT'.getD e.a false = true := by
      by_cases hba : e.b = e.a
      · exact absurd hba.symm heab
      · show ((inT.set e.a true).set e.b true).getD e.a false = true
        rw [getD_set_other _ _ _ _ hba]
        exact getD_set_self_true _ _ (by rw [hinv.len]; exact hean)
    have hget_b : inT'.getD e.b false = true :=
      getD_set_self_true _ _ (by rw [List.length_set, hinv.len]; exact hebn)
    have hget_cases : ∀ i, inT'.getD i false = true →
        inT.getD i false = true ∨ i = e.a ∨ i = e.b := by
      intro i hi
      rcases getD_set_true_cases _ _ _ hi with hi2 | hib
      · rcases getD_set_true_cases _ _ _ hi2 with hi3 | hia
        · exact Or.inl hi3
        · exact Or.inr (Or.inl hia)
      · exact Or.inr (Or.inr hib)
    have hcount' : inT'.count true = (acc ++ [e]).length + 1 := by
      rw [crosses_iff] at hecross
      have hlen_a : e.a < inT.length := by rw [hinv.len]; exact hean
      have hlen_b : e.b < (inT.set e.a true).length := by
        rw [List.length_set, hinv.len]
        exact hebn
      show ((inT.set e.a true).set e.b true).count true = (acc ++ [e]).length + 1
      rw [count_true_set _ _ hlen_b, count_true_set _ _ hlen_a]
      rcases hecross with ⟨h1, h2⟩ | ⟨h1, h2⟩
      · rw [if_pos h1, getD_set_other _ _ _ _ heab, if_neg (by rw [h2]; simp)]
        rw [hinv.count]
        simp
      · rw [if_neg (by rw [h1]; simp), getD_set_other _ _ _ _ heab, if_pos h2]
        rw [hinv.count]
        simp
    have hintree' : ∀ g ∈ acc ++ [e],
        inT'.getD g.a false = true ∧ inT'.getD g.b false = true := by
      intro g hg
      rcases List.mem_append.mp hg with hg1 | hg2
      · obtain ⟨h1, h2⟩ := hinv.intree g hg1
        exact ⟨hget_mono _ h1, hget_mono _ h2⟩
      · rw [List.mem_singleton.mp hg2]
        exact ⟨hget_a, hget_b⟩
    have hconn' : ∀ i, i < n → inT'.getD i false = true → ReachE (acc ++ [e]) 0 i := by
      have hsubacc : ∀ g ∈ acc, g ∈ acc ++ [e] := fun g hg => List.mem_append_left _ hg
      have hreach_in : ∀ i, i < n → inT.getD i false = true → ReachE (acc ++ [e]) 0 i :=
        fun i hi hti => ReachE.mono hsubacc (hinv.conn i hi hti)
      have hemem : e ∈ acc ++ [e] := List.mem_append_right _ (List.mem_singleton_self e)
      have hlink : linkedE (acc ++ [e]) e.a e.b := ⟨e, hemem, Or.inl ⟨rfl, rfl⟩⟩
      rw [crosses_iff] at hecross
      intro i hi hti
      rcases hget_cases i hti with hold | rfl | rfl
      · exact hreach_in i hi hold
      · rcases hecross with ⟨h1, _⟩ | ⟨_, h2⟩
        · exact hreach_in e.a hean h1
        · exact ReachE.tail (hreach_in e.b hebn h2) (linkedE_symm hlink)
      · rcases hecross with ⟨h1, _⟩ | ⟨_, h2⟩
        · exact ReachE.tail (hreach_in e.a hean h1) hlink
        · exact hreach_in e.b hebn h2
    have hdistinct' : (acc ++ [e]).Pairwise
        fun g f => ¬ ((g.a = f.a ∧ g.b = f.b) ∨ (g.a = f.b ∧ g.b = f.a)) := by
      rw [List.pairwise_append]
      refine ⟨hinv.distinct, List.pairwise_singleton _ _, ?_⟩
      intro g hg f hf
      rw [List.mem_singleton.mp hf]
      obtain ⟨h1, h2⟩ := hinv.intree g hg
      rw [crosses_iff] at hecross
      intro hpair
      rcases hecross with ⟨_, hb⟩ | ⟨ha, _⟩
      · rcases hpair with ⟨_, h4⟩ | ⟨h3, _⟩
        · rw [← h4, h2] at hb
          exact Bool.noConfusion hb
        · rw [← h3, h1] at hb
          exact Bool.noConfusion hb
      · rcases hpair with ⟨h3, _⟩ | ⟨_, h4⟩
        · rw [← h3, h1] at ha
          exact Bool.noConfusion ha
        · rw [← h4, h2] at ha
          exact Bool.noConfusion ha
    have hinv' : PrimInv edges n inT' (acc ++ [e]) := by
      refine ⟨hlen', hget_mono _ hinv.zero, hcount', ?_, hintree', hconn', hdistinct'⟩
      intro g hg
      rcases List.mem_append.mp hg with hg1 | hg2
      · exact hinv.sub g hg1
      · rw [List.mem_singleton.mp hg2]
        exact heedges
    have hprom' : ∀ T, IsSpanningTree T edges n → ∃ Tp, IsSpanningTree Tp edges n ∧
        (∀ g ∈ acc ++ [e], g ∈ Tp) ∧
        ∀ w : ℚ → ℝ, Monotone w → weightOf w pts Tp ≤ weightOf w pts T := by
      intro T hT
      obtain ⟨Tp, hTp, hTpsub, hTpw⟩ := hprom T hT
      obtain ⟨Tn, hTn, hTnsub, hTnw⟩ := promising_extend pts edges n inT e hecross hemin
        heedges hean hebn acc hinv.intree Tp hTp hTpsub
      exact ⟨Tn, hTn, hTnsub, fun w hw => le_trans (hTnw w hw) (hTpw w hw)⟩
    exact ih inT' (acc ++ [e]) (by simp; omega) hinv' hprom'

theorem primMST_spec (g : Graph) (hn : 1 ≤ g.points.length)
    (hvalid : ∀ e ∈ g.edges, e.a < g.points.length ∧ e.b < g.points.length)
    (hconn : EdgesConnect g.edges g.points.length) :
    (primMST g).points = g.points ∧
    (primMST g).edges.length = g.points.length - 1 ∧
    (∀ e ∈ (primMST g).edges, e ∈ g.edges) ∧
    EdgesConnect (primMST g).edges g.points.length ∧
    ∀ w : ℚ → ℝ, Monotone w → ∀ T, IsSpanningTree T g.edges g.points.length →
      weightOf w g.points (primMST g).edges ≤ weightOf w g.points T := by
  set pts := g.points with hpts
  set n := g.points.length with hn_def
  rcases Nat.lt_or_ge n 2 with hsmall | hn2
  · -- n = 1
    have hn1 : n = 1 := by omega
    obtain ⟨p, hp⟩ := List.length_eq_one.mp (show g.points.length = 1 by omega)
    have hprim : primMST g = { points := [pts.getD 0 ⟨0, 0⟩], edges := [] } := by
      unfold primMST
      rw [if_neg (by omega), if_pos (by rw [← hn_def]; exact hn1)]
    rw [hprim]
    have hgd : pts.getD 0 ⟨0, 0⟩ = p := by rw [hpts, hp]; rfl
    refine ⟨by rw [hgd, hpts, hp], by simp [hn1], by simp, ?_, ?_⟩
    · intro i hi
      have : i = 0 := by omega
      subst this
      exact ReachE.refl 0
    · intro w hw T hT
      obtain ⟨_, hTlen, _⟩ := hT
      have : T = [] := List.length_eq_zero.mp (by rw [hTlen]; omega)
      rw [this]
    -- n ≥ 2
  · have hn0 : n ≠ 0 := by omega
    have hn1 : n ≠ 1 := by omega
    have hprim : primMST g =
        { points := pts,
          edges := (primLoop pts g.edges n (n - 1)
            ((List.replicate n false).set 0 true) []).2 } := by
      unfold primMST
      rw [if_neg (by rw [← hn_def]; exact hn0), if_neg (by rw [← hn_def]; exact hn1)]
    have hrep_len : ((List.replicate n false).set 0 true).length = n := by
      rw [List.length_set, List.length_replicate]
    have hrep_getD : ∀ i : ℕ, (List.replicate n false : List Bool).getD i false = false := by
      intro i
      rw [List.getD_eq_getElem?_getD]
      rcases Nat.lt_or_ge i n with hi | hi
      · rw [List.getElem?_eq_getElem (by simpa using hi)]
        simp
      · rw [List.getElem?_eq_none (by simpa using hi)]
        rfl
    have hzero0 : ((List.replicate n false).set 0 true).getD 0 false = true :=
      getD_set_self_true _ _ (by rw [List.length_replicate]; omega)
    have hinv0 : PrimInv g.edges n ((List.replicate n false).set 0 true) [] := by
      refine ⟨hrep_len, hzero0, ?_, by simp, by simp, ?_, by simp⟩
      · rw [count_true_set _ _ (by rw [List.length_replicate]; omega)]
        rw [hrep_getD 0]
        simp [List.count_replicate]
      · intro i hi hti
        rcases getD_set_true_cases _ _ _ hti with hold | h0
        · rw [hrep_getD i] at hold
          exact Bool.noConfusion hold
        · subst h0
          exact ReachE.refl 0
    have hprom0 : ∀ T, IsSpanningTree T g.edges n → ∃ Tp, IsSpanningTree Tp g.edges n ∧
        (∀ e ∈ ([] : List Edge), e ∈ Tp) ∧
        ∀ w : ℚ → ℝ, Monotone w → weightOf w pts Tp ≤ weightOf w pts T :=
      fun T hT => ⟨T, hT, by simp, fun w _ => le_refl _⟩
    obtain ⟨hlen, hinvf, hpromf⟩ := primLoop_master pts g.edges n hn2 hvalid hconn
      (n - 1) ((List.replicate n false).set 0 true) [] (by simp) hinv0 hprom0
    have halltrue : ∀ i, i < n →
        (primLoop pts g.edges n (n - 1)
          ((List.replicate n false).set 0 true) []).1.getD i false = true := by
      intro i hi
      set inTf := (primLoop pts g.edges n (n - 1)
        ((List.replicate n false).set 0 true) []).1
      have hcN : inTf.count true = n := by
        rw [hinvf.count, hlen]
        omega
      have hall : ∀ b ∈ inTf, true = b := by
        apply List.count_eq_length.mp
        rw [hcN, hinvf.len]
      rw [List.getD_eq_getElem?_getD,
        List.getElem?_eq_getElem (by rw [hinvf.len]; exact hi)]
      simp only [Option.getD_some]
      exact (hall _ (List.getElem_mem _)).symm
    refine ⟨by rw [hprim], by rw [hprim]; exact hlen, ?_, ?_, ?_⟩
    · intro e he
      rw [hprim] at he
      exact hinvf.sub e he
    · intro i hi
      rw [hprim]
      exact hinvf.conn i hi (halltrue i hi)
    · intro w hw T hT
      obtain ⟨Tp, hTp, hTpsub, hTpw⟩ := hpromf T hT
      have hnodup : (primLoop pts g.edges n (n - 1)
          ((List.replicate n false).set 0 true) []).2.Nodup := by
        apply List.Pairwise.imp _ hinvf.distinct
        intro e f hne
        intro hef
        exact hne (Or.inl ⟨by rw [hef], by rw [hef]⟩)
      have hsubperm := List.subperm_of_subset hnodup
        (fun e he => hTpsub e he)
      have hTplen : Tp.length = n - 1 := hTp.2.1
      have hperm := hsubperm.perm_of_length_le (by rw [hTplen, hlen])
      rw [hprim]
      calc weightOf w pts (primLoop pts g.edges n (n - 1)
            ((List.replicate n false).set 0 true) []).2
          = weightOf w pts Tp := weightOf_perm w pts hperm
        _ ≤ weightOf w pts T := hTpw w hw

/-! ### Rasterization geometry: cells of the candidate polylines -/

theorem lineCellsAux_zero (x1 y1 dx dy x y : ℤ) :
    lineCellsAux x1 y1 dx dy 0 x y = [] := rfl

theorem lineCellsAux_step (x1 y1 dx dy : ℤ) (n : ℕ) (x y : ℤ) (h : x ≠ x1 ∨ y ≠ y1) :
    lineCellsAux x1 y1 dx dy (n + 1) x y =
      (if x ≠ x1 then x + dx else x, if y ≠ y1 then y + dy else y) ::
        lineCellsAux x1 y1 dx dy n (if x ≠ x1 then x + dx else x)
          (if y ≠ y1 then y + dy else y) := by
  simp only [lineCellsAux]
  rw [if_pos h]

theorem lineCellsAux_horiz_pos (xt y : ℤ) :
    ∀ (n : ℕ) (x : ℤ), x + n = xt → ∀ p : ℤ × ℤ,
      (p ∈ lineCellsAux xt y 1 0 n x y ↔ p.2 = y ∧ x + 1 ≤ p.1 ∧ p.1 ≤ xt)
  | 0, x, hx, p => by
      rw [lineCellsAux_zero]
      simp only [List.not_mem_nil, false_iff]
      push_cast at hx
      omega
  | n + 1, x, hx, p => by
      have hx' : x + (n : ℤ) + 1 = xt := by push_cast at hx; omega
      have hxne : x ≠ xt := by omega
      rw [lineCellsAux_step _ _ _ _ _ _ _ (Or.inl hxne), if_pos hxne,
        if_neg (not_not_intro rfl)]
      rw [List.mem_cons, lineCellsAux_horiz_pos xt y n (x + 1) (by omega) p]
      constructor
      · rintro (rfl | ⟨h1, h2, h3⟩)
        · refine ⟨rfl, ?_, ?_⟩ <;> simp <;> omega
        · exact ⟨h1, by omega, h3⟩
      · rintro ⟨h1, h2, h3⟩
        rcases eq_or_lt_of_le h2 with heq | hlt
        · left
          exact Prod.ext (by simp [← heq]) (by simp [h1])
        · right
          exact ⟨h1, by omega, h3⟩

theorem lineCellsAux_horiz_neg (xt y : ℤ) :
    ∀ (n : ℕ) (x : ℤ), x - n = xt → ∀ p : ℤ × ℤ,
      (p ∈ lineCellsAux xt y (-1) 0 n x y ↔ p.2 = y ∧ xt ≤ p.1 ∧ p.1 ≤ x - 1)
  | 0, x, hx, p => by
      rw [lineCellsAux_zero]
      simp only [List.not_mem_nil, false_iff]
      push_cast at hx
      omega
  | n + 1, x, hx, p => by
      have hx' : x - (n : ℤ) - 1 = xt := by push_cast at hx; omega
      have hxne : x ≠ xt := by omega
      rw [lineCellsAux_step _ _ _ _ _ _ _ (Or.inl hxne), if_pos hxne,
        if_neg (not_not_intro rfl)]
      rw [show x + (-1 : ℤ) = x - 1 from by ring]
      rw [List.mem_cons, lineCellsAux_horiz_neg xt y n (x - 1) (by omega) p]
      constructor
      · rintro (rfl | ⟨h1, h2, h3⟩)
        · refine ⟨rfl, ?_, ?_⟩ <;> simp <;> omega
        · exact ⟨h1, h2, by omega⟩
      · rintro ⟨h1, h2, h3⟩
        rcases eq_or_lt_of_le h3 with heq | hlt
        · left
          exact Prod.ext (by simp [heq]) (by simp [h1])
        · right
          exact ⟨h1, h2, by omega⟩

theorem lineCellsAux_vert_pos (x yt : ℤ) :
    ∀ (n : ℕ) (y : ℤ), y + n = yt → ∀ p : ℤ × ℤ,
      (p ∈ lineCellsAux x yt 0 1 n x y ↔ p.1 = x ∧ y + 1 ≤ p.2 ∧ p.2 ≤ yt)
  | 0, y, hy, p => by
      rw [lineCellsAux_zero]
      simp only [List.not_mem_nil, false_iff]
      push_cast at hy
      omega
  | n + 1, y, hy, p => by
      have hy' : y + (n : ℤ) + 1 = yt := by push_cast at hy; omega
      have hyne : y ≠ yt := by omega
      rw [lineCellsAux_step _ _ _ _ _ _ _ (Or.inr hyne), if_pos hyne,
        if_neg (not_not_intro rfl)]
      rw [List.mem_cons, lineCellsAux_vert_pos x yt n (y + 1) (by omega) p]
      constructor
      · rintro (rfl | ⟨h1, h2, h3⟩)
        · refine ⟨?_, ?_, ?_⟩ <;> simp <;> omega
        · exact ⟨h1, by omega, h3⟩
      · rintro ⟨h1, h2, h3⟩
        rcases eq_or_lt_of_le h2 with heq | hlt
        · left
          exact Prod.ext (by simp [h1]) (by simp [← heq])
        · right
          exact ⟨h1, by omega, h3⟩

theorem lineCellsAux_vert_neg (x yt : ℤ) :
    ∀ (n : ℕ) (y : ℤ), y - n = yt → ∀ p : ℤ × ℤ,
      (p ∈ lineCellsAux x yt 0 (-1) n x y ↔ p.1 = x ∧ yt ≤ p.2 ∧ p.2 ≤ y - 1)
  | 0, y, hy, p => by
      rw [lineCellsAux_zero]
      simp only [List.not_mem_nil, false_iff]
      push_cast at hy
      omega
  | n + 1, y, hy, p => by
      have hy' : y - (n : ℤ) - 1 = yt := by push_cast at hy; omega
      have hyne : y ≠ yt := by omega
      rw [lineCellsAux_step _ _ _ _ _ _ _ (Or.inr hyne), if_pos hyne,
        if_neg (not_not_intro rfl)]
      rw [show y + (-1 : ℤ) = y - 1 from by ring]
      rw [List.mem_cons, lineCellsAux_vert_neg x yt n (y - 1) (by omega) p]
      constructor
      · rintro (rfl | ⟨h1, h2, h3⟩)
        · refine ⟨?_, ?_, ?_⟩ <;> simp <;> omega
        · exact ⟨h1, h2, by omega⟩
      · rintro ⟨h1, h2, h3⟩
        rcases eq_or_lt_of_le h3 with heq | hlt
        · left
          exact Prod.ext (by simp [h1]) (by simp [heq])
        · right
          exact ⟨h1, h2, by omega⟩

/-- Membership in a rasterized horizontal segment. -/
theorem mem_lineCells_horiz (x0 x1 y : ℤ) (p : ℤ × ℤ) :
    p ∈ lineCells x0 y x1 y ↔
      p.2 = y ∧ ((x0 ≤ p.1 ∧ p.1 ≤ x1) ∨ (x1 ≤ p.1 ∧ p.1 ≤ x0)) := by
  unfold lineCells
  rcases lt_trichotomy x0 x1 with h | h | h
  · rw [if_neg (by omega), if_pos (by omega), if_pos rfl]
    simp only [sub_self, Int.natAbs_zero, Nat.add_zero]
    rw [List.mem_cons,
      lineCellsAux_horiz_pos x1 y _ x0 (by omega) p]
    constructor
    · rintro (rfl | ⟨h1, h2, h3⟩)
      · refine ⟨rfl, Or.inl ⟨?_, ?_⟩⟩ <;> simp <;> omega
      · exact ⟨h1, Or.inl ⟨by omega, h3⟩⟩
    · rintro ⟨h1, h2 | h2⟩
      · rcases eq_or_lt_of_le h2.1 with heq | hlt
        · left
          exact Prod.ext (by simp [← heq]) (by simp [h1])
        · right
          exact ⟨h1, by omega, h2.2⟩
      · exact absurd (h2.1.trans h2.2) (by omega)
  · subst h
    rw [if_pos rfl, if_pos rfl]
    simp only [sub_self, Int.natAbs_zero, Nat.add_zero, lineCellsAux_zero]
    rw [List.mem_singleton]
    constructor
    · rintro rfl
      refine ⟨rfl, Or.inl ⟨?_, ?_⟩⟩ <;> simp
    · rintro ⟨h1, h2 | h2⟩ <;>
        exact Prod.ext (by simp; omega) (by simp [h1])
  · rw [if_neg (by omega), if_neg (by omega), if_pos rfl]
    simp only [sub_self, Int.natAbs_zero, Nat.add_zero]
    rw [List.mem_cons,
      lineCellsAux_horiz_neg x1 y _ x0 (by omega) p]
    constructor
    · rintro (rfl | ⟨h1, h2, h3⟩)
      · refine ⟨rfl, Or.inr ⟨?_, ?_⟩⟩ <;> simp <;> omega
      · exact ⟨h1, Or.inr ⟨h2, by omega⟩⟩
    · rintro ⟨h1, h2 | h2⟩
      · exact absurd (h2.1.trans h2.2) (by omega)
      · rcases eq_or_lt_of_le h2.2 with heq | hlt
        · left
          exact Prod.ext (by simp [heq]) (by simp [h1])
        · right
          exact ⟨h1, h2.1, by omega⟩

/-- Membership in a rasterized vertical segment. -/
theorem mem_lineCells_vert (x y0 y1 : ℤ) (p : ℤ × ℤ) :
    p ∈ lineCells x y0 x y1 ↔
      p.1 = x ∧ ((y0 ≤ p.2 ∧ p.2 ≤ y1) ∨ (y1 ≤ p.2 ∧ p.2 ≤ y0)) := by
  unfold lineCells
  rcases lt_trichotomy y0 y1 with h | h | h
  · rw [if_pos rfl, if_neg (by omega), if_pos (by omega)]
    simp only [sub_self, Int.natAbs_zero, Nat.zero_add]
    rw [List.mem_cons,
      lineCellsAux_vert_pos x y1 _ y0 (by omega) p]
    constructor
    · rintro (rfl | ⟨h1, h2, h3⟩)
      · refine ⟨rfl, Or.inl ⟨?_, ?_⟩⟩ <;> simp <;> omega
      · exact ⟨h1, Or.inl ⟨by omega, h3⟩⟩
    · rintro ⟨h1, h2 | h2⟩
      · rcases eq_or_lt_of_le h2.1 with heq | hlt
        · left
          exact Prod.ext (by simp [h1]) (by simp [← heq])
        · right
          exact ⟨h1, by omega, h2.2⟩
      · exact absurd (h2.1.trans h2.2) (by omega)
  · subst h
    rw [if_pos rfl, if_pos rfl]
    simp only [sub_self, Int.natAbs_zero, Nat.add_zero, lineCellsAux_zero]
    rw [List.mem_singleton]
    constructor
    · rintro rfl
      refine ⟨rfl, Or.inl ⟨?_, ?_⟩⟩ <;> simp
    · rintro ⟨h1, h2 | h2⟩ <;>
        exact Prod.ext (by simp [h1]) (by simp; omega)
  · rw [if_pos rfl, if_neg (by omega), if_neg (by omega)]
    simp only [sub_self, Int.natAbs_zero, Nat.zero_add]
    rw [List.mem_cons,
      lineCellsAux_vert_neg x y1 _ y0 (by omega) p]
    constructor
    · rintro (rfl | ⟨h1, h2, h3⟩)
      · refine ⟨rfl, Or.inr ⟨?_, ?_⟩⟩ <;> simp <;> omega
      · exact ⟨h1, Or.inr ⟨h2, by omega⟩⟩
    · rintro ⟨h1, h2 | h2⟩
      · exact absurd (h2.1.trans h2.2) (by omega)
      · rcases eq_or_lt_of_le h2.2 with heq | hlt
        · left
          exact Prod.ext (by simp [h1]) (by simp [heq])
        · right
          exact ⟨h1, h2.1, by omega⟩

theorem mem_ite_nil {c : Prop} [Decidable c] {l : List (ℤ × ℤ)} {p : ℤ × ℤ} :
    (p ∈ if c then ([] : List (ℤ × ℤ)) else l) ↔ ¬c ∧ p ∈ l := by
  split <;> simp [*]

theorem polylineToCells_pair_eq (a b : ℤ × ℤ) :
    polylineToCells [a, b] =
      if a.1 = b.1 ∧ a.2 = b.2 then [] else lineCells a.1 a.2 b.1 b.2 := by
  have hr : List.range ([a, b].length - 1) = [0] := rfl
  unfold polylineToCells
  rw [hr]
  simp only [List.foldl_cons, List.foldl_nil, List.getD_cons_zero, List.getD_cons_succ,
    Nat.zero_add]
  split <;> simp

theorem polylineToCells_triple_eq (a b c : ℤ × ℤ) :
    polylineToCells [a, b, c] =
      (if a.1 = b.1 ∧ a.2 = b.2 then [] else lineCells a.1 a.2 b.1 b.2) ++
        (if b.1 = c.1 ∧ b.2 = c.2 then [] else lineCells b.1 b.2 c.1 c.2) := by
  have hr : List.range ([a, b, c].length - 1) = [0, 1] := rfl
  unfold polylineToCells
  rw [hr]
  simp only [List.foldl_cons, List.foldl_nil, List.getD_cons_zero, List.getD_cons_succ,
    Nat.zero_add]
  split <;> split <;> simp

theorem polylineToCells_quad_eq (a b c d : ℤ × ℤ) :
    polylineToCells [a, b, c, d] =
      ((if a.1 = b.1 ∧ a.2 = b.2 then [] else lineCells a.1 a.2 b.1 b.2) ++
        (if b.1 = c.1 ∧ b.2 = c.2 then [] else lineCells b.1 b.2 c.1 c.2)) ++
        (if c.1 = d.1 ∧ c.2 = d.2 then [] else lineCells c.1 c.2 d.1 d.2) := by
  have hr : List.range ([a, b, c, d].length - 1) = [0, 1, 2] := rfl
  unfold polylineToCells
  rw [hr]
  simp only [List.foldl_cons, List.foldl_nil, List.getD_cons_zero, List.getD_cons_succ,
    Nat.zero_add]
  split <;> split <;> split <;> simp

theorem fst_pair (u v : ℤ) : ((u, v) : ℤ × ℤ).1 = u := rfl

theorem snd_pair (u v : ℤ) : ((u, v) : ℤ × ℤ).2 = v := rfl

/-- Cells of the first L candidate `[s, (e.1, s.2), e]`: the horizontal
leg at `s.2` and the vertical leg at `e.1`. -/
theorem mem_polyL1 (s e : ℤ × ℤ) (p : ℤ × ℤ) :
    p ∈ polylineToCells [s, (e.1, s.2), e] ↔
      (s.1 ≠ e.1 ∧ p.2 = s.2 ∧ ((s.1 ≤ p.1 ∧ p.1 ≤ e.1) ∨ (e.1 ≤ p.1 ∧ p.1 ≤ s.1))) ∨
      (s.2 ≠ e.2 ∧ p.1 = e.1 ∧ ((s.2 ≤ p.2 ∧ p.2 ≤ e.2) ∨ (e.2 ≤ p.2 ∧ p.2 ≤ s.2))) := by
  rw [polylineToCells_triple_eq]
  simp only [fst_pair, snd_pair, List.mem_append, mem_ite_nil]
  rw [mem_lineCells_horiz, mem_lineCells_vert]
  simp only [eq_self_iff_true, and_true, true_and, ne_eq]

/-- Cells of the second L candidate `[s, (s.1, e.2), e]`: the vertical
leg at `s.1` and the horizontal leg at `e.2`. -/
theorem mem_polyL2 (s e : ℤ × ℤ) (p : ℤ × ℤ) :
    p ∈ polylineToCells [s, (s.1, e.2), e] ↔
      (s.2 ≠ e.2 ∧ p.1 = s.1 ∧ ((s.2 ≤ p.2 ∧ p.2 ≤ e.2) ∨ (e.2 ≤ p.2 ∧ p.2 ≤ s.2))) ∨
      (s.1 ≠ e.1 ∧ p.2 = e.2 ∧ ((s.1 ≤ p.1 ∧ p.1 ≤ e.1) ∨ (e.1 ≤ p.1 ∧ p.1 ≤ s.1))) := by
  rw [polylineToCells_triple_eq]
  simp only [fst_pair, snd_pair, List.mem_append, mem_ite_nil]
  rw [mem_lineCells_vert, mem_lineCells_horiz]
  simp only [eq_self_iff_true, and_true, true_and, ne_eq]

/-- Cells of an X-pivot fan candidate `[s, (px, s.2), (px, e.2), e]`. -/
theorem mem_fanX (s e : ℤ × ℤ) (px : ℤ) (p : ℤ × ℤ) :
    p ∈ polylineToCells [s, (px, s.2), (px, e.2), e] ↔
      (s.1 ≠ px ∧ p.2 = s.2 ∧ ((s.1 ≤ p.1 ∧ p.1 ≤ px) ∨ (px ≤ p.1 ∧ p.1 ≤ s.1))) ∨
      (s.2 ≠ e.2 ∧ p.1 = px ∧ ((s.2 ≤ p.2 ∧ p.2 ≤ e.2) ∨ (e.2 ≤ p.2 ∧ p.2 ≤ s.2))) ∨
      (px ≠ e.1 ∧ p.2 = e.2 ∧ ((px ≤ p.1 ∧ p.1 ≤ e.1) ∨ (e.1 ≤ p.1 ∧ p.1 ≤ px))) := by
  rw [polylineToCells_quad_eq]
  simp only [fst_pair, snd_pair, List.mem_append, mem_ite_nil]
  rw [mem_lineCells_horiz, mem_lineCells_vert, mem_lineCells_horiz]
  simp only [eq_self_iff_true, and_true, true_and, ne_eq, or_assoc]

/-- Cells of a Y-pivot fan candidate `[s, (s.1, py), (e.1, py), e]`. -/
theorem mem_fanY (s e : ℤ × ℤ) (py : ℤ) (p : ℤ × ℤ) :
    p ∈ polylineToCells [s, (s.1, py), (e.1, py), e] ↔
      (s.2 ≠ py ∧ p.1 = s.1 ∧ ((s.2 ≤ p.2 ∧ p.2 ≤ py) ∨ (py ≤ p.2 ∧ p.2 ≤ s.2))) ∨
      (s.1 ≠ e.1 ∧ p.2 = py ∧ ((s.1 ≤ p.1 ∧ p.1 ≤ e.1) ∨ (e.1 ≤ p.1 ∧ p.1 ≤ s.1))) ∨
      (py ≠ e.2 ∧ p.1 = e.1 ∧ ((py ≤ p.2 ∧ p.2 ≤ e.2) ∨ (e.2 ≤ p.2 ∧ p.2 ≤ py))) := by
  rw [polylineToCells_quad_eq]
  simp only [fst_pair, snd_pair, List.mem_append, mem_ite_nil]
  rw [mem_lineCells_vert, mem_lineCells_horiz, mem_lineCells_vert]
  simp only [eq_self_iff_true, and_true, true_and, ne_eq, or_assoc]

/-- The path itself covers all four cells of some 2×2 window. -/
def SelfBlock (path : List (ℤ × ℤ)) : Prop :=
  ∃ sx sy : ℤ, ∀ w ∈ windowCells sx sy, w ∈ path

/-- A straight (collinear) candidate never covers a 2×2 window. -/
theorem straight_no_selfblock (s e : ℤ × ℤ) (hcol : s.1 = e.1 ∨ s.2 = e.2) :
    ¬ SelfBlock (polylineToCells [s, e]) := by
  rintro ⟨wx, wy, hall⟩
  have h1 := hall (wx, wy) (by simp [windowCells])
  have h2 := hall (wx + 1, wy) (by simp [windowCells])
  have h3 := hall (wx, wy + 1) (by simp [windowCells])
  rw [polylineToCells_pair_eq, mem_ite_nil] at h1 h2 h3
  rcases hcol with hc | hc
  · rw [show lineCells s.1 s.2 e.1 e.2 = lineCells s.1 s.2 s.1 e.2 from by rw [hc]] at h1 h2
    rw [mem_lineCells_vert] at h1 h2
    simp only [fst_pair, snd_pair] at h1 h2
    omega
  · rw [show lineCells s.1 s.2 e.1 e.2 = lineCells s.1 s.2 e.1 s.2 from by rw [hc]] at h1 h3
    rw [mem_lineCells_horiz] at h1 h3
    simp only [fst_pair, snd_pair] at h1 h3
    omega

/-- The first L candidate never covers a 2×2 window. -/
theorem polyL1_no_selfblock (s e : ℤ × ℤ) :
    ¬ SelfBlock (polylineToCells [s, (e.1, s.2), e]) := by
  rintro ⟨wx, wy, hall⟩
  have h1 := hall (wx, wy) (by simp [windowCells])
  have h2 := hall (wx + 1, wy) (by simp [windowCells])
  have h3 := hall (wx, wy + 1) (by simp [windowCells])
  have h4 := hall (wx + 1, wy + 1) (by simp [windowCells])
  rw [mem_polyL1] at h1 h2 h3 h4
  simp only [fst_pair, snd_pair] at h1 h2 h3 h4
  omega

/-- The second L candidate never covers a 2×2 window. -/
theorem polyL2_no_selfblock (s e : ℤ × ℤ) :
    ¬ SelfBlock (polylineToCells [s, (s.1, e.2), e]) := by
  rintro ⟨wx, wy, hall⟩
  have h1 := hall (wx, wy) (by simp [windowCells])
  have h2 := hall (wx + 1, wy) (by simp [windowCells])
  have h3 := hall (wx, wy + 1) (by simp [windowCells])
  have h4 := hall (wx + 1, wy + 1) (by simp [windowCells])
  rw [mem_polyL2] at h1 h2 h3 h4
  simp only [fst_pair, snd_pair] at h1 h2 h3 h4
  omega

/-- An X-pivot fan candidate that covers a full 2×2 window contains all
the cells of one of the two L candidates. -/
theorem fanX_selfblock_subset (s e : ℤ × ℤ) (px wx wy : ℤ)
    (h1 : (wx, wy) ∈ polylineToCells [s, (px, s.2), (px, e.2), e])
    (h2 : (wx + 1, wy) ∈ polylineToCells [s, (px, s.2), (px, e.2), e])
    (h3 : (wx, wy + 1) ∈ polylineToCells [s, (px, s.2), (px, e.2), e])
    (h4 : (wx + 1, wy + 1) ∈ polylineToCells [s, (px, s.2), (px, e.2), e]) :
    (∀ c ∈ polylineToCells [s, (e.1, s.2), e],
        c ∈ polylineToCells [s, (px, s.2), (px, e.2), e]) ∨
    (∀ c ∈ polylineToCells [s, (s.1, e.2), e],
        c ∈ polylineToCells [s, (px, s.2), (px, e.2), e]) := by
  rw [mem_fanX] at h1 h2 h3 h4
  simp only [fst_pair, snd_pair] at h1 h2 h3 h4
  by_cases hcase : (s.1 ≤ e.1 ∧ e.1 < px) ∨ (px < e.1 ∧ e.1 ≤ s.1)
  · left
    intro c hc
    rw [mem_polyL1] at hc
    rw [mem_fanX]
    omega
  · right
    intro c hc
    rw [mem_polyL2] at hc
    rw [mem_fanX]
    omega

/-- A Y-pivot fan candidate that covers a full 2×2 window contains all
the cells of one of the two L candidates. -/
theorem fanY_selfblock_subset (s e : ℤ × ℤ) (py wx wy : ℤ)
    (h1 : (wx, wy) ∈ polylineToCells [s, (s.1, py), (e.1, py), e])
    (h2 : (wx + 1, wy) ∈ polylineToCells [s, (s.1, py), (e.1, py), e])
    (h3 : (wx, wy + 1) ∈ polylineToCells [s, (s.1, py), (e.1, py), e])
    (h4 : (wx + 1, wy + 1) ∈ polylineToCells [s, (s.1, py), (e.1, py), e]) :
    (∀ c ∈ polylineToCells [s, (e.1, s.2), e],
        c ∈ polylineToCells [s, (s.1, py), (e.1, py), e]) ∨
    (∀ c ∈ polylineToCells [s, (s.1, e.2), e],
        c ∈ polylineToCells [s, (s.1, py), (e.1, py), e]) := by
  rw [mem_fanY] at h1 h2 h3 h4
  simp only [fst_pair, snd_pair] at h1 h2 h3 h4
  by_cases hcase : (s.2 ≤ e.2 ∧ e.2 < py) ∨ (py < e.2 ∧ e.2 ≤ s.2)
  · right
    intro c hc
    rw [mem_polyL2] at hc
    rw [mem_fanY]
    omega
  · left
    intro c hc
    rw [mem_polyL1] at hc
    rw [mem_fanY]
    omega

/-! ### First-occurrence deduplication of the candidate list -/

/-- The deduplication fold of `candidatePolylines`, with an explicit
accumulator. -/
def dedupAcc (acc l : List (List (ℤ × ℤ))) : List (List (ℤ × ℤ)) :=
  l.foldl (fun acc poly => if poly ∈ acc then acc else acc ++ [poly]) acc

theorem dedupAcc_append (acc l1 l2 : List (List (ℤ × ℤ))) :
    dedupAcc acc (l1 ++ l2) = dedupAcc (dedupAcc acc l1) l2 := by
  unfold dedupAcc
  rw [List.foldl_append]

theorem dedupAcc_extends (l : List (List (ℤ × ℤ))) :
    ∀ acc, ∃ extra, dedupAcc acc l = acc ++ extra ∧ ∀ x ∈ extra, x ∈ l := by
  induction l with
  | nil =>
    intro acc
    exact ⟨[], by simp [dedupAcc], by simp⟩
  | cons p l ih =>
    intro acc
    by_cases hp : p ∈ acc
    · obtain ⟨extra, he, hm⟩ := ih acc
      refine ⟨extra, ?_, fun x hx => List.mem_cons_of_mem _ (hm x hx)⟩
      rw [show dedupAcc acc (p :: l) = dedupAcc acc l from ?_]
      · exact he
      · unfold dedupAcc
        simp only [List.foldl_cons]
        rw [if_pos hp]
    · obtain ⟨extra, he, hm⟩ := ih (acc ++ [p])
      refine ⟨p :: extra, ?_, ?_⟩
      · rw [show dedupAcc acc (p :: l) = dedupAcc (acc ++ [p]) l from ?_]
        · rw [he, List.append_assoc]
          rfl
        · unfold dedupAcc
          simp only [List.foldl_cons]
          rw [if_neg hp]
      · intro x hx
        rcases List.mem_cons.mp hx with rfl | hx
        · exact List.mem_cons_self _ _
        · exact List.mem_cons_of_mem _ (hm x hx)

theorem mem_dedupAcc (l : List (List (ℤ × ℤ))) :
    ∀ (acc : List (List (ℤ × ℤ))) (x), (x ∈ acc ∨ x ∈ l) → x ∈ dedupAcc acc l := by
  induction l with
  | nil =>
    intro acc x h
    rcases h with h | h
    · simpa [dedupAcc] using h
    · simp at h
  | cons p l ih =>
    intro acc x h
    have hstep : dedupAcc acc (p :: l) = dedupAcc (if p ∈ acc then acc else acc ++ [p]) l := rfl
    rw [hstep]
    rcases h with h | h
    · apply ih
      left
      split
      · exact h
      · exact List.mem_append_left _ h
    · rcases List.mem_cons.mp h with rfl | h
      · apply ih
        left
        split
        · assumption
        · exact List.mem_append_right _ (List.mem_singleton_self _)
      · exact ih _ _ (Or.inr h)

/-- The candidate list splits into a short-polyline part holding both L
candidates followed by the (deduplicated) four-vertex fan candidates. -/
theorem candidatePolylines_split (cols rows : ℤ) (s e : ℤ × ℤ) :
    ∃ pre post, candidatePolylines cols rows s e = pre ++ post ∧
      [s, (e.1, s.2), e] ∈ pre ∧ [s, (s.1, e.2), e] ∈ pre ∧
      (∀ q ∈ pre, q.length ≤ 3) ∧ ∀ q ∈ post, q.length = 4 := by
  have hstruct : ∃ fans : List (List (ℤ × ℤ)),
      candidatePolylines cols rows s e =
        (dedupAcc []
          (((if s.1 = e.1 ∨ s.2 = e.2 then [[s, e]] else []) ++
              [[s, (e.1, s.2), e], [s, (s.1, e.2), e]]) ++ fans)).filter
          (fun p => p.length ≤ 4) ∧
      ∀ q ∈ fans, q.length = 4 := by
    refine ⟨((List.range 5).map fun (o : ℕ) =>
        [s, (clamp (Int.fdiv (s.1 + e.1) 2 + ((o : ℤ) - 2)) 0 (cols - 1), s.2),
          (clamp (Int.fdiv (s.1 + e.1) 2 + ((o : ℤ) - 2)) 0 (cols - 1), e.2), e]) ++
      ((List.range 5).map fun (o : ℕ) =>
        [s, (s.1, clamp (Int.fdiv (s.2 + e.2) 2 + ((o : ℤ) - 2)) 0 (rows - 1)),
          (e.1, clamp (Int.fdiv (s.2 + e.2) 2 + ((o : ℤ) - 2)) 0 (rows - 1)), e]), ?_, ?_⟩
    · unfold candidatePolylines
      dsimp only
      rw [← List.append_assoc]
      rfl
    · intro q hq
      rcases List.mem_append.mp hq with hq | hq <;>
        · obtain ⟨o, _, rfl⟩ := List.mem_map.mp hq
          rfl
  obtain ⟨fans, heq, hlen4⟩ := hstruct
  obtain ⟨extraF, heF, hmF⟩ := dedupAcc_extends fans
    (dedupAcc []
      ((if s.1 = e.1 ∨ s.2 = e.2 then [[s, e]] else []) ++
        [[s, (e.1, s.2), e], [s, (s.1, e.2), e]]))
  rw [dedupAcc_append, heF, List.filter_append] at heq
  refine ⟨_, _, heq, ?_, ?_, ?_, ?_⟩
  · rw [List.mem_filter]
    refine ⟨mem_dedupAcc _ _ _ (Or.inr ?_), by simp⟩
    exact List.mem_append_right _ (List.mem_cons_self _ _)
  · rw [List.mem_filter]
    refine ⟨mem_dedupAcc _ _ _ (Or.inr ?_), by simp⟩
    exact List.mem_append_right _ (List.mem_cons_of_mem _ (List.mem_singleton_self _))
  · intro q hq
    rw [List.mem_filter] at hq
    obtain ⟨extraH, heH, hmH⟩ := dedupAcc_extends
      ((if s.1 = e.1 ∨ s.2 = e.2 then [[s, e]] else []) ++
        [[s, (e.1, s.2), e], [s, (s.1, e.2), e]]) []
    rw [heH, List.nil_append] at hq
    have hq' := hmH q hq.1
    rcases List.mem_append.mp hq' with hq' | hq'
    · split at hq'
      · rw [List.mem_singleton.mp hq']
        simp
      · simp at hq'
    · rcases List.mem_cons.mp hq' with rfl | hq'
      · simp
      · rw [List.mem_singleton.mp hq']
        simp
  · intro q hq
    rw [List.mem_filter] at hq
    exact hlen4 q (hmF q hq.1)

theorem mem_of_mem_dedupAcc {l acc : List (List (ℤ × ℤ))} {x : List (ℤ × ℤ)}
    (h : x ∈ dedupAcc acc l) : x ∈ acc ∨ x ∈ l := by
  obtain ⟨extra, he, hm⟩ := dedupAcc_extends l acc
  rw [he] at h
  rcases List.mem_append.mp h with h | h
  · exact Or.inl h
  · exact Or.inr (hm x h)

/-- A candidate of `candidatePolylines` whose cells cover a full 2×2
window is a four-vertex fan, and one of the two (earlier) L candidates
rasterizes to a subset of its cells. -/
theorem selfBlock_subset_earlier (cols rows : ℤ) (s e : ℤ × ℤ) (poly : List (ℤ × ℤ))
    (hmem : poly ∈ candidatePolylines cols rows s e)
    (hsb : SelfBlock (polylineToCells poly)) :
    poly.length = 4 ∧
      ((∀ c ∈ polylineToCells [s, (e.1, s.2), e], c ∈ polylineToCells poly) ∨
       (∀ c ∈ polylineToCells [s, (s.1, e.2), e], c ∈ polylineToCells poly)) := by
  unfold candidatePolylines at hmem
  dsimp only at hmem
  rw [List.mem_filter] at hmem
  have h2 := mem_of_mem_dedupAcc (show poly ∈ dedupAcc [] _ from hmem.1)
  have hpolys := h2.resolve_left (List.not_mem_nil poly)
  rcases List.mem_append.mp hpolys with hq | hq
  · rcases List.mem_append.mp hq with hq | hq
    · rcases List.mem_append.mp hq with hq | hq
      · split at hq
        · rename_i hguard
          have hq' : poly = [s, e] := by simpa using hq
          subst hq'
          exact absurd hsb (straight_no_selfblock s e hguard)
        · simp at hq
      · rcases List.mem_cons.mp hq with rfl | hq
        · exact absurd hsb (polyL1_no_selfblock s e)
        · have hq' : poly = [s, (s.1, e.2), e] := by simpa using hq
          subst hq'
          exact absurd hsb (polyL2_no_selfblock s e)
    · obtain ⟨wx, wy, hall⟩ := hsb
      obtain ⟨o, _, rfl⟩ := List.mem_map.mp hq
      refine ⟨rfl, ?_⟩
      exact fanX_selfblock_subset s e _ wx wy
        (hall _ (by simp [windowCells])) (hall _ (by simp [windowCells]))
        (hall _ (by simp [windowCells])) (hall _ (by simp [windowCells]))
  · obtain ⟨wx, wy, hall⟩ := hsb
    obtain ⟨o, _, rfl⟩ := List.mem_map.mp hq
    refine ⟨rfl, ?_⟩
    exact fanY_selfblock_subset s e _ wx wy
      (hall _ (by simp [windowCells])) (hall _ (by simp [windowCells]))
      (hall _ (by simp [windowCells])) (hall _ (by simp [windowCells]))

/-! ### The router carves only fully validated, non-self-blocking candidates -/

/-- A candidate passes both validation stages of `carveTry` against the
current grid. -/
def passOK (rooms : List Room) (cells : Grid) (cols rows : ℤ) (aIdx bIdx : ℕ)
    (startP endP : ℤ × ℤ) (poly : List (ℤ × ℤ)) : Bool :=
  !((polylineToCells poly).any (cellInvalid rooms cells cols rows aIdx bIdx startP endP)) &&
    !(createsCorridorSquare cells cols rows (polylineToCells poly))

/-- `carveTry` carves exactly the first passing candidate: every earlier
candidate fails validation. -/
theorem carveTry_first (rooms : List Room) (cells : Grid) (cols rows : ℤ) (aIdx bIdx : ℕ)
    (startP endP : ℤ × ℤ) :
    ∀ polys, (carveTry rooms cells cols rows aIdx bIdx startP endP polys).1 = true →
      ∃ pre poly post, polys = pre ++ poly :: post ∧
        (∀ q ∈ pre, passOK rooms cells cols rows aIdx bIdx startP endP q = false) ∧
        passOK rooms cells cols rows aIdx bIdx startP endP poly = true ∧
        (carveTry rooms cells cols rows aIdx bIdx startP endP polys).2 =
          carveCells cells (polylineToCells poly) cols rows := by
  intro polys
  induction polys with
  | nil =>
    intro h
    exact absurd h (by simp [carveTry])
  | cons poly rest ih =>
    intro h
    by_cases h1 : (polylineToCells poly).any
        (cellInvalid rooms cells cols rows aIdx bIdx startP endP) = true
    · have hstep : carveTry rooms cells cols rows aIdx bIdx startP endP (poly :: rest) =
          carveTry rooms cells cols rows aIdx bIdx startP endP rest := by
        conv_lhs => unfold carveTry
        rw [if_pos h1]
      rw [hstep] at h ⊢
      obtain ⟨pre, q, post, heq, hpre, hq, hres⟩ := ih h
      refine ⟨poly :: pre, q, post, by rw [heq]; rfl, ?_, hq, hres⟩
      intro r hr
      rcases List.mem_cons.mp hr with rfl | hr
      · simp [passOK, h1]
      · exact hpre r hr
    · by_cases h2 : createsCorridorSquare cells cols rows (polylineToCells poly) = true
      · have hstep : carveTry rooms cells cols rows aIdx bIdx startP endP (poly :: rest) =
            carveTry rooms cells cols rows aIdx bIdx startP endP rest := by
          conv_lhs => unfold carveTry
          rw [if_neg h1, if_pos h2]
        rw [hstep] at h ⊢
        obtain ⟨pre, q, post, heq, hpre, hq, hres⟩ := ih h
        refine ⟨poly :: pre, q, post, by rw [heq]; rfl, ?_, hq, hres⟩
        intro r hr
        rcases List.mem_cons.mp hr with rfl | hr
        · simp [passOK, h2]
        · exact hpre r hr
      · have hstep : carveTry rooms cells cols rows aIdx bIdx startP endP (poly :: rest) =
            (true, carveCells cells (polylineToCells poly) cols rows) := by
          conv_lhs => unfold carveTry
          rw [if_neg h1, if_neg h2]
        refine ⟨[], poly, rest, rfl, by simp, ?_, by rw [hstep]⟩
        simp [passOK, Bool.of_not_eq_true h1, Bool.of_not_eq_true h2]

/-- Both validation stages look at candidate cells one at a time against
the fixed pre-carve grid, so a candidate whose cells are a subset of a
passing candidate's cells also passes. -/
theorem passOK_mono (rooms : List Room) (cells : Grid) (cols rows : ℤ) (aIdx bIdx : ℕ)
    (startP endP : ℤ × ℤ) (p q : List (ℤ × ℤ))
    (hsub : ∀ c ∈ polylineToCells q, c ∈ polylineToCells p)
    (hp : passOK rooms cells cols rows aIdx bIdx startP endP p = true) :
    passOK rooms cells cols rows aIdx bIdx startP endP q = true := by
  simp only [passOK, Bool.and_eq_true, Bool.not_eq_true'] at hp ⊢
  obtain ⟨hinv, hsq⟩ := hp
  constructor
  · rw [List.any_eq_false] at hinv ⊢
    intro c hc
    exact hinv c (hsub c hc)
  · unfold createsCorridorSquare at hsq ⊢
    rw [List.any_eq_false] at hsq ⊢
    intro c hc
    exact hsq c (hsub c hc)

/-- Every 2×2 window of the grid has a non-corridor cell. -/
def NoBlock (g : Grid) : Prop :=
  ∀ sx sy : ℤ, ∃ w ∈ windowCells sx sy, get2 g w.1 w.2 ≠ CellTypeEnum.corridor

/-- All corridor cells of the grid lie inside `[0, cols) × [0, rows)`. -/
def CorridorsInBounds (g : Grid) (cols rows : ℤ) : Prop :=
  ∀ i j : ℤ, get2 g i j = CellTypeEnum.corridor → 0 ≤ i ∧ i < cols ∧ 0 ≤ j ∧ j < rows

/-- Carving leaves a cell unchanged or turns an in-bounds path cell into
a corridor. -/
theorem get2_carveCells (cells : Grid) (path : List (ℤ × ℤ)) (cols rows : ℤ) (i j : ℤ) :
    get2 (carveCells cells path cols rows) i j = get2 cells i j ∨
    ((i, j) ∈ path ∧ 0 ≤ i ∧ i < cols ∧ 0 ≤ j ∧ j < rows ∧
      get2 (carveCells cells path cols rows) i j = CellTypeEnum.corridor) := by
  unfold carveCells
  induction path generalizing cells with
  | nil =>
    left
    rfl
  | cons p rest ih =>
    simp only [List.foldl_cons]
    rcases ih (if p.2 < 0 ∨ rows ≤ p.2 ∨ p.1 < 0 ∨ cols ≤ p.1 then cells
      else if get2 cells p.1 p.2 = CellTypeEnum.room then cells
      else set2 cells p.1 p.2 CellTypeEnum.corridor) with h | h
    · rw [h]
      split
      · left
        rfl
      · split
        · left
          rfl
        · rename_i hoob hroom
          by_cases hij : (i, j) = p
          · by_cases hbnd : inBoundsG cells p.1 p.2
            · right
              have hpi : p.1 = i := by rw [← hij]
              have hpj : p.2 = j := by rw [← hij]
              rw [hpi, hpj] at hbnd ⊢
              rw [get2_set2_eq cells i j CellTypeEnum.corridor hbnd]
              exact ⟨hij ▸ List.mem_cons_self p rest, by omega, by omega, by omega, by omega,
                rfl⟩
            · left
              rw [set2_oob cells p.1 p.2 CellTypeEnum.corridor hbnd]
          · left
            exact get2_set2_ne cells p.1 p.2 i j CellTypeEnum.corridor
              (pair_ne_coords hij)
    · right
      exact ⟨List.mem_cons_of_mem p h.1, h.2⟩

/-- Reading the corridor-clearance scan: when the cell itself is not yet
a corridor, every in-bounds neighbour within Chebyshev distance 1 is
corridor-free on the current grid. -/
theorem corridorScan_neighbor (cells : Grid) (cols rows : ℤ) (p : ℤ × ℤ) (dx dy : ℤ)
    (hscan : corridorTooCloseToOthers cells cols rows p = false)
    (hnc : get2 cells p.1 p.2 ≠ CellTypeEnum.corridor)
    (hdx : dx = -1 ∨ dx = 0 ∨ dx = 1) (hdy : dy = -1 ∨ dy = 0 ∨ dy = 1)
    (hne : ¬(dx = 0 ∧ dy = 0)) :
    (p.2 + dy < 0 ∨ rows ≤ p.2 + dy ∨ p.1 + dx < 0 ∨ cols ≤ p.1 + dx) ∨
      get2 cells (p.1 + dx) (p.2 + dy) ≠ CellTypeEnum.corridor := by
  unfold corridorTooCloseToOthers at hscan
  split at hscan
  · exact absurd hscan (by simp)
  · rw [List.any_eq_false] at hscan
    have h1 := hscan dy (by simp only [List.mem_cons, List.not_mem_nil, or_false]; omega)
    rw [Bool.not_eq_true, List.any_eq_false] at h1
    have h2 := h1 dx (by simp only [List.mem_cons, List.not_mem_nil, or_false]; omega)
    rw [Bool.not_eq_true] at h2
    simp only at h2
    rw [if_neg hne] at h2
    split at h2
    · rename_i hoob
      exact Or.inl hoob
    · by_cases hc2 : get2 cells (p.1 + dx) (p.2 + dy) = CellTypeEnum.corridor
      · rw [if_pos hc2, decide_eq_false_iff_not] at h2
        exfalso
        apply h2
        have hgap : CORRIDOR_CORRIDOR_GAP = (1 : ℤ) := rfl
        rw [hgap]
        rcases hdx with rfl | rfl | rfl <;> rcases hdy with rfl | rfl | rfl <;> decide
      · exact Or.inr hc2

theorem window_mem_coords (wx wy : ℤ) (u : ℤ × ℤ) (hu : u ∈ windowCells wx wy) :
    (u.1 = wx ∨ u.1 = wx + 1) ∧ (u.2 = wy ∨ u.2 = wy + 1) := by
  simp only [windowCells, List.mem_cons, List.not_mem_nil, or_false] at hu
  rcases hu with rfl | rfl | rfl | rfl <;> simp

/-- One routing call preserves the no-2×2-corridor-block invariant and
keeps all corridor cells inside `[0, cols) × [0, rows)`: a carved
candidate passed per-cell validation, so a newly completed block would
force all four window cells onto the carved path itself (the corridor
clearance scan forbids carving next to an existing corridor), and the
first passing candidate is never self-blocking, because one of the L
candidates — earlier in the list, with a subset of its cells — would have
passed first. -/
theorem carveCorridorBetween_noBlock (points : List Point) (rooms : List Room)
    (cells : Grid) (cols rows : ℤ) (aIdx bIdx : ℕ)
    (hnb : NoBlock cells) (hcib : CorridorsInBounds cells cols rows) :
    NoBlock (carveCorridorBetween points rooms cells cols rows aIdx bIdx).2 ∧
      CorridorsInBounds (carveCorridorBetween points rooms cells cols rows aIdx bIdx).2
        cols rows := by
  cases hb : (carveCorridorBetween points rooms cells cols rows aIdx bIdx).1 with
  | false =>
    rw [(carveCorridorBetween_atomic points rooms cells cols rows aIdx bIdx).1 hb]
    exact ⟨hnb, hcib⟩
  | true =>
    obtain ⟨pre, poly, post, hsplit, hpre, hpass, hres⟩ :=
      carveTry_first rooms cells cols rows aIdx bIdx
        (exitCellFromCenter rooms cols rows aIdx (points.getD bIdx ⟨0, 0⟩))
        (exitCellFromCenter rooms cols rows bIdx (points.getD aIdx ⟨0, 0⟩))
        (candidatePolylines cols rows
          (exitCellFromCenter rooms cols rows aIdx (points.getD bIdx ⟨0, 0⟩))
          (exitCellFromCenter rooms cols rows bIdx (points.getD aIdx ⟨0, 0⟩))) hb
    have hres' : (carveCorridorBetween points rooms cells cols rows aIdx bIdx).2 =
        carveCells cells (polylineToCells poly) cols rows := hres
    rw [hres']
    have hciv : ∀ c ∈ polylineToCells poly,
        cellInvalid rooms cells cols rows aIdx bIdx
          (exitCellFromCenter rooms cols rows aIdx (points.getD bIdx ⟨0, 0⟩))
          (exitCellFromCenter rooms cols rows bIdx (points.getD aIdx ⟨0, 0⟩)) c = false := by
      have h := hpass
      simp only [passOK, Bool.and_eq_true, Bool.not_eq_true'] at h
      intro c hc
      exact Bool.of_not_eq_true (List.any_eq_false.mp h.1 c hc)
    constructor
    · intro wx wy
      by_contra hcon
      push_neg at hcon
      obtain ⟨w0, hw0w, hw0nc⟩ := hnb wx wy
      have hw0corr := hcon w0 hw0w
      have hw0path : w0 ∈ polylineToCells poly := by
        rcases get2_carveCells cells (polylineToCells poly) cols rows w0.1 w0.2 with h | h
        · rw [h] at hw0corr
          exact absurd hw0corr hw0nc
        · have := h.1
          simpa using this
      have hscan0 : corridorTooCloseToOthers cells cols rows w0 = false := by
        have h := hciv w0 hw0path
        simp only [cellInvalid, Bool.or_eq_false_iff] at h
        exact h.2
      have hallpath : ∀ w ∈ windowCells wx wy, w ∈ polylineToCells poly := by
        intro w hww
        by_cases hwe : w = w0
        · rw [hwe]
          exact hw0path
        · obtain ⟨hu1, hu2⟩ := window_mem_coords wx wy w0 hw0w
          obtain ⟨hv1, hv2⟩ := window_mem_coords wx wy w hww
          have hne' : w.1 ≠ w0.1 ∨ w.2 ≠ w0.2 := by
            by_contra hcc
            push_neg at hcc
            exact hwe (Prod.ext hcc.1 hcc.2)
          have hstep := corridorScan_neighbor cells cols rows w0 (w.1 - w0.1) (w.2 - w0.2)
            hscan0 hw0nc (by omega) (by omega) (by omega)
          rw [show w0.1 + (w.1 - w0.1) = w.1 from by ring,
            show w0.2 + (w.2 - w0.2) = w.2 from by ring] at hstep
          have hwcorr := hcon w hww
          rcases hstep with hoob | hnc2
          · rcases get2_carveCells cells (polylineToCells poly) cols rows w.1 w.2 with h | h
            · rw [h] at hwcorr
              have hbd := hcib w.1 w.2 hwcorr
              omega
            · obtain ⟨_, hb1, hb2, hb3, hb4, _⟩ := h
              omega
          · rcases get2_carveCells cells (polylineToCells poly) cols rows w.1 w.2 with h | h
            · rw [h] at hwcorr
              exact absurd hwcorr hnc2
            · have := h.1
              simpa using this
      have hsb : SelfBlock (polylineToCells poly) := ⟨wx, wy, hallpath⟩
      have hpolymem : poly ∈ candidatePolylines cols rows
          (exitCellFromCenter rooms cols rows aIdx (points.getD bIdx ⟨0, 0⟩))
          (exitCellFromCenter rooms cols rows bIdx (points.getD aIdx ⟨0, 0⟩)) := by
        rw [hsplit]
        exact List.mem_append_right _ (List.mem_cons_self _ _)
      obtain ⟨hlen4, hsubL⟩ := selfBlock_subset_earlier _ _ _ _ poly hpolymem hsb
      obtain ⟨pre2, post2, hsplit2, hL1, hL2, hpre2len, hpost2len⟩ :=
        candidatePolylines_split cols rows
          (exitCellFromCenter rooms cols rows aIdx (points.getD bIdx ⟨0, 0⟩))
          (exitCellFromCenter rooms cols rows bIdx (points.getD aIdx ⟨0, 0⟩))
      have hplen : pre2.length ≤ pre.length := by
        by_contra hlt
        push_neg at hlt
        have hpoly2 : poly ∈ pre2 := by
          have h1 : pre2 = (pre2 ++ post2).take pre2.length := by
            rw [List.take_left]
          rw [← hsplit2, hsplit, List.take_append_eq_append_take] at h1
          have h2 : poly ∈ (poly :: post).take (pre2.length - pre.length) := by
            rw [show pre2.length - pre.length = (pre2.length - pre.length - 1) + 1 by omega,
              List.take_succ_cons]
            exact List.mem_cons_self _ _
          rw [h1]
          exact List.mem_append_right _ h2
        have := hpre2len poly hpoly2
        omega
      have hpresub : ∀ L, L ∈ pre2 → L ∈ pre := by
        intro L hL
        have h1 : pre2 = (pre2 ++ post2).take pre2.length := by
          rw [List.take_left]
        rw [← hsplit2, hsplit, List.take_append_eq_append_take,
          show pre2.length - pre.length = 0 by omega, List.take_zero,
          List.append_nil] at h1
        rw [h1] at hL
        exact List.mem_of_mem_take hL
      rcases hsubL with hsub | hsub
      · have hLpass := passOK_mono rooms cells cols rows aIdx bIdx _ _ poly _ hsub hpass
        have hLfail := hpre _ (hpresub _ hL1)
        rw [hLpass] at hLfail
        exact Bool.noConfusion hLfail
      · have hLpass := passOK_mono rooms cells cols rows aIdx bIdx _ _ poly _ hsub hpass
        have hLfail := hpre _ (hpresub _ hL2)
        rw [hLpass] at hLfail
        exact Bool.noConfusion hLfail
    · intro i j hij
      rcases get2_carveCells cells (polylineToCells poly) cols rows i j with h | h
      · rw [h] at hij
        exact hcib i j hij
      · exact ⟨h.2.1, h.2.2.1, h.2.2.2.1, h.2.2.2.2.1⟩

theorem get2_createEmptyDungeon (w h i j : ℤ) :
    get2 (createEmptyDungeon w h) i j ≠ CellTypeEnum.corridor := by
  unfold get2 createEmptyDungeon
  split
  · simp only [List.getElem?_replicate]
    split
    · simp only [Option.getD_some, List.getElem?_replicate]
      split <;> decide
    · simp
  · decide

theorem placementAttempt_no_corridor (rnd : ℕ → ℚ) (st : PlacementState)
    (h : ∀ i j : ℤ, get2 st.cells i j ≠ CellTypeEnum.corridor) :
    ∀ i j : ℤ, get2 (placementAttempt rnd st).cells i j ≠ CellTypeEnum.corridor := by
  intro i j
  unfold placementAttempt
  dsimp only
  split
  · dsimp only
    rw [get2_placeRoom]
    split
    · decide
    · exact h i j
  · dsimp only
    exact h i j

theorem placementLoop_no_corridor (rnd : ℕ → ℚ) :
    ∀ (fuel : ℕ) (st : PlacementState),
      (∀ i j : ℤ, get2 st.cells i j ≠ CellTypeEnum.corridor) →
      ∀ i j : ℤ, get2 (placementLoop rnd fuel st).cells i j ≠ CellTypeEnum.corridor
  | 0, _, h => h
  | fuel + 1, st, h => by
      unfold placementLoop
      split
      · exact placementLoop_no_corridor rnd fuel _ (placementAttempt_no_corridor rnd st h)
      · exact h

/-- The grid right after room placement has no corridor cell at all. -/
theorem placementPhase_no_corridor (rnd : ℕ → ℚ) (i j : ℤ) :
    get2 (placementPhase rnd).cells i j ≠ CellTypeEnum.corridor := by
  unfold placementPhase
  exact placementLoop_no_corridor rnd _ _ (fun i j => get2_createEmptyDungeon _ _ i j) i j

theorem noBlock_of_no_corridor (g : Grid)
    (h : ∀ i j : ℤ, get2 g i j ≠ CellTypeEnum.corridor) : NoBlock g :=
  fun sx sy => ⟨(sx, sy), by simp [windowCells], h sx sy⟩

theorem corridorsInBounds_of_no_corridor (g : Grid) (cols rows : ℤ)
    (h : ∀ i j : ℤ, get2 g i j ≠ CellTypeEnum.corridor) : CorridorsInBounds g cols rows :=
  fun i j hij => absurd hij (h i j)

theorem carvePhase_noBlock (points : List Point) (rooms : List Room) (cols rows : ℤ) :
    ∀ (edges : List Edge) (cells : Grid), NoBlock cells → CorridorsInBounds cells cols rows →
      NoBlock (carvePhase points rooms cols rows edges cells)
  | [], _, hnb, _ => hnb
  | e :: rest, cells, hnb, hcib => by
      unfold carvePhase
      simp only [List.foldl_cons]
      have h := carveCorridorBetween_noBlock points rooms cells cols rows e.a e.b hnb hcib
      exact carvePhase_noBlock points rooms cols rows rest _ h.1 h.2

/-! ### The claims -/

/-- Claim C8: for an input of at most two points, `createGraphFromPoints`
returns the same points and an empty edge list (every surviving triangle
would need three distinct non-super vertices). -/
theorem claim_C8_degenerate (points : List Point) (h : points.length ≤ 2) :
    (createGraphFromPoints points).points = points ∧
      (createGraphFromPoints points).edges = [] :=
  createGraphFromPoints_degenerate points h

/-- Witness for C8 on a concrete two-point input. -/
theorem claim_C8_degenerate_witness :
    (createGraphFromPoints [⟨0, 0⟩, ⟨3, 4⟩]).points = [⟨0, 0⟩, ⟨3, 4⟩] ∧
      (createGraphFromPoints [⟨0, 0⟩, ⟨3, 4⟩]).edges = [] :=
  claim_C8_degenerate [⟨0, 0⟩, ⟨3, 4⟩] (by decide)

/-- Claim C3 (counterexample): the disconnected-graph fallback does not
select the nearest tree/non-tree pair.  With points `(0,0)`, `(10,0)`,
`(1,0)` and no candidate edges, the first fallback step selects the pair
`(0, 1)` — the first in scan order — although the pair `(0, 2)` is
strictly nearer. -/
theorem claim_C3_counterexample :
    (primMST ⟨[⟨0, 0⟩, ⟨10, 0⟩, ⟨1, 0⟩], [], []⟩).edges = [⟨0, 1⟩, ⟨0, 2⟩] ∧
    dist2 [⟨0, 0⟩, ⟨10, 0⟩, ⟨1, 0⟩] 0 2 < dist2 [⟨0, 0⟩, ⟨10, 0⟩, ⟨1, 0⟩] 0 1 := by
  constructor
  · rfl
  · norm_num [dist2]

/-- Claim C3 (amended): when the boundary scan found nothing
(`bestWeight` still `Infinity`), the fallback's `found` flag breaks both
loops at the first qualifying pair, so the selected pair is the
lexicographically first tree/non-tree index pair in nested scan order,
regardless of distance. -/
theorem claim_C3_fallback_order (pts : List Point) (inMST : List Bool) (n i j : ℕ)
    (h : fallbackSearch pts inMST n none = some ⟨i, j⟩) :
    i < n ∧ j < n ∧ inMST.getD i false = true ∧ inMST.getD j false = false ∧
      ∀ i' j' : ℕ, i' < n → j' < n → inMST.getD i' false = true →
        inMST.getD j' false = false → i < i' ∨ (i = i' ∧ j ≤ j') :=
  fallbackSearch_first pts inMST n i j h

/-- Witness for the amended C3 theorem on a two-vertex instance. -/
theorem claim_C3_fallback_order_witness :
    (0 : ℕ) < 2 ∧ (1 : ℕ) < 2 ∧ [true, false].getD 0 false = true ∧
      [true, false].getD 1 false = false ∧
      ∀ i' j' : ℕ, i' < 2 → j' < 2 → [true, false].getD i' false = true →
        [true, false].getD j' false = false → 0 < i' ∨ (0 = i' ∧ 1 ≤ j') :=
  claim_C3_fallback_order [] [true, false] 2 0 1 (by rfl)

/-- Claim C2 (counterexample): the augmenter's degree cap is not
`MAX_ALLOWED_CONNECTIONS = 2`: the acceptance test
`adjacency[i] > MAX_ALLOWED_CONNECTIONS` still accepts an endpoint of
degree exactly `2`, whose degree then becomes `3` in the returned list.
Here point `0` has MST degree `2` and the extra edge `(0, 3)` is
accepted. -/
theorem claim_C2_counterexample :
    MAX_ALLOWED_CONNECTIONS = 2 ∧
    degreeOf (augmentPhase (fun _ => 0) 0 4 [⟨0, 1⟩, ⟨0, 2⟩, ⟨1, 3⟩]
      [⟨0, 1⟩, ⟨0, 2⟩, ⟨1, 3⟩, ⟨0, 3⟩]).1 0 = 3 := by
  with_unfolding_all decide

/-- Claim C2 (amended): the augmenter returns the MST edges followed by
accepted candidate edges only, and every point's final degree is bounded
by the maximum of its MST degree and `3` — not by `2`, since the strict
`>` acceptance test admits endpoints of degree exactly `2`. -/
theorem claim_C2_degree_cap (rnd : ℕ → ℚ) (k0 n : ℕ) (mstEdges candEdges : List Edge)
    (hmst : ∀ e ∈ mstEdges, e.a < n ∧ e.b < n)
    (hcand : ∀ e ∈ candEdges, e.a < n ∧ e.b < n ∧ e.a ≠ e.b) :
    (∀ i, degreeOf (augmentPhase rnd k0 n mstEdges candEdges).1 i ≤
      max (degreeOf mstEdges i) 3) ∧
    ∃ extra, (augmentPhase rnd k0 n mstEdges candEdges).1 = mstEdges ++ extra ∧
      ∀ e ∈ extra, e ∈ candEdges :=
  augmentPhase_spec rnd k0 n mstEdges candEdges hmst hcand

/-- Witness for the amended C2 theorem at a two-point instance. -/
theorem claim_C2_degree_cap_witness :
    degreeOf (augmentPhase (fun _ => 0) 0 2 [⟨0, 1⟩] [⟨0, 1⟩]).1 0 ≤
      max (degreeOf [⟨0, 1⟩] 0) 3 :=
  (claim_C2_degree_cap (fun _ => 0) 0 2 [⟨0, 1⟩] [⟨0, 1⟩] (by decide) (by decide)).1 0

/-- Context for C1: the validation functions applied to a single
candidate in isolation do not detect a self-filling candidate — the
pivot candidate `[(0,0), (1,0), (1,1), (0,1)]` between exits `(0,0)` and
`(0,1)` on an empty 30×30 grid passes every per-cell check and the
`createsCorridorSquare` check, and carving it would fill the 2×2 window
at `(0,0)`.  The router still never carves it: the straight candidate
`[(0,0), (0,1)]` precedes it in `candidatePolylines` and passes whenever
it does (see `carveCorridorBetween_noBlock`). -/
theorem validation_accepts_selffill_candidate :
    [((0 : ℤ), (0 : ℤ)), (1, 0), (1, 1), (0, 1)] ∈
        candidatePolylines 30 30 (0, 0) (0, 1) ∧
    (polylineToCells [((0 : ℤ), (0 : ℤ)), (1, 0), (1, 1), (0, 1)]).any
      (cellInvalid [] (createEmptyDungeon 30 30) 30 30 0 1 (0, 0) (0, 1)) = false ∧
    createsCorridorSquare (createEmptyDungeon 30 30) 30 30
      (polylineToCells [((0 : ℤ), (0 : ℤ)), (1, 0), (1, 1), (0, 1)]) = false ∧
    ∀ p ∈ windowCells 0 0,
      get2 (carveCells (createEmptyDungeon 30 30)
          (polylineToCells [((0 : ℤ), (0 : ℤ)), (1, 0), (1, 1), (0, 1)]) 30 30)
        p.1 p.2 = CellTypeEnum.corridor := by
  decide

/-- Claim C4: for a connected candidate graph on `N ≥ 1` points with
in-range edge endpoints, `primMST` keeps the points and returns exactly
`N - 1` candidate edges connecting all points; its Euclidean weight
(`Real.sqrt` of the squared distance) is minimal among all spanning trees
over the same candidate edges; and the boundary scan breaks ties by
keeping the first-encountered minimum in edge-iteration order (strict `<`
comparison): the scan's winner strictly beats every crossing edge before
it and weakly beats every crossing edge after it. -/
theorem claim_C4_mst (g : Graph) (hn : 1 ≤ g.points.length)
    (hvalid : ∀ e ∈ g.edges, e.a < g.points.length ∧ e.b < g.points.length)
    (hconn : EdgesConnect g.edges g.points.length) :
    (primMST g).points = g.points ∧
    (primMST g).edges.length = g.points.length - 1 ∧
    (∀ e ∈ (primMST g).edges, e ∈ g.edges) ∧
    EdgesConnect (primMST g).edges g.points.length ∧
    (∀ T, IsSpanningTree T g.edges g.points.length →
      weightOf (fun q => Real.sqrt (q : ℝ)) g.points (primMST g).edges ≤
        weightOf (fun q => Real.sqrt (q : ℝ)) g.points T) ∧
    (∀ inT e, (scanBest g.points inT g.edges).1 = some e →
      ∃ l1 l2, g.edges = l1 ++ e :: l2 ∧ crosses inT e = true ∧
        (∀ f ∈ l1, crosses inT f = true →
          dist2 g.points e.a e.b < dist2 g.points f.a f.b) ∧
        (∀ f ∈ l2, crosses inT f = true →
          dist2 g.points e.a e.b ≤ dist2 g.points f.a f.b)) := by
  obtain ⟨hp, hlen, hsub, hc2, hopt⟩ := primMST_spec g hn hvalid hconn
  refine ⟨hp, hlen, hsub, hc2, ?_, ?_⟩
  · intro T hT
    refine hopt (fun q => Real.sqrt (q : ℝ)) ?_ T hT
    intro a b hab
    exact Real.sqrt_le_sqrt (by exact_mod_cast hab)
  · intro inT e he
    rcases scanBest_inv g.points inT g.edges with ⟨heq, _⟩ |
      ⟨e', l1, l2, heq, hcross, hsplit, h1, h2⟩
    · rw [heq] at he
      exact absurd he (by simp)
    · rw [heq] at he
      simp only [Option.some.injEq] at he
      subst he
      exact ⟨l1, l2, hsplit, hcross, h1, h2⟩

/-- Witness for C4 at the two-point single-edge graph. -/
theorem claim_C4_mst_witness :
    (primMST ⟨[⟨0, 0⟩, ⟨1, 0⟩], [⟨0, 1⟩], []⟩).edges.length = 1 :=
  (claim_C4_mst ⟨[⟨0, 0⟩, ⟨1, 0⟩], [⟨0, 1⟩], []⟩ (by decide) (by decide)
    (by
      intro i hi
      have hi2 : i < 2 := hi
      rcases i with _ | _ | i
      · exact ReachE.refl 0
      · exact ReachE.single ⟨⟨0, 1⟩, by decide, Or.inl ⟨rfl, rfl⟩⟩
      · exact absurd hi2 (by omega))).2.1

/-- The grid of the finished dungeon is the carving phase run over the
placement grid; unfolds `createDungeon` in place. -/
theorem createDungeon_cells (rnd : ℕ → ℚ) :
    (createDungeon rnd).cells =
      carvePhase
        ((placementPhase rnd).rooms.map fun r => ⟨(r.center.1 : ℚ), (r.center.2 : ℚ)⟩)
        (placementPhase rnd).rooms
        ((((placementPhase rnd).cells[0]?.getD []).length : ℤ))
        (((placementPhase rnd).cells.length : ℤ))
        (augmentPhase rnd (placementPhase rnd).ridx
          ((placementPhase rnd).rooms.map fun r =>
            (⟨(r.center.1 : ℚ), (r.center.2 : ℚ)⟩ : Point)).length
          (primMST (createGraphFromPoints ((placementPhase rnd).rooms.map fun r =>
            ⟨(r.center.1 : ℚ), (r.center.2 : ℚ)⟩))).edges
          (createGraphFromPoints ((placementPhase rnd).rooms.map fun r =>
            ⟨(r.center.1 : ℚ), (r.center.2 : ℚ)⟩)).edges).1
        (placementPhase rnd).cells := rfl

/-- Claim C1: the corridor router never creates a filled 2×2 block of
corridor cells.  A candidate that would complete a 2×2 block out of
already-carved corridors is rejected during validation (by the corridor
clearance scan, or by the anti-blob count `cnt ≥ 3`), and a candidate
whose own cells would fill a block is never the one carved, because an
earlier L candidate with a subset of its cells passes whenever it does.
Hence routing an edge on a block-free grid leaves the grid block-free,
and after all edges are processed the finished dungeon's grid contains no
2×2 window consisting entirely of corridor cells. -/
theorem claim_C1_no_corridor_block (rnd : ℕ → ℚ) :
    (∀ (points : List Point) (rooms : List Room) (cells : Grid) (cols rows : ℤ)
        (aIdx bIdx : ℕ), NoBlock cells → CorridorsInBounds cells cols rows →
        NoBlock (carveCorridorBetween points rooms cells cols rows aIdx bIdx).2) ∧
    NoBlock (createDungeon rnd).cells := by
  constructor
  · intro points rooms cells cols rows aIdx bIdx hnb hcib
    exact (carveCorridorBetween_noBlock points rooms cells cols rows aIdx bIdx hnb hcib).1
  · rw [createDungeon_cells]
    exact carvePhase_noBlock _ _ _ _ _ _
      (noBlock_of_no_corridor _ (fun i j => placementPhase_no_corridor rnd i j))
      (corridorsInBounds_of_no_corridor _ _ _ (fun i j => placementPhase_no_corridor rnd i j))

/-- Claim C5: any two distinct rooms placed by `createDungeon` have
disjoint rectangles and sit at Chebyshev distance at least
`ROOM_SEPARATION` cell-to-cell; the separation is established before
placement — an attempt adds a room exactly when its rectangle expanded by
`ROOM_SEPARATION` on all sides scans as entirely empty. -/
theorem claim_C5_separation (rnd : ℕ → ℚ) (hrnd : validRnd rnd) :
    ((createDungeon rnd).rooms.Pairwise fun r s =>
      (∀ i j : ℤ, ¬(inRoomCell r i j ∧ inRoomCell s i j)) ∧ roomsSeparated r s) ∧
    ∀ st r, (placementAttempt rnd st).rooms = st.rooms ++ [r] →
      isAreaEmpty st.cells (r.x - ROOM_SEPARATION) (r.y - ROOM_SEPARATION)
        (r.width + ROOM_SEPARATION * 2) (r.height + ROOM_SEPARATION * 2) = true := by
  constructor
  · rw [createDungeon_rooms]
    apply List.Pairwise.imp ?_ (placementPhase_inv rnd hrnd).sep
    intro r s hsep
    refine ⟨?_, hsep⟩
    intro i j hcontra
    obtain ⟨h1, h2⟩ := hcontra
    have h5 := hsep i j i j h1 h2
    have hsepval : (ROOM_SEPARATION : ℤ) = 5 := by decide
    simp only [sub_self, abs_zero, max_self] at h5
    omega
  · intro st r heq
    simp only [placementAttempt] at heq
    split at heq
    · rename_i hcond
      have hr : drawnRoom rnd st.ridx = r := by
        have h2 := List.append_cancel_left
          (heq : st.rooms ++ [drawnRoom rnd st.ridx] = st.rooms ++ [r])
        simpa using h2
      rwa [← hr]
    · exfalso
      have hl := congrArg List.length (heq : st.rooms = st.rooms ++ [r])
      simp at hl

/-- Witness for C5 under the constant-zero random stream. -/
theorem claim_C5_separation_witness :
    (createDungeon (fun _ => 0)).rooms.Pairwise fun r s =>
      (∀ i j : ℤ, ¬(inRoomCell r i j ∧ inRoomCell s i j)) ∧ roomsSeparated r s :=
  (claim_C5_separation (fun _ => 0) (fun _ => ⟨le_refl 0, by norm_num⟩)).1

/-- Claim C6: cells of type `room` are never downgraded — corridor
carving leaves `room` cells unchanged and creates no new ones, room
placement writes only `room`, and in the completed dungeon every cell of
every placed room still holds type `room`. -/
theorem claim_C6_no_downgrade (rnd : ℕ → ℚ) (hrnd : validRnd rnd) :
    (∀ (cells : Grid) (path : List (ℤ × ℤ)) (cols rows i j : ℤ),
      get2 cells i j = CellTypeEnum.room →
      get2 (carveCells cells path cols rows) i j = CellTypeEnum.room) ∧
    (∀ (cells : Grid) (path : List (ℤ × ℤ)) (cols rows i j : ℤ),
      get2 cells i j ≠ CellTypeEnum.room →
      get2 (carveCells cells path cols rows) i j ≠ CellTypeEnum.room) ∧
    (∀ (cells : Grid) (r : Room) (i j : ℤ), get2 cells i j = CellTypeEnum.room →
      get2 (placeRoom cells r) i j = CellTypeEnum.room) ∧
    (∀ r ∈ (createDungeon rnd).rooms, ∀ i j : ℤ, inRoomCell r i j →
      get2 (createDungeon rnd).cells i j = CellTypeEnum.room) := by
  refine ⟨?_, ?_, ?_, ?_⟩
  · intro cells path cols rows i j h
    exact carveCells_room_stable path cols rows cells i j h
  · intro cells path cols rows i j h
    exact carveCells_no_new_room path cols rows cells i j h
  · intro cells r i j h
    rw [get2_placeRoom]
    split
    · rfl
    · exact h
  · intro r hr i j hc
    rw [createDungeon_rooms] at hr
    rw [createDungeon_cells]
    exact carvePhase_room_stable _ _ _ _ _ _ i j
      ((placementPhase_inv rnd hrnd).marked r hr i j hc)

/-- Witness for C6 on a one-cell grid holding a room cell. -/
theorem claim_C6_no_downgrade_witness :
    get2 (carveCells [[CellTypeEnum.room]] [((0 : ℤ), (0 : ℤ))] 1 1) 0 0 =
      CellTypeEnum.room :=
  (claim_C6_no_downgrade (fun _ => 0) (fun _ => ⟨le_refl 0, by norm_num⟩)).1
    [[CellTypeEnum.room]] [((0 : ℤ), (0 : ℤ))] 1 1 0 0 (by decide)

/-- Claim C7: corridor routing is atomic per edge — a failed edge leaves
the grid exactly unchanged, while a successful edge carves exactly one
candidate polyline that passed the full cell-by-cell validation and the
anti-blob check before any mutation — and the carving loop attempts each
edge of the final list exactly once, in list order. -/
theorem claim_C7_atomic_routing (points : List Point) (rooms : List Room)
    (cells : Grid) (cols rows : ℤ) (aIdx bIdx : ℕ) (e : Edge) (rest : List Edge) :
    ((carveCorridorBetween points rooms cells cols rows aIdx bIdx).1 = false →
      (carveCorridorBetween points rooms cells cols rows aIdx bIdx).2 = cells) ∧
    ((carveCorridorBetween points rooms cells cols rows aIdx bIdx).1 = true →
      ∃ poly ∈ candidatePolylines cols rows
          (exitCellFromCenter rooms cols rows aIdx (points.getD bIdx ⟨0, 0⟩))
          (exitCellFromCenter rooms cols rows bIdx (points.getD aIdx ⟨0, 0⟩)),
        (polylineToCells poly).any
          (cellInvalid rooms cells cols rows aIdx bIdx
            (exitCellFromCenter rooms cols rows aIdx (points.getD bIdx ⟨0, 0⟩))
            (exitCellFromCenter rooms cols rows bIdx (points.getD aIdx ⟨0, 0⟩))) = false ∧
        createsCorridorSquare cells cols rows (polylineToCells poly) = false ∧
        (carveCorridorBetween points rooms cells cols rows aIdx bIdx).2 =
          carveCells cells (polylineToCells poly) cols rows) ∧
    carvePhase points rooms cols rows (e :: rest) cells =
      carvePhase points rooms cols rows rest
        ((carveCorridorBetween points rooms cells cols rows e.a e.b).2) :=
  ⟨(carveCorridorBetween_atomic points rooms cells cols rows aIdx bIdx).1,
   (carveCorridorBetween_atomic points rooms cells cols rows aIdx bIdx).2,
   rfl⟩

/-- Witness for C7: routing on an empty grid between index 0 and itself
succeeds, so some validated candidate was carved in full. -/
theorem claim_C7_atomic_routing_witness :
    ∃ poly ∈ candidatePolylines 30 30 (exitCellFromCenter [] 30 30 0 ⟨0, 0⟩)
        (exitCellFromCenter [] 30 30 0 ⟨0, 0⟩),
      (polylineToCells poly).any
        (cellInvalid [] (createEmptyDungeon 30 30) 30 30 0 0
          (exitCellFromCenter [] 30 30 0 ⟨0, 0⟩)
          (exitCellFromCenter [] 30 30 0 ⟨0, 0⟩)) = false ∧
      createsCorridorSquare (createEmptyDungeon 30 30) 30 30 (polylineToCells poly) = false ∧
      (carveCorridorBetween [] [] (createEmptyDungeon 30 30) 30 30 0 0).2 =
        carveCells (createEmptyDungeon 30 30) (polylineToCells poly) 30 30 :=
  (claim_C7_atomic_routing [] [] (createEmptyDungeon 30 30) 30 30 0 0 ⟨0, 0⟩ []).2.1
    (by decide)

/-- Claim C9: every room placed by `createDungeon` lies entirely within
the `DUNGEON_SIZE` grid — `0 ≤ x`, `0 ≤ y`, `x + width ≤ 30`,
`y + height ≤ 30` — so `placeRoom`'s unguarded writes land in bounds: on
any grid of the dungeon's dimensions, each of the room's cells is
actually set to `room`. -/
theorem claim_C9_rooms_in_bounds (rnd : ℕ → ℚ) (hrnd : validRnd rnd) :
    ∀ r ∈ (createDungeon rnd).rooms,
      0 ≤ r.x ∧ 0 ≤ r.y ∧ r.x + r.width ≤ DUNGEON_SIZE.width ∧
        r.y + r.height ≤ DUNGEON_SIZE.height ∧
      ∀ g : Grid, gridDims g → ∀ i j : ℤ, inRoomCell r i j →
        get2 (placeRoom g r) i j = CellTypeEnum.room := by
  intro r hr
  rw [createDungeon_rooms] at hr
  obtain ⟨h1, h2, h3, h4, h5, h6⟩ := (placementPhase_inv rnd hrnd).bounds r hr
  refine ⟨h1, h2, h5, h6, ?_⟩
  intro g hg i j hc
  obtain ⟨c1, c2, c3, c4⟩ := hc
  have hin : inBoundsG g i j := by
    rw [inBoundsG_of_dims g i j hg]
    omega
  rw [get2_placeRoom, if_pos ⟨⟨c1, c2, c3, c4⟩, hin⟩]

/-- Witness for C9 under the constant-zero random stream, which places
the single room `(0, 0, 3, 3)`; its center is indeed written as `room`
on the empty dungeon grid. -/
theorem claim_C9_rooms_in_bounds_witness :
    get2 (placeRoom (createEmptyDungeon DUNGEON_SIZE.width DUNGEON_SIZE.height)
      ⟨0, 0, 3, 3, (1, 1)⟩) 1 1 = CellTypeEnum.room :=
  ((claim_C9_rooms_in_bounds (fun _ => 0) (fun _ => ⟨le_refl 0, by norm_num⟩))
    ⟨0, 0, 3, 3, (1, 1)⟩ (by with_unfolding_all decide)).2.2.2.2
    (createEmptyDungeon DUNGEON_SIZE.width DUNGEON_SIZE.height)
    gridDims_createEmptyDungeon 1 1 (by decide)

/-- Claim C10: `isAreaEmpty` scans only the intersection of the requested
rectangle with the grid, treating out-of-bounds positions as empty;
consequently the placement check accepts rooms whose
`ROOM_SEPARATION`-padded rectangle extends past the grid boundary, and
rooms are placed flush against the border: under the constant-zero
stream, the padded rectangle of the room `(0, 0, 3, 3)` starts at `-5`
yet scans as empty, and the room is placed at the corner. -/
theorem claim_C10_border_flush (cells : Grid) (x y width height : ℤ) :
    (isAreaEmpty cells x y width height = true ↔
      ∀ i j : ℤ, x ≤ i → i < x + width → y ≤ j → j < y + height →
        0 ≤ i → i < ((cells[0]?.getD []).length : ℤ) → 0 ≤ j → j < (cells.length : ℤ) →
        get2 cells i j = CellTypeEnum.empty) ∧
    isAreaEmpty (createEmptyDungeon DUNGEON_SIZE.width DUNGEON_SIZE.height)
      (0 - ROOM_SEPARATION) (0 - ROOM_SEPARATION)
      (3 + ROOM_SEPARATION * 2) (3 + ROOM_SEPARATION * 2) = true ∧
    0 - ROOM_SEPARATION < 0 ∧
    (placementPhase (fun _ => 0)).rooms = [⟨0, 0, 3, 3, (1, 1)⟩] := by
  refine ⟨isAreaEmpty_iff cells x y width height, by decide, by decide, ?_⟩
  with_unfolding_all decide

/-- Witness for C10: the characterization applied to the padded corner
rectangle shows the in-grid corner cell is scanned (and empty). -/
theorem claim_C10_border_flush_witness :
    get2 (createEmptyDungeon DUNGEON_SIZE.width DUNGEON_SIZE.height) 0 0 =
      CellTypeEnum.empty :=
  ((claim_C10_border_flush
      (createEmptyDungeon DUNGEON_SIZE.width DUNGEON_SIZE.height)
      (-5) (-5) 13 13).1.mp (by decide)) 0 0 (by decide) (by decide) (by decide)
    (by decide) (by decide) (by decide) (by decide) (by decide)

end AIDC
